import Mathlib

/-!
Zing — zero-packet ping: argument interpretation, probe engine, statistics

A shallow embedding of `src/src/Zing.go`.

* Go `string` values are Lean `String`s, Go `int` / `int64` values are `Int`.
* Go `float64` values are modelled by `F64 α`: exact values of an ordered field `α`
  (rounding is not modelled) together with `+Inf`, `-Inf` and `NaN`, so that a division
  by zero behaves as in Go.  Signed zeros are not distinguished.  `math.Sqrt` on finite
  non-negative values is a parameter `sqrt : α → α` of the definitions that use it.
* The operating system is an environment `Env` of recorded answers: what address
  resolution returns for each port, what each dial returns, what the clock measures.
* The process can end in three ways: the function returns, `os.Exit` is called, or a
  run-time panic (index out of range, nil dereference, negative `make` length) occurs.
-/

namespace Zing

/-! ## float64 -/

/-- Values of Go's `float64`: an exact finite value, the two infinities, not-a-number. -/
inductive F64 (α : Type) where
  | fin (v : α)
  | posInf
  | negInf
  | nan
deriving DecidableEq, Repr

namespace F64

variable {α : Type} [LinearOrderedField α]

/-- Conversion `float64(n)` of an integer. -/
def ofInt (n : Int) : F64 α := fin (n : α)

/-- The constant `math.MaxFloat64`, `2^1023 * (2 - 2^-52)`. -/
def maxFloat64 : α := 2 ^ 1024 - 2 ^ 971

/-- Unary minus. -/
def neg : F64 α → F64 α
  | fin a => fin (-a)
  | posInf => negInf
  | negInf => posInf
  | nan => nan

/-- Addition `a + b`. -/
def add : F64 α → F64 α → F64 α
  | fin a, fin b => fin (a + b)
  | nan, _ => nan
  | _, nan => nan
  | posInf, negInf => nan
  | negInf, posInf => nan
  | posInf, _ => posInf
  | negInf, _ => negInf
  | fin _, posInf => posInf
  | fin _, negInf => negInf

/-- Subtraction `a - b`. -/
def sub (a b : F64 α) : F64 α := add a (neg b)

/-- The infinity with the given sign (`true` is negative). -/
def signedInf (negative : Bool) : F64 α := if negative then negInf else posInf

/-- Multiplication `a * b`. -/
def mul : F64 α → F64 α → F64 α
  | fin a, fin b => fin (a * b)
  | nan, _ => nan
  | _, nan => nan
  | fin a, posInf => if a = 0 then nan else signedInf (decide (a < 0))
  | fin a, negInf => if a = 0 then nan else signedInf (decide (0 < a))
  | posInf, fin b => if b = 0 then nan else signedInf (decide (b < 0))
  | negInf, fin b => if b = 0 then nan else signedInf (decide (0 < b))
  | posInf, posInf => posInf
  | negInf, negInf => posInf
  | posInf, negInf => negInf
  | negInf, posInf => negInf

/-- Division `a / b`; a finite value divided by zero is an infinity, `0 / 0` is `NaN`. -/
def div : F64 α → F64 α → F64 α
  | fin a, fin b =>
    if b = 0 then (if a = 0 then nan else signedInf (decide (a < 0))) else fin (a / b)
  | nan, _ => nan
  | _, nan => nan
  | fin _, posInf => fin 0
  | fin _, negInf => fin 0
  | posInf, fin b => signedInf (decide (b < 0))
  | negInf, fin b => signedInf (decide (0 ≤ b))
  | posInf, posInf => nan
  | posInf, negInf => nan
  | negInf, posInf => nan
  | negInf, negInf => nan

/-- Comparison `a < b`; false as soon as one side is `NaN`. -/
def lt : F64 α → F64 α → Bool
  | fin a, fin b => decide (a < b)
  | nan, _ => false
  | _, nan => false
  | negInf, negInf => false
  | negInf, _ => true
  | posInf, _ => false
  | fin _, posInf => true
  | fin _, negInf => false

/-- Comparison `a >= b`; false as soon as one side is `NaN`. -/
def ge : F64 α → F64 α → Bool
  | fin a, fin b => decide (b ≤ a)
  | nan, _ => false
  | _, nan => false
  | posInf, _ => true
  | negInf, negInf => true
  | negInf, _ => false
  | fin _, posInf => false
  | fin _, negInf => true

/-- Comparison `a > b`. -/
def gt (a b : F64 α) : Bool := lt b a

/-- The function `math.Sqrt`, given the square root `sqrt` of finite non-negative values. -/
def sqrt (sqrt : α → α) : F64 α → F64 α
  | fin a => if a < 0 then nan else fin (sqrt a)
  | posInf => posInf
  | negInf => nan
  | nan => nan

end F64

/-! ## Configuration and command line -/

/-- Usage line (constant `ZingUsage`). -/
def ZingUsage : String := "Usage: zing -h | [-4|-6] [-c count] [-op ops] [-p ports] [-t timeout] host"

/-- Constant `ConstHostName`. -/
def ConstHostName : String := "localhost"
/-- Constant `ConstHostAddr`. -/
def ConstHostAddr : String := "127.0.0.1"
/-- Constant `ConstTimeout`. -/
def ConstTimeout : Int := 3000
/-- Constant `ConstCount`. -/
def ConstCount : Int := 4
/-- Constant `ConstLimit`. -/
def ConstLimit : Int := 4
/-- Constant `ConstTcpMode`. -/
def ConstTcpMode : String := "tcp"
/-- Constant `ConstPorts`. -/
def ConstPorts : String := "80,443"

/-- The struct `ZingArgs`. -/
structure ZingArgs where
  netHostName : String
  netHostAddr : String
  netPorts : String
  gLimit : Int
  gCount : Int
  tcpMode : String
  timeout : Int
deriving DecidableEq, Repr

/-- The value `defaultConfig` built at the start of `main`. -/
def defaultConfig : ZingArgs :=
  { netHostName := ConstHostName
    netHostAddr := ConstHostAddr
    netPorts := ConstPorts
    gLimit := ConstLimit
    gCount := ConstCount
    tcpMode := ConstTcpMode
    timeout := ConstTimeout }

/-- How a piece of the program ends: it returns a value, it calls `os.Exit(code)`, or it
stops with a run-time panic. -/
inductive Outcome (σ : Type) where
  | ok (value : σ)
  | exit (code : Nat)
  | fault
deriving DecidableEq, Repr

/-- The two errors of `strconv`: `ErrSyntax` and `ErrRange`. -/
inductive NumError where
  | malformed
  | outOfRange
deriving DecidableEq, Repr

/-- The digit loop of `strconv.ParseUint(s, 10, 32)`: a byte that is not a decimal digit is
a syntax error with value 0; a value above `2^32 - 1` is a range error with value
`2^32 - 1`, returned at once. -/
def parseUintLoop : List Char → Nat → Nat × Option NumError
  | [], n => (n, none)
  | c :: cs, n =>
    if '0' ≤ c ∧ c ≤ '9' then
      if n * 10 + (c.toNat - '0'.toNat) > 2 ^ 32 - 1 then (2 ^ 32 - 1, some NumError.outOfRange)
      else parseUintLoop cs (n * 10 + (c.toNat - '0'.toNat))
    else (0, some NumError.malformed)

/-- The function `strconv.ParseUint(s, 10, 32)`. -/
def ParseUint (s : List Char) : Nat × Option NumError :=
  match s with
  | [] => (0, some NumError.malformed)
  | _ => parseUintLoop s 0

/-- The function `strconv.ParseInt(s, 10, 32)` of the Go library: an optional sign, then
decimal digits.  On a syntax error the value is 0; on a range error it is the nearest
bound, `2^31 - 1` or `-2^31`. -/
def ParseInt (s : String) : Int × Option NumError :=
  match s.toList with
  | [] => (0, some NumError.malformed)
  | c :: cs =>
    let negative : Bool := c = '-'
    let digits : List Char := if c = '+' ∨ c = '-' then cs else c :: cs
    match ParseUint digits with
    | (_, some NumError.malformed) => (0, some NumError.malformed)
    | (un, _) =>
      if !negative && decide (2 ^ 31 ≤ un) then (2 ^ 31 - 1, some NumError.outOfRange)
      else if negative && decide (2 ^ 31 < un) then (-(2 ^ 31), some NumError.outOfRange)
      else (if negative then -(un : Int) else (un : Int), none)

/-- One iteration of the loop of `processArgs`: the `switch arg` statement.  `args` is
`os.Args[1:]`, so that `os.Args[idx+2]` is `args[idx+1]`; reading it past the end is a
panic, and so is `arg[0]` on the empty string.  In the `-t` case the error branch only
prints.  The statements `idx++` of the source change the loop variable of a `range` loop,
which is assigned afresh at every iteration: they have no effect. -/
def processArg (args : List String) (idx : Nat) (arg : String) (argv : ZingArgs) :
    Outcome ZingArgs :=
  if arg = "-4" then Outcome.ok { argv with tcpMode := "tcp4" }
  else if arg = "-6" then Outcome.ok { argv with tcpMode := "tcp6" }
  else if arg = "-c" then
    match args[idx + 1]? with
    | none => Outcome.fault
    | some tok =>
      let parsed := ParseInt tok
      let argv1 := { argv with gCount := parsed.1 }
      if parsed.2.isSome then Outcome.ok { argv1 with gCount := ConstCount }
      else Outcome.ok argv1
  else if arg = "-op" then
    match args[idx + 1]? with
    | none => Outcome.fault
    | some tok =>
      let parsed := ParseInt tok
      let argv1 := { argv with gLimit := parsed.1 }
      if parsed.2.isSome then Outcome.ok { argv1 with gLimit := ConstLimit }
      else Outcome.ok argv1
  else if arg = "-p" then
    match args[idx + 1]? with
    | none => Outcome.fault
    | some lPorts => Outcome.ok { argv with netPorts := lPorts }
  else if arg = "-t" then
    match args[idx + 1]? with
    | none => Outcome.fault
    | some tok =>
      let parsed := ParseInt tok
      Outcome.ok { argv with timeout := parsed.1 }
  else if arg = "-h" then Outcome.exit 0
  else
    match arg.toList with
    | [] => Outcome.fault
    | c :: _ =>
      if c = '-' then Outcome.exit 1
      else Outcome.ok { argv with netHostName := arg, netHostAddr := "" }

/-- The loop `for idx, arg := range os.Args[1:]` of `processArgs`, from index `idx` on;
`rest` is what is left to visit. -/
def processArgsFrom (args : List String) : Nat → List String → ZingArgs → Outcome ZingArgs
  | _, [], argv => Outcome.ok argv
  | idx, arg :: rest, argv =>
    match processArg args idx arg argv with
    | Outcome.ok argv1 => processArgsFrom args (idx + 1) rest argv1
    | Outcome.exit code => Outcome.exit code
    | Outcome.fault => Outcome.fault

/-- The function `processArgs`; `args` is `os.Args[1:]`. -/
def processArgs (args : List String) (argv : ZingArgs) : Outcome ZingArgs :=
  processArgsFrom args 0 args argv

/-- The call `strings.Split(s, ",")` of the Go library. -/
def stringsSplit (s : String) : List String :=
  (s.toList.splitOn ',').map String.mk


/-! ## Probe engine -/

/-- Recorded answers of the operating system during one run. -/
structure Env where
  /-- Answer of `net.ResolveTCPAddr` for the port at a position of the port list: the text
  `hostAddr.IP.String()` on success, `none` on an error (then `hostAddr` is `nil`). -/
  resolve : Nat → Option String
  /-- Answer of `netDial.Dial` for operation `y` of cycle `x` of the port at position `p`:
  the milliseconds `elapsed.Milliseconds()` on success, `none` on an error. -/
  dial : Nat → Nat → Nat → Option Int
  /-- Milliseconds `time.Since(timeZingStart).Milliseconds()` for the port at a position. -/
  portMillis : Nat → Int

/-- The arguments of one call `netDial.Dial(network, address)` and the dialer's timeout. -/
structure DialCall where
  network : String
  address : String
  timeoutMillis : Int
deriving DecidableEq, Repr

/-- What the engine does that can be observed from outside, in order. -/
inductive Event (α : Type) where
  | resolve (port : Nat) (network : String) (address : String)
  | resolveError (port : Nat)
  | banner (port : Nat)
  | dial (port cycle op : Nat) (call : DialCall)
  | store (port cycle op : Nat) (value : F64 α)
  | report (port cycle : Nat) (value : F64 α)
  | unable (port : Nat)
  | total (port : Nat) (millis : Int)
deriving DecidableEq, Repr

/-- The variables of `main` that the port loop reads and writes, and the events so far. -/
structure Run (α : Type) where
  config : ZingArgs
  timeTable : List (F64 α)
  totalZingTime : Int
  portIndex : Nat
  trace : List (Event α)
deriving Repr

/-- How a loop body ends: it falls through, it executes `continue portLoop`, the process
exits, or a run-time panic occurs. -/
inductive Ctl where
  | normal
  | nextPort
  | exit (code : Nat)
  | fault
deriving DecidableEq, Repr

/-- The two branches of `report`: it prints `Active` and returns, or it prints `Absent!`
and calls `os.Exit(0)`. -/
inductive Verdict where
  | active
  | absent
deriving DecidableEq, Repr

section engine

variable {α : Type} [LinearOrderedField α]

/-- The function `getTotalTime`. -/
def getTotalTime (totalTime : F64 α) (portsLength : Int) (limit : Int) : F64 α :=
  F64.div (F64.div totalTime (F64.ofInt portsLength)) (F64.ofInt limit)

/-- The function `report`; what it prints is left out. -/
def report (time : F64 α) (_portCount : Int) (_args : ZingArgs) : Verdict :=
  if F64.ge time (F64.fin 0) then Verdict.active else Verdict.absent

/-- The function `doZingToHost`, given the dialer's answer: the call it makes, and its two
results. -/
def doZingToHost (answer : Option Int) (args : ZingArgs) (hostPort : String) :
    DialCall × F64 α × Bool :=
  match answer with
  | none => ({ network := "tcp", address := hostPort, timeoutMillis := args.timeout },
      F64.fin (-1), false)
  | some elapsed => ({ network := "tcp", address := hostPort, timeoutMillis := args.timeout },
      F64.ofInt elapsed, true)

/-- The loop `for y := 0; y < config.gLimit; y++` of `main` in cycle `x` of the port at
position `p`; `todo` iterations are left, starting at `y`.  The third result is
`totalTime`. -/
def opLoop (env : Env) (p : Nat) (lHost : String) (x : Nat) :
    Nat → Nat → Run α → F64 α → Ctl × Run α × F64 α
  | 0, _, r, totalTime => (Ctl.normal, r, totalTime)
  | todo + 1, y, r, totalTime =>
    match doZingToHost (env.dial p x y) r.config lHost with
    | (call, _, false) =>
      (Ctl.nextPort,
        { r with portIndex := r.portIndex + 1,
                 trace := r.trace ++ [Event.dial p x y call, Event.unable p] },
        totalTime)
    | (call, zingTime, true) =>
      if x < r.timeTable.length then
        opLoop env p lHost x todo (y + 1)
          { r with timeTable := r.timeTable.set x zingTime,
                   trace := r.trace ++ [Event.dial p x y call, Event.store p x y zingTime] }
          (F64.add totalTime zingTime)
      else (Ctl.fault, { r with trace := r.trace ++ [Event.dial p x y call] }, totalTime)

/-- The body of the loop over the cycles, for cycle `x`: the operations, then
`getTotalTime` and `report`. -/
def runCycle (env : Env) (portCount : Nat) (p : Nat) (lHost : String) (x : Nat)
    (r : Run α) : Ctl × Run α :=
  match opLoop env p lHost x r.config.gLimit.toNat 0 r (F64.fin 0) with
  | (Ctl.normal, r1, totalTime) =>
    match report (getTotalTime totalTime portCount r1.config.gLimit) portCount r1.config with
    | Verdict.active =>
      (Ctl.normal, { r1 with trace := r1.trace ++
        [Event.report p x (getTotalTime totalTime portCount r1.config.gLimit)] })
    | Verdict.absent =>
      (Ctl.exit 0, { r1 with trace := r1.trace ++
        [Event.report p x (getTotalTime totalTime portCount r1.config.gLimit)] })
  | (c, r1, _) => (c, r1)

/-- The loop `for x := 0; x < config.gCount; x++`; `todo` iterations are left, starting
at `x`. -/
def cycleLoop (env : Env) (portCount : Nat) (p : Nat) (lHost : String) :
    Nat → Nat → Run α → Ctl × Run α
  | 0, _, r => (Ctl.normal, r)
  | todo + 1, x, r =>
    match runCycle env portCount p lHost x r with
    | (Ctl.normal, r1) => cycleLoop env portCount p lHost todo (x + 1) r1
    | (c, r1) => (c, r1)

/-- The statement `if config.netHostAddr == "" { config.netHostAddr = hostAddr.IP.String() }`:
when the resolution has failed `hostAddr` is `nil` and the read is a panic (`none`). -/
def fillHostAddr (resolved : Option String) (config : ZingArgs) : Option ZingArgs :=
  if config.netHostAddr = "" then
    match resolved with
    | none => none
    | some ip => some { config with netHostAddr := ip }
  else some config

/-- The body of `portLoop` for the port at position `p`. -/
def runPort (env : Env) (portCount : Nat) (p : Nat) (port : String) (r : Run α) :
    Ctl × Run α :=
  let lHost := r.config.netHostName ++ ":" ++ port
  let r1 := { r with trace := r.trace ++ [Event.resolve p r.config.tcpMode lHost] }
  match fillHostAddr (env.resolve p) r1.config with
  | none => (Ctl.fault, r1)
  | some config1 =>
    let r2 := { r1 with
      config := config1,
      trace := r1.trace ++
        (if (env.resolve p).isNone then [Event.resolveError p] else []) ++ [Event.banner p] }
    match cycleLoop env portCount p lHost r2.config.gCount.toNat 0 r2 with
    | (Ctl.normal, r3) =>
      (Ctl.normal, { r3 with totalZingTime := env.portMillis p,
                             trace := r3.trace ++ [Event.total p (env.portMillis p)] })
    | (c, r3) => (c, r3)

/-- The loop `portLoop: for _, port := range ports`, from position `p` on. -/
def portLoop (env : Env) (portCount : Nat) : Nat → List String → Run α → Ctl × Run α
  | _, [], r => (Ctl.normal, r)
  | p, port :: rest, r =>
    match runPort env portCount p port r with
    | (Ctl.normal, r1) => portLoop env portCount (p + 1) rest r1
    | (Ctl.nextPort, r1) => portLoop env portCount (p + 1) rest r1
    | (c, r1) => (c, r1)

/-! ## Statistics -/

/-- The loop of `stddev`, with the running value of `dv`. -/
def stddevLoop (avg : F64 α) : List (F64 α) → F64 α → F64 α
  | [], dv => dv
  | dbl :: rest, dv =>
    stddevLoop avg rest (F64.add dv (F64.mul (F64.sub dbl avg) (F64.sub dbl avg)))

/-- The function `stddev`. -/
def stddev (sqrt : α → α) (avg : F64 α) (values : List (F64 α)) : F64 α :=
  F64.sqrt sqrt (F64.div (stddevLoop avg values (F64.fin 0)) (F64.ofInt values.length))

/-- The figures of the summary. -/
structure Summary (α : Type) where
  min : F64 α
  max : F64 α
  avg : F64 α
  stdDev : F64 α
deriving DecidableEq, Repr

/-- The loop `for _, val := range timeTable` at the end of `main`, on `(min, max, avg)`. -/
def scanLoop : List (F64 α) → F64 α × F64 α × F64 α → F64 α × F64 α × F64 α
  | [], acc => acc
  | val :: rest, (min, max, avg) =>
    scanLoop rest
      (if F64.gt min val then val else min, if F64.lt max val then val else max, F64.add avg val)

/-- The summary of `main`: the scan, `avg = avg / float64(config.gCount)` and `stddev`. -/
def summarize (sqrt : α → α) (gCount : Int) (timeTable : List (F64 α)) : Summary α :=
  let acc := scanLoop timeTable (F64.fin F64.maxFloat64, F64.fin (-F64.maxFloat64), F64.fin 0)
  { min := acc.1
    max := acc.2.1
    avg := F64.div acc.2.2 (F64.ofInt gCount)
    stdDev := stddev sqrt (F64.div acc.2.2 (F64.ofInt gCount)) timeTable }

/-! ## The program -/

/-- How `main` ends: `os.Exit` before the summary, a run-time panic, or the summary
followed by `os.Exit(0)`; with the state of the port loop where it has started. -/
inductive Final (α : Type) where
  | exit (code : Nat) (run : Option (Run α))
  | fault (run : Option (Run α))
  | summary (run : Run α) (figures : Summary α)

/-- The statement `make([]float64, config.gCount)` and the initial values of the variables
of `main`; a negative length is a panic. -/
def initRun (config : ZingArgs) : Option (Run α) :=
  if config.gCount < 0 then none
  else some
    { config := config
      timeTable := List.replicate config.gCount.toNat (F64.fin 0)
      totalZingTime := 0
      portIndex := 0
      trace := [] }

/-- The function `main` from the value `config` returned by `processArgs` on. -/
def mainFrom (sqrt : α → α) (env : Env) (config : ZingArgs) : Final α :=
  match initRun config with
  | none => Final.fault none
  | some r0 =>
    match portLoop env (stringsSplit config.netPorts).length 0 (stringsSplit config.netPorts) r0 with
    | (Ctl.exit code, r) => Final.exit code (some r)
    | (Ctl.fault, r) => Final.fault (some r)
    | (_, r) => Final.summary r (summarize sqrt r.config.gCount r.timeTable)

/-- The function `main`; `args` is `os.Args[1:]`. -/
def main (sqrt : α → α) (env : Env) (args : List String) : Final α :=
  if args.length < 1 then Final.exit 0 none
  else
    match processArgs args defaultConfig with
    | Outcome.exit code => Final.exit code none
    | Outcome.fault => Final.fault none
    | Outcome.ok config => mainFrom sqrt env config

end engine

/-! ## Vocabulary of the statements -/

/-- Every operation of the port at position `p` that comes before operation `y` of cycle
`x`, in the order of the two loops, has succeeded. -/
def Env.okBefore (env : Env) (limit : Nat) (p x y : Nat) : Prop :=
  ∀ x1 y1, y1 < limit → (x1 < x ∨ (x1 = x ∧ y1 < y)) → env.dial p x1 y1 ≠ none

/-- Every operation of the port at position `p` succeeds: all the dials of its `cycles`
cycles of `limit` operations. -/
def Env.allSucceed (env : Env) (cycles limit : Nat) (p : Nat) : Prop :=
  ∀ x y, x < cycles → y < limit → env.dial p x y ≠ none

/-- The position in the port list that an event belongs to. -/
def Event.port {α : Type} : Event α → Nat
  | Event.resolve p _ _ => p
  | Event.resolveError p => p
  | Event.banner p => p
  | Event.dial p _ _ _ => p
  | Event.store p _ _ _ => p
  | Event.report p _ _ => p
  | Event.unable p => p
  | Event.total p _ => p

/-- An event is in order: a dial happens within the bounds of the two loops and after
every earlier operation of its port has succeeded; a store moreover after its own dial has
succeeded. -/
def Event.InOrder {α : Type} (env : Env) (cycles limit : Nat) : Event α → Prop
  | Event.dial p x y _ => x < cycles ∧ y < limit ∧ env.okBefore limit p x y
  | Event.store p x y _ =>
    x < cycles ∧ y < limit ∧ env.okBefore limit p x y ∧ env.dial p x y ≠ none
  | _ => True

/-- The state of the port loop at the start of the cycles of the port at position `p`,
once the host address is filled in: the resolution and the banner are in the trace. -/
def Run.beforeCycles {α : Type} (env : Env) (p : Nat) (port : String) (config1 : ZingArgs)
    (r : Run α) : Run α :=
  { r with
    config := config1
    trace := r.trace ++ [Event.resolve p r.config.tcpMode (r.config.netHostName ++ ":" ++ port)]
      ++ (if (env.resolve p).isNone then [Event.resolveError p] else []) ++ [Event.banner p] }

/-- The state in which `main` ends, where the port loop has started. -/
def Final.run {α : Type} : Final α → Option (Run α)
  | Final.exit _ r => r
  | Final.fault r => r
  | Final.summary r _ => some r

/-- The events of a run of `main`. -/
def Final.trace {α : Type} (f : Final α) : List (Event α) :=
  match f.run with
  | none => []
  | some r => r.trace

/-- The figures of the summary, when `main` gets as far as printing it. -/
def Final.figures {α : Type} : Final α → Option (Summary α)
  | Final.summary _ s => some s
  | _ => none

/-- The flags that the `switch` of `processArgs` handles without ending the process. -/
def knownFlags : List String := ["-4", "-6", "-c", "-op", "-p", "-t"]

/-- A token is a host token: it is none of the flags of the `switch`, `-h` included, and
it does not start with `-`. -/
def isHostToken (tok : String) : Prop :=
  tok ∉ knownFlags ∧ tok ≠ "-h" ∧ tok.toList.head? ≠ some '-'

/-- The `total` events of a trace, in order, as pairs of a port position and its
milliseconds: one for every port whose elapsed time has been recorded. -/
def totals {α : Type} : List (Event α) → List (Nat × Int)
  | [] => []
  | Event.total p millis :: rest => (p, millis) :: totals rest
  | _ :: rest => totals rest

/-- The number of `dial` events of a trace: the number of calls of `doZingToHost`. -/
def dialCount {α : Type} : List (Event α) → Nat
  | [] => 0
  | Event.dial _ _ _ _ :: rest => dialCount rest + 1
  | _ :: rest => dialCount rest

/-- An event is active: when it is a report, the value passed to `report` is finite and
not negative. -/
def Event.Active {α : Type} [LinearOrderedField α] : Event α → Prop
  | Event.report _ _ v => ∃ t, v = F64.fin t ∧ 0 ≤ t
  | _ => True

/-! ## Runs used as examples -/

/-- An environment in which every resolution succeeds and, on every port and in every
cycle, the first dial takes 10 ms and the others 20 ms. -/
def steadyEnv : Env :=
  { resolve := fun _ => some "93.184.216.34"
    dial := fun _ _ y => if y = 0 then some 10 else some 20
    portMillis := fun _ => 30 }

/-- An environment in which every resolution succeeds and, on every port and in every
cycle, the first dial takes 10 ms and the others fail. -/
def secondFailsEnv : Env :=
  { resolve := fun _ => some "93.184.216.34"
    dial := fun _ _ y => if y = 0 then some 10 else none
    portMillis := fun _ => 30 }

/-- An environment in which every resolution succeeds, every dial on the first port fails
and every dial on the other ports takes 5 ms. -/
def firstPortDownEnv : Env :=
  { resolve := fun _ => some "93.184.216.34"
    dial := fun p _ _ => if p = 0 then none else some 5
    portMillis := fun _ => 30 }

/-- An environment in which every resolution succeeds and every dial fails. -/
def allDownEnv : Env :=
  { resolve := fun _ => some "93.184.216.34"
    dial := fun _ _ _ => none
    portMillis := fun _ => 0 }

/-- An environment in which no resolution succeeds and every dial would take 5 ms. -/
def unresolvedEnv : Env :=
  { resolve := fun _ => none
    dial := fun _ _ _ => some 5
    portMillis := fun _ => 30 }

/-- An environment in which every resolution succeeds, every dial on the first port takes
5 ms and every dial on the other ports fails; the cycles of the first port take 30 ms,
those of the other ports 7 ms. -/
def lastPortDownEnv : Env :=
  { resolve := fun _ => some "93.184.216.34"
    dial := fun p _ _ => if p = 0 then some 5 else none
    portMillis := fun p => if p = 0 then 30 else 7 }

/-- The configuration of `zing -c 1 -op 2 example.com`: one cycle of two operations on the
ports 80 and 443. -/
def twoOpsConfig : ZingArgs :=
  { defaultConfig with netHostName := "example.com", netHostAddr := "", gLimit := 2, gCount := 1 }

/-- The configuration of `zing -c 1 -op 1 example.com`: one cycle of one operation on the
ports 80 and 443. -/
def oneOpConfig : ZingArgs :=
  { defaultConfig with netHostName := "example.com", netHostAddr := "", gLimit := 1, gCount := 1 }

/-- The state of the port loop of `twoOpsConfig` at the start of the first cycle of the
first port. -/
def twoOpsRun (α : Type) [LinearOrderedField α] : Run α :=
  { config := { twoOpsConfig with netHostAddr := "93.184.216.34" }
    timeTable := [F64.fin 0]
    totalZingTime := 0
    portIndex := 0
    trace := [Event.resolve 0 "tcp" "example.com:80", Event.banner 0] }

/-! # Theorems -/

/-! ## Command line -/

/-- A negative value is returned by `ParseInt` only for a token that starts with `-`. -/
theorem ParseInt_neg (tok : String) (hn : (ParseInt tok).1 < 0) :
    ∃ cs, tok.toList = '-' :: cs := by
  rcases tok with ⟨l⟩
  cases l with
  | nil => simp [ParseInt, String.toList] at hn
  | cons c cs =>
    by_cases hc : c = '-'
    · exact ⟨cs, by simp [String.toList, hc]⟩
    · exfalso
      simp only [ParseInt, String.toList, hc, decide_False, Bool.not_false, Bool.true_and,
        Bool.false_and, or_false] at hn
      revert hn
      split
      · simp
      · split_ifs <;> simp_all

/-- The result of `strings.Split` is never empty. -/
theorem stringsSplit_ne_nil (s : String) : stringsSplit s ≠ [] := by
  unfold stringsSplit
  intro h
  rw [List.map_eq_nil_iff] at h
  exact List.splitOnP_ne_nil _ _ h

/-- What one iteration that returns has done, case by case of the `switch`. -/
theorem processArg_ok_cases (args : List String) (idx : Nat) (arg : String) (a b : ZingArgs)
    (h : processArg args idx arg a = Outcome.ok b) :
    (arg = "-4" ∧ b = { a with tcpMode := "tcp4" }) ∨
    (arg = "-6" ∧ b = { a with tcpMode := "tcp6" }) ∨
    (arg = "-c" ∧ ∃ tok, args[idx + 1]? = some tok ∧
      b = { a with gCount := if (ParseInt tok).2.isSome then ConstCount else (ParseInt tok).1 }) ∨
    (arg = "-op" ∧ ∃ tok, args[idx + 1]? = some tok ∧
      b = { a with gLimit := if (ParseInt tok).2.isSome then ConstLimit else (ParseInt tok).1 }) ∨
    (arg = "-p" ∧ ∃ tok, args[idx + 1]? = some tok ∧ b = { a with netPorts := tok }) ∨
    (arg = "-t" ∧ ∃ tok, args[idx + 1]? = some tok ∧ b = { a with timeout := (ParseInt tok).1 }) ∨
    ((∃ c cs, arg.toList = c :: cs ∧ c ≠ '-') ∧
      b = { a with netHostName := arg, netHostAddr := "" }) := by
  unfold processArg at h
  split_ifs at h with h1 h2 h3 h4 h5 h6 h7
  · injection h with h; exact Or.inl ⟨h1, h.symm⟩
  · injection h with h; exact Or.inr (Or.inl ⟨h2, h.symm⟩)
  · cases hn : args[idx + 1]? with
    | none => rw [hn] at h; cases h
    | some tok =>
      rw [hn] at h
      simp only at h
      refine Or.inr (Or.inr (Or.inl ⟨h3, tok, rfl, ?_⟩))
      split_ifs at h with he <;> injection h with h <;> simp [he, ← h]
  · cases hn : args[idx + 1]? with
    | none => rw [hn] at h; cases h
    | some tok =>
      rw [hn] at h
      simp only at h
      refine Or.inr (Or.inr (Or.inr (Or.inl ⟨h4, tok, rfl, ?_⟩)))
      split_ifs at h with he <;> injection h with h <;> simp [he, ← h]
  · cases hn : args[idx + 1]? with
    | none => rw [hn] at h; cases h
    | some tok =>
      rw [hn] at h
      injection h with h
      exact Or.inr (Or.inr (Or.inr (Or.inr (Or.inl ⟨h5, tok, rfl, h.symm⟩))))
  · cases hn : args[idx + 1]? with
    | none => rw [hn] at h; cases h
    | some tok =>
      rw [hn] at h
      injection h with h
      exact Or.inr (Or.inr (Or.inr (Or.inr (Or.inr (Or.inl ⟨h6, tok, rfl, h.symm⟩)))))
  · cases hl : arg.toList with
    | nil => rw [hl] at h; cases h
    | cons c cs =>
      rw [hl] at h
      simp only at h
      split_ifs at h with hc
      injection h with h
      exact Or.inr (Or.inr (Or.inr (Or.inr (Or.inr (Or.inr ⟨⟨c, cs, rfl, hc⟩, h.symm⟩)))))

/-- A token accepted by the `switch` that starts with `-` is one of the six flags. -/
theorem processArg_ok_dash (args : List String) (i : Nat) (arg : String) (a b : ZingArgs)
    (h : processArg args i arg a = Outcome.ok b) (cs : List Char)
    (hd : arg.toList = '-' :: cs) :
    arg = "-4" ∨ arg = "-6" ∨ arg = "-c" ∨ arg = "-op" ∨ arg = "-p" ∨ arg = "-t" := by
  rcases processArg_ok_cases args i arg a b h with h1 | h1 | h1 | h1 | h1 | h1 | h1
  · exact Or.inl h1.1
  · exact Or.inr (Or.inl h1.1)
  · exact Or.inr (Or.inr (Or.inl h1.1))
  · exact Or.inr (Or.inr (Or.inr (Or.inl h1.1)))
  · exact Or.inr (Or.inr (Or.inr (Or.inr (Or.inl h1.1))))
  · exact Or.inr (Or.inr (Or.inr (Or.inr (Or.inr h1.1))))
  · obtain ⟨⟨c, cs1, hl, hc⟩, _⟩ := h1
    rw [hd] at hl
    injection hl with hc1 _
    exact absurd hc1.symm hc

/-- The position `idx` of the loop holds the head of what is left to visit. -/
theorem drop_cons_getElem (args : List String) (idx : Nat) (a : String) (rest : List String)
    (hd : args.drop idx = a :: rest) : args[idx]? = some a ∧ args.drop (idx + 1) = rest := by
  have hidx : idx < args.length := by
    have := congrArg List.length hd
    simp at this
    omega
  have hd2 := List.drop_eq_getElem_cons hidx
  rw [hd] at hd2
  injection hd2 with ha hrest
  exact ⟨by rw [List.getElem?_eq_getElem hidx, ha], hrest.symm⟩

/-- Every token visited by the loop of `processArgs` is accepted by the `switch`, the
tokens that follow a flag included. -/
theorem processArgsFrom_visits (args : List String) :
    ∀ (rest : List String) (idx : Nat) (argv cfg : ZingArgs),
      args.drop idx = rest → processArgsFrom args idx rest argv = Outcome.ok cfg →
      ∀ i arg, idx ≤ i → args[i]? = some arg →
        ∃ a b, processArg args i arg a = Outcome.ok b := by
  intro rest
  induction rest with
  | nil =>
    intro idx argv cfg hd _ i arg hi hget
    have hlen : args.length ≤ idx := by
      have := congrArg List.length hd
      simp at this
      omega
    have : i < args.length := by
      rcases List.getElem?_eq_some_iff.mp hget with ⟨h, _⟩
      exact h
    omega
  | cons a rest ih =>
    intro idx argv cfg hd h i arg hi hget
    obtain ⟨hget0, hrest⟩ := drop_cons_getElem args idx a rest hd
    simp only [processArgsFrom] at h
    cases hstep : processArg args idx a argv with
    | ok argv1 =>
      rw [hstep] at h
      rcases Nat.eq_or_lt_of_le hi with heq | hlt
      · subst heq
        rw [hget0] at hget
        injection hget with hget
        subst hget
        exact ⟨argv, argv1, hstep⟩
      · exact ih (idx + 1) argv1 cfg hrest h i arg hlt hget
    | exit code => rw [hstep] at h; cases h
    | fault => rw [hstep] at h; cases h

/-- A property kept by every iteration of the loop holds of the returned value. -/
theorem processArgsFrom_invariant (args : List String) (P : ZingArgs → Prop)
    (hstep : ∀ idx arg a b, args[idx]? = some arg → P a →
      processArg args idx arg a = Outcome.ok b → P b) :
    ∀ (rest : List String) (idx : Nat) (argv cfg : ZingArgs),
      args.drop idx = rest → P argv →
      processArgsFrom args idx rest argv = Outcome.ok cfg → P cfg := by
  intro rest
  induction rest with
  | nil =>
    intro idx argv cfg _ hP h
    simp only [processArgsFrom] at h
    injection h with h
    rw [← h]
    exact hP
  | cons a rest ih =>
    intro idx argv cfg hd hP h
    obtain ⟨hget0, hrest⟩ := drop_cons_getElem args idx a rest hd
    simp only [processArgsFrom] at h
    cases hs : processArg args idx a argv with
    | ok argv1 =>
      rw [hs] at h
      exact ih (idx + 1) argv1 cfg hrest (hstep idx a argv argv1 hget0 hP hs) h
    | exit code => rw [hs] at h; cases h
    | fault => rw [hs] at h; cases h

/-- The value that `ParseInt` returns together with an error, for a token that the
`switch` accepts, is not negative. -/
theorem ParseInt_err_nonneg (args : List String) (i : Nat) (tok : String) (a b : ZingArgs)
    (h : processArg args i tok a = Outcome.ok b) (he : (ParseInt tok).2.isSome) :
    0 ≤ (ParseInt tok).1 := by
  by_contra hneg
  push_neg at hneg
  obtain ⟨cs, hcs⟩ := ParseInt_neg tok hneg
  rcases processArg_ok_dash args i tok a b h cs hcs with h1 | h1 | h1 | h1 | h1 | h1 <;>
    subst h1 <;> revert he hneg <;> decide

/-- C8, the code at the claim's own example: with the host first, the value `5` of `-c`
is visited again by the loop and taken as the host name, so the host name is `5` and not
`example.com`; with the host last the later token overwrites it. -/
theorem processArgs_value_token_visited_again :
    processArgs ["example.com", "-c", "5"] defaultConfig =
      Outcome.ok { defaultConfig with netHostName := "5", netHostAddr := "", gCount := 5 } ∧
    processArgs ["-c", "5", "example.com"] defaultConfig =
      Outcome.ok { defaultConfig with
        netHostName := "example.com", netHostAddr := "", gCount := 5 } := by
  decide

/-- C9, the code at `-t abc`: the token does not parse, and the timeout of the returned
configuration is the 0 that `ParseInt` returns, not the default 3000; and a token such as
`-x` after `-c` ends the process with exit code 1. -/
theorem processArgs_timeout_not_defaulted :
    ParseInt "abc" = (0, some NumError.malformed) ∧
    processArgs ["-t", "abc", "example.com"] defaultConfig =
      Outcome.ok { defaultConfig with
        netHostName := "example.com", netHostAddr := "", timeout := 0 } ∧
    (ParseInt "-x").2 = some NumError.malformed ∧
    processArgs ["-c", "-x", "example.com"] defaultConfig = Outcome.exit 1 := by
  decide

/-- C10 as stated fails: `-c 0 -op -4 -t -6 example.com` returns a configuration with
0 cycles, -4 operations per cycle and a timeout of -6. -/
theorem processArgs_bounds_counterexample :
    processArgs ["-c", "0", "-op", "-4", "-t", "-6", "example.com"] defaultConfig =
      Outcome.ok
        { netHostName := "example.com", netHostAddr := "", netPorts := "80,443",
          gLimit := -4, gCount := 0, tcpMode := "tcp6", timeout := -6 } ∧
    ¬ (1 ≤ (-4 : Int)) ∧ ¬ (1 ≤ (0 : Int)) ∧ ¬ (0 ≤ (-6 : Int)) := by
  decide

/-- C10, amended: for every argument list on which `processArgs` returns a configuration
from the default one, the port list obtained by splitting on `,` is not empty; the number
of cycles is at least 1 unless some `-c` is followed by a token that parses to an integer
below 1, the number of operations per cycle is at least 1 unless some `-op` is followed
by such a token, and the timeout is at least 0 unless some `-t` is followed by a token
that parses to a negative integer. -/
theorem processArgs_config_bounds (args : List String) (cfg : ZingArgs)
    (h : processArgs args defaultConfig = Outcome.ok cfg) :
    stringsSplit cfg.netPorts ≠ [] ∧
    ((∀ i tok, args[i]? = some "-c" → args[i + 1]? = some tok →
        (ParseInt tok).2 = none → 1 ≤ (ParseInt tok).1) → 1 ≤ cfg.gCount) ∧
    ((∀ i tok, args[i]? = some "-op" → args[i + 1]? = some tok →
        (ParseInt tok).2 = none → 1 ≤ (ParseInt tok).1) → 1 ≤ cfg.gLimit) ∧
    ((∀ i tok, args[i]? = some "-t" → args[i + 1]? = some tok →
        (ParseInt tok).2 = none → 0 ≤ (ParseInt tok).1) → 0 ≤ cfg.timeout) := by
  have hvisit := processArgsFrom_visits args args 0 defaultConfig cfg rfl h
  refine ⟨stringsSplit_ne_nil _, ?_, ?_, ?_⟩
  · intro hC
    refine processArgsFrom_invariant args (fun a => 1 ≤ a.gCount) ?_ args 0 defaultConfig cfg
      rfl (by decide) h
    intro idx arg a b hget hP hs
    rcases processArg_ok_cases args idx arg a b hs with
      ⟨_, hb⟩ | ⟨_, hb⟩ | ⟨ha, tok, ht, hb⟩ | ⟨_, tok, _, hb⟩ | ⟨_, tok, _, hb⟩ |
      ⟨_, tok, _, hb⟩ | ⟨_, hb⟩ <;> subst hb <;> try exact hP
    subst ha
    show 1 ≤ (if (ParseInt tok).2.isSome then ConstCount else (ParseInt tok).1)
    split_ifs with he
    · decide
    · exact hC idx tok hget ht (by simpa using he)
  · intro hL
    refine processArgsFrom_invariant args (fun a => 1 ≤ a.gLimit) ?_ args 0 defaultConfig cfg
      rfl (by decide) h
    intro idx arg a b hget hP hs
    rcases processArg_ok_cases args idx arg a b hs with
      ⟨_, hb⟩ | ⟨_, hb⟩ | ⟨_, tok, _, hb⟩ | ⟨ha, tok, ht, hb⟩ | ⟨_, tok, _, hb⟩ |
      ⟨_, tok, _, hb⟩ | ⟨_, hb⟩ <;> subst hb <;> try exact hP
    subst ha
    show 1 ≤ (if (ParseInt tok).2.isSome then ConstLimit else (ParseInt tok).1)
    split_ifs with he
    · decide
    · exact hL idx tok hget ht (by simpa using he)
  · intro hT
    refine processArgsFrom_invariant args (fun a => 0 ≤ a.timeout) ?_ args 0 defaultConfig cfg
      rfl (by decide) h
    intro idx arg a b hget hP hs
    rcases processArg_ok_cases args idx arg a b hs with
      ⟨_, hb⟩ | ⟨_, hb⟩ | ⟨_, tok, _, hb⟩ | ⟨_, tok, _, hb⟩ | ⟨_, tok, _, hb⟩ |
      ⟨ha, tok, ht, hb⟩ | ⟨_, hb⟩ <;> subst hb <;> try exact hP
    subst ha
    show 0 ≤ (ParseInt tok).1
    cases he : (ParseInt tok).2 with
    | none => exact hT idx tok hget ht he
    | some e =>
      obtain ⟨a1, b1, hs1⟩ := hvisit (idx + 1) tok (Nat.zero_le _) ht
      exact ParseInt_err_nonneg args (idx + 1) tok a1 b1 hs1 (by simp [he])

/-- C10, amended, at `-c 5 example.com`: the configuration has 5 cycles, 4 operations per
cycle, the timeout 3000 and two ports. -/
theorem processArgs_config_bounds_witness :
    processArgs ["-c", "5", "example.com"] defaultConfig =
      Outcome.ok { defaultConfig with
        netHostName := "example.com", netHostAddr := "", gCount := 5 } ∧
    stringsSplit ConstPorts ≠ [] ∧ 1 ≤ (5 : Int) ∧ 1 ≤ ConstLimit ∧ 0 ≤ ConstTimeout :=
  have h : processArgs ["-c", "5", "example.com"] defaultConfig =
      Outcome.ok { defaultConfig with
        netHostName := "example.com", netHostAddr := "", gCount := 5 } := by decide
  have hb := processArgs_config_bounds ["-c", "5", "example.com"] _ h
  ⟨h, hb.1,
    hb.2.1 (by
      intro i tok h1 h2 _
      have hi : i = 0 := by
        rcases i with _ | _ | _ | i <;> simp at h1 ⊢
      subst hi
      simp at h2
      subst h2
      decide),
    hb.2.2.1 (by
      intro i tok h1 _ _
      rcases i with _ | _ | _ | i <;> simp at h1),
    hb.2.2.2 (by
      intro i tok h1 _ _
      rcases i with _ | _ | _ | i <;> simp at h1)⟩

/-! ## Arithmetic of finite values -/

section stats

variable {α : Type} [LinearOrderedField α]

theorem F64.add_fin (a b : α) : F64.add (F64.fin a) (F64.fin b) = F64.fin (a + b) := rfl

theorem F64.sub_fin (a b : α) : F64.sub (F64.fin a) (F64.fin b) = F64.fin (a - b) := by
  simp [F64.sub, F64.neg, F64.add, sub_eq_add_neg]

theorem F64.mul_fin (a b : α) : F64.mul (F64.fin a) (F64.fin b) = F64.fin (a * b) := rfl

theorem F64.div_fin (a b : α) (hb : b ≠ 0) :
    F64.div (F64.fin a) (F64.fin b) = F64.fin (a / b) := by
  simp [F64.div, hb]

/-! ## Statistics -/

/-- On finite values the loop of `stddev` adds up the squared deviations. -/
theorem stddevLoop_fin (avg : α) :
    ∀ (values : List α) (dv : α),
      stddevLoop (F64.fin avg) (values.map F64.fin) (F64.fin dv) =
        F64.fin (dv + (values.map (fun v => (v - avg) ^ 2)).sum) := by
  intro values
  induction values with
  | nil => intro dv; simp [stddevLoop]
  | cons v rest ih =>
    intro dv
    simp only [List.map_cons, stddevLoop, F64.sub_fin, F64.mul_fin, F64.add_fin, ih,
      List.sum_cons]
    congr 1
    ring

theorem sum_sq_nonneg (avg : α) (values : List α) :
    0 ≤ (values.map (fun v => (v - avg) ^ 2)).sum := by
  apply List.sum_nonneg
  intro x hx
  rcases List.mem_map.mp hx with ⟨v, _, rfl⟩
  positivity

theorem length_cast_ne_zero (values : List α) (hne : values ≠ []) :
    (((values.length : Int) : α)) ≠ 0 := by
  have : 0 < values.length := List.length_pos.mpr hne
  have h2 : (0 : α) < ((values.length : Int) : α) := by exact_mod_cast this
  exact ne_of_gt h2

/-- On a non-empty sequence of finite values `stddev` is the square root of the mean
squared deviation. -/
theorem stddev_fin (sqrt : α → α) (avg : α) (values : List α) (hne : values ≠ []) :
    stddev sqrt (F64.fin avg) (values.map F64.fin) =
      F64.fin (sqrt ((values.map (fun v => (v - avg) ^ 2)).sum / (values.length : α))) := by
  unfold stddev
  rw [stddevLoop_fin, List.length_map, F64.ofInt, F64.div_fin _ _ (length_cast_ne_zero values hne)]
  have h0 : 0 ≤ (0 + (values.map (fun v => (v - avg) ^ 2)).sum) / (((values.length : Int) : α)) := by
    apply div_nonneg
    · simpa using sum_sq_nonneg avg values
    · exact_mod_cast Nat.zero_le _
  simp only [F64.sqrt, not_lt.mpr h0, if_false]
  simp

/-- C5: on every non-empty sequence of finite values, for every `avg`, `stddev` is the
square root of the sum of the squared deviations from `avg` divided by the number of
values (and not by that number minus one), so that its square is that quotient; `sqrt` is
any function that is a square root on the non-negative values. -/
theorem stddev_population (sqrt : α → α) (hsqrt : ∀ a, 0 ≤ a → sqrt a * sqrt a = a)
    (avg : α) (values : List α) (hne : values ≠ []) :
    stddev sqrt (F64.fin avg) (values.map F64.fin) =
      F64.fin (sqrt ((values.map (fun v => (v - avg) ^ 2)).sum / (values.length : α))) ∧
    F64.mul (stddev sqrt (F64.fin avg) (values.map F64.fin))
        (stddev sqrt (F64.fin avg) (values.map F64.fin)) =
      F64.fin ((values.map (fun v => (v - avg) ^ 2)).sum / (values.length : α)) := by
  refine ⟨stddev_fin sqrt avg values hne, ?_⟩
  rw [stddev_fin sqrt avg values hne, F64.mul_fin, hsqrt]
  apply div_nonneg (sum_sq_nonneg avg values)
  exact_mod_cast Nat.zero_le _

/-- C5 at the values 10, 20, 30 with mean 20, over the real numbers: the square of the
standard deviation is 200/3. -/
theorem stddev_population_witness :
    (∀ a : ℝ, 0 ≤ a → Real.sqrt a * Real.sqrt a = a) ∧ ([10, 20, 30] : List ℝ) ≠ [] ∧
    F64.mul (stddev Real.sqrt (F64.fin 20) [F64.fin 10, F64.fin 20, F64.fin 30])
        (stddev Real.sqrt (F64.fin 20) [F64.fin 10, F64.fin 20, F64.fin 30]) =
      F64.fin (200 / 3 : ℝ) :=
  ⟨fun _ h => Real.mul_self_sqrt h, by simp, by
    have h := (stddev_population Real.sqrt (fun _ h => Real.mul_self_sqrt h) 20 [10, 20, 30]
      (by simp)).2
    norm_num at h
    exact h⟩

/-- On `n ≥ 1` copies of a finite value, with that value as the mean, `stddev` is the
square root of 0. -/
theorem stddev_replicate (sqrt : α → α) (hsqrt : sqrt 0 = 0) (x : α) (n : Nat) (hn : 1 ≤ n) :
    stddev sqrt (F64.fin x) (List.replicate n (F64.fin x)) = F64.fin 0 := by
  have hne : List.replicate n x ≠ [] := by
    intro h
    have := congrArg List.length h
    simp at this
    omega
  have h := stddev_fin sqrt x (List.replicate n x) hne
  rw [List.map_replicate] at h
  rw [h]
  simp [List.map_replicate, List.sum_replicate, hsqrt]

/-- C7: the standard deviation of `n ≥ 1` copies of a value `x`, with mean `x`, is exactly
0; `sqrt` is any function with `sqrt 0 = 0`. -/
theorem stddev_constant (sqrt : α → α) (hsqrt : sqrt 0 = 0) (x : α) (n : Nat) (hn : 1 ≤ n) :
    stddev sqrt (F64.fin x) (List.replicate n (F64.fin x)) = F64.fin 0 :=
  stddev_replicate sqrt hsqrt x n hn

/-- C7 at three copies of 5, over the real numbers. -/
theorem stddev_constant_witness :
    Real.sqrt 0 = 0 ∧ 1 ≤ 3 ∧
    stddev Real.sqrt (F64.fin (5 : ℝ)) (List.replicate 3 (F64.fin 5)) = F64.fin 0 :=
  ⟨Real.sqrt_zero, by decide, stddev_constant Real.sqrt Real.sqrt_zero 5 3 (by decide)⟩

/-- On finite values the scan of `main` returns the sum, a lower bound and an upper bound
of the values, each of them an element or the starting value. -/
theorem scanLoop_fin :
    ∀ (values : List α) (mn mx s : α),
      ∃ m M, scanLoop (values.map F64.fin) (F64.fin mn, F64.fin mx, F64.fin s) =
          (F64.fin m, F64.fin M, F64.fin (s + values.sum)) ∧
        (m = mn ∨ m ∈ values) ∧ m ≤ mn ∧ (∀ v ∈ values, m ≤ v) ∧
        (M = mx ∨ M ∈ values) ∧ mx ≤ M ∧ (∀ v ∈ values, v ≤ M) := by
  intro values
  induction values with
  | nil =>
    intro mn mx s
    exact ⟨mn, mx, by simp [scanLoop], Or.inl rfl, le_refl _, by simp, Or.inl rfl, le_refl _,
      by simp⟩
  | cons v rest ih =>
    intro mn mx s
    obtain ⟨m, M, heq, hm1, hm2, hm3, hM1, hM2, hM3⟩ :=
      ih (if v < mn then v else mn) (if mx < v then v else mx) (s + v)
    refine ⟨m, M, ?_, ?_, ?_, ?_, ?_, ?_, ?_⟩
    · simp only [List.map_cons, scanLoop, F64.gt, F64.lt, F64.add, List.sum_cons]
      rw [← add_assoc, ← heq]
      congr 2
      · split_ifs <;> simp_all
      · congr 1
        split_ifs <;> simp_all
    · rcases hm1 with h | h
      · split_ifs at h with hv
        · exact Or.inr (by simp [h])
        · exact Or.inl h
      · exact Or.inr (List.mem_cons_of_mem _ h)
    · split_ifs at hm2 with hv
      · exact le_trans hm2 (le_of_lt hv)
      · exact hm2
    · intro w hw
      rcases List.mem_cons.mp hw with h | h
      · subst h
        split_ifs at hm2 with hv
        · exact hm2
        · exact le_trans hm2 (not_lt.mp hv)
      · exact hm3 w h
    · rcases hM1 with h | h
      · split_ifs at h with hv
        · exact Or.inr (by simp [h])
        · exact Or.inl h
      · exact Or.inr (List.mem_cons_of_mem _ h)
    · split_ifs at hM2 with hv
      · exact le_trans (le_of_lt hv) hM2
      · exact hM2
    · intro w hw
      rcases List.mem_cons.mp hw with h | h
      · subst h
        split_ifs at hM2 with hv
        · exact hM2
        · exact le_trans (not_lt.mp hv) hM2
      · exact hM3 w h

/-- C6: on every non-empty table of finite `float64` values, with `gCount` its length,
the mean of the summary is the sum of the values divided by their number, the minimum is
an element that is at most every element, the maximum an element that is at least every
element. -/
theorem summarize_mean_min_max (sqrt : α → α) (values : List α) (hne : values ≠ [])
    (hfin : ∀ v ∈ values, -F64.maxFloat64 ≤ v ∧ v ≤ F64.maxFloat64) :
    (summarize sqrt values.length (values.map F64.fin)).avg =
        F64.fin (values.sum / (values.length : α)) ∧
    (∃ m ∈ values, (summarize sqrt values.length (values.map F64.fin)).min = F64.fin m ∧
        ∀ v ∈ values, m ≤ v) ∧
    (∃ M ∈ values, (summarize sqrt values.length (values.map F64.fin)).max = F64.fin M ∧
        ∀ v ∈ values, v ≤ M) := by
  obtain ⟨m, M, heq, hm1, _, hm3, hM1, _, hM3⟩ :=
    scanLoop_fin values F64.maxFloat64 (-F64.maxFloat64) 0
  obtain ⟨w, hw⟩ := List.exists_mem_of_ne_nil values hne
  simp only [summarize, heq, zero_add, F64.ofInt,
    F64.div_fin _ _ (length_cast_ne_zero values hne)]
  refine ⟨by simp, ⟨m, ?_, rfl, hm3⟩, ⟨M, ?_, rfl, hM3⟩⟩
  · rcases hm1 with h | h
    · have h1 : w = m := le_antisymm (by rw [h]; exact (hfin w hw).2) (hm3 w hw)
      rw [← h1]; exact hw
    · exact h
  · rcases hM1 with h | h
    · have h1 : w = M := le_antisymm (hM3 w hw) (by rw [h]; exact (hfin w hw).1)
      rw [← h1]; exact hw
    · exact h

/-- C6 at the table 3, 1, 2 over the real numbers. -/
theorem summarize_mean_min_max_witness :
    ([3, 1, 2] : List ℝ) ≠ [] ∧
    (∀ v ∈ ([3, 1, 2] : List ℝ), -F64.maxFloat64 ≤ v ∧ v ≤ F64.maxFloat64) ∧
    (summarize Real.sqrt 3 [F64.fin (3 : ℝ), F64.fin 1, F64.fin 2]).avg = F64.fin 2 ∧
    (∃ m ∈ ([3, 1, 2] : List ℝ),
      (summarize Real.sqrt 3 [F64.fin (3 : ℝ), F64.fin 1, F64.fin 2]).min = F64.fin m ∧
        ∀ v ∈ ([3, 1, 2] : List ℝ), m ≤ v) ∧
    (∃ M ∈ ([3, 1, 2] : List ℝ),
      (summarize Real.sqrt 3 [F64.fin (3 : ℝ), F64.fin 1, F64.fin 2]).max = F64.fin M ∧
        ∀ v ∈ ([3, 1, 2] : List ℝ), v ≤ M) := by
  have hfin : ∀ v ∈ ([3, 1, 2] : List ℝ), -F64.maxFloat64 ≤ v ∧ v ≤ F64.maxFloat64 := by
    intro v hv
    simp only [List.mem_cons, List.mem_singleton, List.not_mem_nil, or_false] at hv
    rcases hv with h | h | h <;> subst h <;> constructor <;> norm_num [F64.maxFloat64]
  have h := summarize_mean_min_max Real.sqrt ([3, 1, 2] : List ℝ) (by simp) hfin
  refine ⟨by simp, hfin, ?_, h.2.1, h.2.2⟩
  have h1 := h.1
  norm_num at h1
  exact h1

end stats

/-! ## Probe engine -/

section engine

variable {α : Type} [LinearOrderedField α]

theorem doZingToHost_some (e : Int) (args : ZingArgs) (hostPort : String) :
    (doZingToHost (some e) args hostPort : DialCall × F64 α × Bool) =
      ({ network := "tcp", address := hostPort, timeoutMillis := args.timeout },
        F64.ofInt e, true) := rfl

theorem doZingToHost_none (args : ZingArgs) (hostPort : String) :
    (doZingToHost none args hostPort : DialCall × F64 α × Bool) =
      ({ network := "tcp", address := hostPort, timeoutMillis := args.timeout },
        F64.fin (-1), false) := rfl

/-- The operations of a cycle whose dials all succeed: the loop ends normally, the total
is the sum of the elapsed times, and the entry `x` of the table is the last of them. -/
theorem opLoop_all_succeed (env : Env) (p : Nat) (lHost : String) (x : Nat) :
    ∀ (es : List Int) (y : Nat) (r : Run α) (t : α),
      x < r.timeTable.length →
      (∀ i (h : i < es.length), env.dial p x (y + i) = some es[i]) →
      ∃ r1, opLoop env p lHost x es.length y r (F64.fin t) =
          (Ctl.normal, r1, F64.fin (t + ((es.sum : Int) : α))) ∧
        r1.config = r.config ∧
        r1.timeTable = (match es.getLast? with
          | none => r.timeTable
          | some e => r.timeTable.set x (F64.ofInt e)) := by
  intro es
  induction es with
  | nil =>
    intro y r t _ _
    exact ⟨r, by simp [opLoop], rfl, rfl⟩
  | cons e rest ih =>
    intro y r t hx hok
    have h0 : env.dial p x y = some e := by
      have := hok 0 (by simp)
      simpa using this
    have hrest : ∀ i (h : i < rest.length), env.dial p x (y + 1 + i) = some rest[i] := by
      intro i h
      have := hok (i + 1) (by simp; omega)
      simp only [List.getElem_cons_succ] at this
      rw [← this]
      congr 1
      omega
    obtain ⟨r1, h1, h2, h3⟩ := ih (y + 1)
      { r with timeTable := r.timeTable.set x (F64.ofInt e),
               trace := r.trace ++ [Event.dial p x y
                 { network := "tcp", address := lHost, timeoutMillis := r.config.timeout },
                 Event.store p x y (F64.ofInt e)] }
      (t + (e : α)) (by simpa using hx) hrest
    refine ⟨r1, ?_, h2, ?_⟩
    · simp only [List.length_cons, opLoop, h0, doZingToHost_some, hx, if_true, F64.ofInt,
        F64.add]
      simp only [F64.ofInt] at h1
      rw [h1]
      simp [add_assoc]
    · rw [h3]
      cases rest with
      | nil => simp
      | cons e2 rest2 =>
        simp [List.getLast?_cons_cons]
        cases h : (e2 :: rest2).getLast? with
        | none => simp at h
        | some l => simp

theorem opLoop_succ_none (env : Env) (p : Nat) (lHost : String) (x todo y : Nat) (r : Run α)
    (t : F64 α) (h : env.dial p x y = none) :
    opLoop env p lHost x (todo + 1) y r t =
      (Ctl.nextPort,
        { r with portIndex := r.portIndex + 1,
                 trace := r.trace ++ [Event.dial p x y
                   { network := "tcp", address := lHost, timeoutMillis := r.config.timeout },
                   Event.unable p] }, t) := by
  simp [opLoop, h, doZingToHost]

theorem opLoop_succ_some (env : Env) (p : Nat) (lHost : String) (x todo y : Nat) (r : Run α)
    (t : F64 α) (e : Int) (h : env.dial p x y = some e) (hx : x < r.timeTable.length) :
    opLoop env p lHost x (todo + 1) y r t =
      opLoop env p lHost x todo (y + 1)
        { r with timeTable := r.timeTable.set x (F64.ofInt e),
                 trace := r.trace ++ [Event.dial p x y
                   { network := "tcp", address := lHost, timeoutMillis := r.config.timeout },
                   Event.store p x y (F64.ofInt e)] }
        (F64.add t (F64.ofInt e)) := by
  simp [opLoop, h, doZingToHost, hx]

theorem opLoop_succ_fault (env : Env) (p : Nat) (lHost : String) (x todo y : Nat) (r : Run α)
    (t : F64 α) (e : Int) (h : env.dial p x y = some e) (hx : ¬ x < r.timeTable.length) :
    opLoop env p lHost x (todo + 1) y r t =
      (Ctl.fault,
        { r with trace := r.trace ++ [Event.dial p x y
          { network := "tcp", address := lHost, timeoutMillis := r.config.timeout }] }, t) := by
  simp [opLoop, h, doZingToHost, hx]

/-- The operations leave the configuration, the length of the table and the total time of
the run as they are. -/
theorem opLoop_frame (env : Env) (p : Nat) (lHost : String) (x : Nat) :
    ∀ (todo y : Nat) (r : Run α) (t : F64 α),
      (opLoop env p lHost x todo y r t).2.1.config = r.config ∧
      (opLoop env p lHost x todo y r t).2.1.timeTable.length = r.timeTable.length ∧
      (opLoop env p lHost x todo y r t).2.1.totalZingTime = r.totalZingTime := by
  intro todo
  induction todo with
  | zero => intro y r t; simp [opLoop]
  | succ todo ih =>
    intro y r t
    cases h : env.dial p x y with
    | none => rw [opLoop_succ_none env p lHost x todo y r t h]; simp
    | some e =>
      by_cases hx : x < r.timeTable.length
      · rw [opLoop_succ_some env p lHost x todo y r t e h hx]
        refine ⟨(ih _ _ _).1.trans rfl, (ih _ _ _).2.1.trans (by simp), (ih _ _ _).2.2.trans rfl⟩
      · rw [opLoop_succ_fault env p lHost x todo y r t e h hx]; simp

/-- The events of the operations of a cycle are in order, and the loop ends normally only
when every operation of the cycle has succeeded. -/
theorem opLoop_trace (env : Env) (cycles limit : Nat) (p : Nat) (lHost : String) (x : Nat)
    (hxc : x < cycles) :
    ∀ (todo y : Nat) (r : Run α) (t : F64 α),
      y + todo = limit → env.okBefore limit p x y →
      (∃ evs, (opLoop env p lHost x todo y r t).2.1.trace = r.trace ++ evs ∧
        ∀ e ∈ evs, e.port = p ∧ e.InOrder env cycles limit) ∧
      ((opLoop env p lHost x todo y r t).1 = Ctl.normal → env.okBefore limit p (x + 1) 0) ∧
      ((opLoop env p lHost x todo y r t).1 = Ctl.normal ∨
        (opLoop env p lHost x todo y r t).1 = Ctl.nextPort ∨
        ((opLoop env p lHost x todo y r t).1 = Ctl.fault ∧ ¬ x < r.timeTable.length)) := by
  intro todo
  induction todo with
  | zero =>
    intro y r t hy hb
    refine ⟨⟨[], by simp [opLoop], by simp⟩, ?_, Or.inl (by simp [opLoop])⟩
    intro _ x1 y1 hy1 hlt
    apply hb x1 y1 hy1
    rcases hlt with h | h
    · rcases Nat.lt_succ_iff_lt_or_eq.mp h with h | h
      · exact Or.inl h
      · exact Or.inr ⟨h, by omega⟩
    · omega
  | succ todo ih =>
    intro y r t hy hb
    have hyl : y < limit := by omega
    cases h : env.dial p x y with
    | none =>
      rw [opLoop_succ_none env p lHost x todo y r t h]
      refine ⟨⟨_, rfl, ?_⟩, by simp, Or.inr (Or.inl rfl)⟩
      intro e he
      simp only [List.mem_cons, List.mem_singleton, List.not_mem_nil, or_false] at he
      rcases he with he | he <;> subst he
      · exact ⟨rfl, hxc, hyl, hb⟩
      · exact ⟨rfl, trivial⟩
    | some e =>
      by_cases hx : x < r.timeTable.length
      · rw [opLoop_succ_some env p lHost x todo y r t e h hx]
        have hb1 : env.okBefore limit p x (y + 1) := by
          intro x1 y1 hy1 hlt
          rcases hlt with h1 | ⟨h1, h2⟩
          · exact hb x1 y1 hy1 (Or.inl h1)
          · rcases Nat.lt_succ_iff_lt_or_eq.mp h2 with h2 | h2
            · exact hb x1 y1 hy1 (Or.inr ⟨h1, h2⟩)
            · subst h1; subst h2; rw [h]; simp
        obtain ⟨⟨evs, hevs, hin⟩, hn, hc⟩ := ih (y + 1)
          { r with timeTable := r.timeTable.set x (F64.ofInt e),
                   trace := r.trace ++ [Event.dial p x y
                     { network := "tcp", address := lHost, timeoutMillis := r.config.timeout },
                     Event.store p x y (F64.ofInt e)] }
          (F64.add t (F64.ofInt e)) (by omega) hb1
        refine ⟨⟨Event.dial p x y
            { network := "tcp", address := lHost, timeoutMillis := r.config.timeout } ::
            Event.store p x y (F64.ofInt e) :: evs, by rw [hevs]; simp, ?_⟩, hn, ?_⟩
        · intro ev hev
          simp only [List.mem_cons] at hev
          rcases hev with he | he | he
          · subst he; exact ⟨rfl, hxc, hyl, hb⟩
          · subst he; exact ⟨rfl, hxc, hyl, hb, by rw [h]; simp⟩
          · exact hin ev he
        · rcases hc with hc | hc | ⟨hc, hc2⟩
          · exact Or.inl hc
          · exact Or.inr (Or.inl hc)
          · exact absurd (by simpa using hx) hc2
      · rw [opLoop_succ_fault env p lHost x todo y r t e h hx]
        refine ⟨⟨_, rfl, ?_⟩, by simp, Or.inr (Or.inr ⟨rfl, hx⟩)⟩
        intro ev hev
        simp only [List.mem_singleton] at hev
        subst hev
        exact ⟨rfl, hxc, hyl, hb⟩


/-- The operations only add events to the trace. -/
theorem opLoop_trace_mono (env : Env) (p : Nat) (lHost : String) (x : Nat) :
    ∀ (todo y : Nat) (r : Run α) (t : F64 α) (e : Event α),
      e ∈ r.trace → e ∈ (opLoop env p lHost x todo y r t).2.1.trace := by
  intro todo
  induction todo with
  | zero => intro y r t e he; simpa [opLoop] using he
  | succ todo ih =>
    intro y r t e he
    cases h : env.dial p x y with
    | none => rw [opLoop_succ_none env p lHost x todo y r t h]; simp [he]
    | some e1 =>
      by_cases hx : x < r.timeTable.length
      · rw [opLoop_succ_some env p lHost x todo y r t e1 h hx]
        exact ih _ _ _ e (by simp [he])
      · rw [opLoop_succ_fault env p lHost x todo y r t e1 h hx]; simp [he]

/-- The first operation of a cycle is dialled as soon as the loop has an iteration. -/
theorem opLoop_first_dial (env : Env) (p : Nat) (lHost : String) (x todo y : Nat) (r : Run α)
    (t : F64 α) :
    ∃ call, Event.dial p x y call ∈ (opLoop env p lHost x (todo + 1) y r t).2.1.trace := by
  refine ⟨{ network := "tcp", address := lHost, timeoutMillis := r.config.timeout }, ?_⟩
  cases h : env.dial p x y with
  | none => rw [opLoop_succ_none env p lHost x todo y r t h]; simp
  | some e1 =>
    by_cases hx : x < r.timeTable.length
    · rw [opLoop_succ_some env p lHost x todo y r t e1 h hx]
      exact opLoop_trace_mono env p lHost x todo _ _ _ _ (by simp)
    · rw [opLoop_succ_fault env p lHost x todo y r t e1 h hx]; simp

/-- The total of a cycle is a finite value, not below the starting value when no elapsed
time is negative. -/
theorem opLoop_total (env : Env) (p : Nat) (lHost : String) (x : Nat)
    (hnn : ∀ y e, env.dial p x y = some e → 0 ≤ e) :
    ∀ (todo y : Nat) (r : Run α) (t : α),
      ∃ t1, (opLoop env p lHost x todo y r (F64.fin t)).2.2 = F64.fin t1 ∧ t ≤ t1 := by
  intro todo
  induction todo with
  | zero => intro y r t; exact ⟨t, by simp [opLoop], le_refl _⟩
  | succ todo ih =>
    intro y r t
    cases h : env.dial p x y with
    | none => rw [opLoop_succ_none env p lHost x todo y r _ h]; exact ⟨t, rfl, le_refl _⟩
    | some e1 =>
      by_cases hx : x < r.timeTable.length
      · rw [opLoop_succ_some env p lHost x todo y r _ e1 h hx]
        obtain ⟨t1, h1, h2⟩ := ih (y + 1)
          { r with timeTable := r.timeTable.set x (F64.ofInt e1),
                   trace := r.trace ++ [Event.dial p x y
                     { network := "tcp", address := lHost, timeoutMillis := r.config.timeout },
                     Event.store p x y (F64.ofInt e1)] }
          (t + (e1 : α))
        refine ⟨t1, h1, le_trans ?_ h2⟩
        have : (0 : α) ≤ (e1 : α) := by exact_mod_cast hnn y e1 h
        linarith
      · rw [opLoop_succ_fault env p lHost x todo y r _ e1 h hx]; exact ⟨t, rfl, le_refl _⟩

/-- When the first operation of a cycle fails, the port is left without any write to the
table. -/
theorem opLoop_first_fails (env : Env) (p : Nat) (lHost : String) (x todo y : Nat) (r : Run α)
    (t : F64 α) (h : env.dial p x y = none) :
    (opLoop env p lHost x (todo + 1) y r t).1 = Ctl.nextPort ∧
    (opLoop env p lHost x (todo + 1) y r t).2.1.timeTable = r.timeTable := by
  rw [opLoop_succ_none env p lHost x todo y r t h]
  exact ⟨rfl, rfl⟩

/-! ### One cycle -/

theorem runCycle_of_normal (env : Env) (portCount p : Nat) (lHost : String) (x : Nat)
    (r r1 : Run α) (total : F64 α)
    (h : opLoop env p lHost x r.config.gLimit.toNat 0 r (F64.fin 0) = (Ctl.normal, r1, total)) :
    runCycle env portCount p lHost x r =
      (if report (getTotalTime total portCount r1.config.gLimit) portCount r1.config =
          Verdict.active then Ctl.normal else Ctl.exit 0,
        { r1 with trace := r1.trace ++
          [Event.report p x (getTotalTime total portCount r1.config.gLimit)] }) := by
  simp only [runCycle, h]
  cases report (getTotalTime total (portCount : Int) r1.config.gLimit) (portCount : Int) r1.config <;> simp

theorem runCycle_of_not_normal (env : Env) (portCount p : Nat) (lHost : String) (x : Nat)
    (r r1 : Run α) (c : Ctl) (total : F64 α) (hc : c ≠ Ctl.normal)
    (h : opLoop env p lHost x r.config.gLimit.toNat 0 r (F64.fin 0) = (c, r1, total)) :
    runCycle env portCount p lHost x r = (c, r1) := by
  simp only [runCycle, h]

/-- The operations end normally, with `continue portLoop`, or with a panic when the cycle
is outside of the table. -/
theorem opLoop_ctl (env : Env) (p : Nat) (lHost : String) (x : Nat) :
    ∀ (todo y : Nat) (r : Run α) (t : F64 α),
      (opLoop env p lHost x todo y r t).1 = Ctl.normal ∨
      (opLoop env p lHost x todo y r t).1 = Ctl.nextPort ∨
      ((opLoop env p lHost x todo y r t).1 = Ctl.fault ∧ ¬ x < r.timeTable.length) := by
  intro todo
  induction todo with
  | zero => intro y r t; left; simp [opLoop]
  | succ todo ih =>
    intro y r t
    cases h : env.dial p x y with
    | none => rw [opLoop_succ_none env p lHost x todo y r t h]; right; left; rfl
    | some e =>
      by_cases hx : x < r.timeTable.length
      · rw [opLoop_succ_some env p lHost x todo y r t e h hx]
        rcases ih (y + 1)
          { r with timeTable := r.timeTable.set x (F64.ofInt e),
                   trace := r.trace ++ [Event.dial p x y
                     { network := "tcp", address := lHost, timeoutMillis := r.config.timeout },
                     Event.store p x y (F64.ofInt e)] }
          (F64.add t (F64.ofInt e)) with hc | hc | ⟨_, hc2⟩
        · exact Or.inl hc
        · exact Or.inr (Or.inl hc)
        · exact absurd (by simpa using hx) hc2
      · rw [opLoop_succ_fault env p lHost x todo y r t e h hx]
        exact Or.inr (Or.inr ⟨rfl, hx⟩)

/-- The normalized mean of a finite total, for at least one port and one operation. -/
theorem getTotalTime_fin (t : α) (portCount : Nat) (limit : Int) (hpc : 1 ≤ portCount)
    (hl : 1 ≤ limit) :
    getTotalTime (F64.fin t) portCount limit =
      F64.fin (t / (portCount : α) / (limit : α)) := by
  have hpc0 : ((portCount : Int) : α) ≠ 0 := by
    have : (0 : α) < ((portCount : Int) : α) := by exact_mod_cast hpc
    exact ne_of_gt this
  have hl0 : ((limit : Int) : α) ≠ 0 := by
    have : (0 : α) < ((limit : Int) : α) := by exact_mod_cast hl
    exact ne_of_gt this
  simp only [getTotalTime, F64.ofInt, F64.div_fin _ _ hpc0, F64.div_fin _ _ hl0]
  simp

/-- The function `report` takes its `Active` branch on a finite non-negative value. -/
theorem report_fin_nonneg (v : α) (hv : 0 ≤ v) (portCount : Int) (args : ZingArgs) :
    report (F64.fin v) portCount args = Verdict.active := by
  simp [report, F64.ge, hv]

/-- A cycle leaves the configuration and the length of the table as they are and only
adds events. -/
theorem runCycle_frame (env : Env) (portCount p : Nat) (lHost : String) (x : Nat) (r : Run α) :
    (runCycle env portCount p lHost x r).2.config = r.config ∧
    (runCycle env portCount p lHost x r).2.timeTable.length = r.timeTable.length ∧
    ∀ e ∈ r.trace, e ∈ (runCycle env portCount p lHost x r).2.trace := by
  rcases hop : opLoop env p lHost x r.config.gLimit.toNat 0 r (F64.fin 0) with ⟨c, r1, total⟩
  have hf := opLoop_frame env p lHost x r.config.gLimit.toNat 0 r (F64.fin 0)
  have hm := opLoop_trace_mono env p lHost x r.config.gLimit.toNat 0 r (F64.fin 0)
  rw [hop] at hf hm
  by_cases hc : c = Ctl.normal
  · subst hc
    rw [runCycle_of_normal env portCount p lHost x r r1 total hop]
    refine ⟨hf.1, hf.2.1, ?_⟩
    intro e he
    simp [hm e he]
  · rw [runCycle_of_not_normal env portCount p lHost x r r1 c total hc hop]
    exact ⟨hf.1, hf.2.1, hm⟩

/-- The events of a cycle are in order, and the cycle ends normally only when all its
operations have succeeded. -/
theorem runCycle_trace (env : Env) (cycles : Nat) (portCount p : Nat) (lHost : String)
    (x : Nat) (r : Run α) (hxc : x < cycles)
    (hb : env.okBefore r.config.gLimit.toNat p x 0) :
    (∃ evs, (runCycle env portCount p lHost x r).2.trace = r.trace ++ evs ∧
      ∀ e ∈ evs, e.port = p ∧ e.InOrder env cycles r.config.gLimit.toNat) ∧
    ((runCycle env portCount p lHost x r).1 = Ctl.normal →
      env.okBefore r.config.gLimit.toNat p (x + 1) 0) := by
  rcases hop : opLoop env p lHost x r.config.gLimit.toNat 0 r (F64.fin 0) with ⟨c, r1, total⟩
  have ht := opLoop_trace env cycles r.config.gLimit.toNat p lHost x hxc
    r.config.gLimit.toNat 0 r (F64.fin 0) (by simp) hb
  rw [hop] at ht
  obtain ⟨⟨evs, hevs, hin⟩, hn, _⟩ := ht
  by_cases hc : c = Ctl.normal
  · subst hc
    rw [runCycle_of_normal env portCount p lHost x r r1 total hop]
    refine ⟨⟨evs ++ [Event.report p x (getTotalTime total portCount r1.config.gLimit)],
      by simp [show r1.trace = r.trace ++ evs from hevs], ?_⟩, fun _ => hn rfl⟩
    intro e he
    rcases List.mem_append.mp he with h | h
    · exact hin e h
    · simp only [List.mem_singleton] at h
      subst h
      exact ⟨rfl, trivial⟩
  · rw [runCycle_of_not_normal env portCount p lHost x r r1 c total hc hop]
    exact ⟨⟨evs, hevs, hin⟩, fun h => absurd h hc⟩

/-- With no negative elapsed time, at least one port and at least one operation per cycle,
a cycle within the table ends normally or with `continue portLoop`. -/
theorem runCycle_progress (env : Env) (portCount p : Nat) (lHost : String) (x : Nat)
    (r : Run α) (hnn : ∀ y e, env.dial p x y = some e → 0 ≤ e) (hpc : 1 ≤ portCount)
    (hl : 1 ≤ r.config.gLimit) (hx : x < r.timeTable.length) :
    (runCycle env portCount p lHost x r).1 = Ctl.normal ∨
    (runCycle env portCount p lHost x r).1 = Ctl.nextPort := by
  rcases hop : opLoop env p lHost x r.config.gLimit.toNat 0 r (F64.fin 0) with ⟨c, r1, total⟩
  have ht := opLoop_ctl env p lHost x r.config.gLimit.toNat 0 r (F64.fin 0)
  have hf := opLoop_frame env p lHost x r.config.gLimit.toNat 0 r (F64.fin 0)
  obtain ⟨t1, htot, ht1⟩ := opLoop_total env p lHost x hnn r.config.gLimit.toNat 0 r (0 : α)
  rw [hop] at ht hf htot
  simp only at htot hf ht
  by_cases hc : c = Ctl.normal
  · subst hc
    rw [runCycle_of_normal env portCount p lHost x r r1 total hop]
    left
    have hge : (0 : α) ≤ t1 / (portCount : α) / ((r.config.gLimit : Int) : α) := by
      apply div_nonneg
      · apply div_nonneg ht1
        exact_mod_cast Nat.zero_le portCount
      · exact_mod_cast le_trans (by decide) hl
    simp only [hf.1, htot, getTotalTime_fin t1 portCount r.config.gLimit hpc hl,
      report_fin_nonneg _ hge, if_true]
  · rw [runCycle_of_not_normal env portCount p lHost x r r1 c total hc hop]
    rcases ht with h | h | ⟨_, h⟩
    · exact Or.inl h
    · exact Or.inr h
    · exact absurd hx h

/-- The first operation of a cycle is dialled when there is at least one operation per
cycle. -/
theorem runCycle_first_dial (env : Env) (portCount p : Nat) (lHost : String) (x : Nat)
    (r : Run α) (hl : 1 ≤ r.config.gLimit) :
    ∃ call, Event.dial p x 0 call ∈ (runCycle env portCount p lHost x r).2.trace := by
  obtain ⟨n, hn⟩ : ∃ n, r.config.gLimit.toNat = n + 1 := ⟨r.config.gLimit.toNat - 1, by omega⟩
  rcases hop : opLoop env p lHost x r.config.gLimit.toNat 0 r (F64.fin 0) with ⟨c, r1, total⟩
  obtain ⟨call, hcall⟩ := opLoop_first_dial env p lHost x n 0 r (F64.fin 0)
  rw [← hn, hop] at hcall
  refine ⟨call, ?_⟩
  by_cases hc : c = Ctl.normal
  · subst hc
    rw [runCycle_of_normal env portCount p lHost x r r1 total hop]
    simp [show Event.dial p x 0 call ∈ r1.trace from hcall]
  · rw [runCycle_of_not_normal env portCount p lHost x r r1 c total hc hop]
    exact hcall

/-- When the first operation of a cycle fails, the cycle ends with `continue portLoop`
and without any write to the table. -/
theorem runCycle_first_fails (env : Env) (portCount p : Nat) (lHost : String) (x : Nat)
    (r : Run α) (hl : 1 ≤ r.config.gLimit) (h : env.dial p x 0 = none) :
    (runCycle env portCount p lHost x r).1 = Ctl.nextPort ∧
    (runCycle env portCount p lHost x r).2.timeTable = r.timeTable := by
  obtain ⟨n, hn⟩ : ∃ n, r.config.gLimit.toNat = n + 1 := ⟨r.config.gLimit.toNat - 1, by omega⟩
  rcases hop : opLoop env p lHost x r.config.gLimit.toNat 0 r (F64.fin 0) with ⟨c, r1, total⟩
  have hff := opLoop_first_fails env p lHost x n 0 r (F64.fin 0) h
  rw [← hn, hop] at hff
  simp only at hff
  rw [runCycle_of_not_normal env portCount p lHost x r r1 c total (by rw [hff.1]; simp) hop]
  exact hff

/-! ### The cycles of a port -/

theorem cycleLoop_succ_normal (env : Env) (portCount p : Nat) (lHost : String)
    (todo x : Nat) (r r1 : Run α) (h : runCycle env portCount p lHost x r = (Ctl.normal, r1)) :
    cycleLoop env portCount p lHost (todo + 1) x r =
      cycleLoop env portCount p lHost todo (x + 1) r1 := by
  simp only [cycleLoop, h]

theorem cycleLoop_succ_other (env : Env) (portCount p : Nat) (lHost : String)
    (todo x : Nat) (r r1 : Run α) (c : Ctl) (hc : c ≠ Ctl.normal)
    (h : runCycle env portCount p lHost x r = (c, r1)) :
    cycleLoop env portCount p lHost (todo + 1) x r = (c, r1) := by
  simp only [cycleLoop, h]

/-- The cycles leave the configuration and the length of the table as they are and only
add events. -/
theorem cycleLoop_frame (env : Env) (portCount p : Nat) (lHost : String) :
    ∀ (todo x : Nat) (r : Run α),
      (cycleLoop env portCount p lHost todo x r).2.config = r.config ∧
      (cycleLoop env portCount p lHost todo x r).2.timeTable.length = r.timeTable.length ∧
      ∀ e ∈ r.trace, e ∈ (cycleLoop env portCount p lHost todo x r).2.trace := by
  intro todo
  induction todo with
  | zero => intro x r; simp [cycleLoop]
  | succ todo ih =>
    intro x r
    rcases hrc : runCycle env portCount p lHost x r with ⟨c, r1⟩
    have hf := runCycle_frame env portCount p lHost x r
    rw [hrc] at hf
    by_cases hc : c = Ctl.normal
    · subst hc
      rw [cycleLoop_succ_normal env portCount p lHost todo x r r1 hrc]
      obtain ⟨h1, h2, h3⟩ := ih (x + 1) r1
      exact ⟨h1.trans hf.1, h2.trans hf.2.1, fun e he => h3 e (hf.2.2 e he)⟩
    · rw [cycleLoop_succ_other env portCount p lHost todo x r r1 c hc hrc]
      exact hf

/-- The events of the cycles of a port are in order. -/
theorem cycleLoop_trace (env : Env) (cycles : Nat) (portCount p : Nat) (lHost : String) :
    ∀ (todo x : Nat) (r : Run α),
      x + todo = cycles → env.okBefore r.config.gLimit.toNat p x 0 →
      ∃ evs, (cycleLoop env portCount p lHost todo x r).2.trace = r.trace ++ evs ∧
        ∀ e ∈ evs, e.port = p ∧ e.InOrder env cycles r.config.gLimit.toNat := by
  intro todo
  induction todo with
  | zero => intro x r _ _; exact ⟨[], by simp [cycleLoop], by simp⟩
  | succ todo ih =>
    intro x r hx hb
    rcases hrc : runCycle env portCount p lHost x r with ⟨c, r1⟩
    have hf := runCycle_frame env portCount p lHost x r
    have ht := runCycle_trace env cycles portCount p lHost x r (by omega) hb
    rw [hrc] at hf ht
    obtain ⟨⟨evs, hevs, hin⟩, hn⟩ := ht
    by_cases hc : c = Ctl.normal
    · subst hc
      rw [cycleLoop_succ_normal env portCount p lHost todo x r r1 hrc]
      have hcfg : r1.config = r.config := hf.1
      obtain ⟨evs2, hevs2, hin2⟩ := ih (x + 1) r1 (by omega) (by rw [hcfg]; exact hn rfl)
      refine ⟨evs ++ evs2, by rw [hevs2, show r1.trace = r.trace ++ evs from hevs]; simp, ?_⟩
      intro e he
      rcases List.mem_append.mp he with h | h
      · exact hin e h
      · rw [← hcfg]; exact hin2 e h
    · rw [cycleLoop_succ_other env portCount p lHost todo x r r1 c hc hrc]
      exact ⟨evs, hevs, hin⟩

/-- With no negative elapsed time, at least one port and at least one operation per cycle,
the cycles within the table end normally or with `continue portLoop`. -/
theorem cycleLoop_progress (env : Env) (portCount p : Nat) (lHost : String)
    (hnn : ∀ x y e, env.dial p x y = some e → 0 ≤ e) (hpc : 1 ≤ portCount) :
    ∀ (todo x : Nat) (r : Run α), 1 ≤ r.config.gLimit → x + todo ≤ r.timeTable.length →
      (cycleLoop env portCount p lHost todo x r).1 = Ctl.normal ∨
      (cycleLoop env portCount p lHost todo x r).1 = Ctl.nextPort := by
  intro todo
  induction todo with
  | zero => intro x r _ _; left; simp [cycleLoop]
  | succ todo ih =>
    intro x r hl hx
    rcases hrc : runCycle env portCount p lHost x r with ⟨c, r1⟩
    have hf := runCycle_frame env portCount p lHost x r
    have hp := runCycle_progress env portCount p lHost x r (hnn x) hpc hl (by omega)
    rw [hrc] at hf hp
    by_cases hc : c = Ctl.normal
    · subst hc
      rw [cycleLoop_succ_normal env portCount p lHost todo x r r1 hrc]
      exact ih (x + 1) r1 (by rw [show r1.config = r.config from hf.1]; exact hl)
        (by rw [show r1.timeTable.length = r.timeTable.length from hf.2.1]; omega)
    · rw [cycleLoop_succ_other env portCount p lHost todo x r r1 c hc hrc]
      exact hp

/-- The first operation of the first cycle is dialled when there is at least one cycle
and one operation per cycle. -/
theorem cycleLoop_first_dial (env : Env) (portCount p : Nat) (lHost : String)
    (todo x : Nat) (r : Run α) (hl : 1 ≤ r.config.gLimit) :
    ∃ call, Event.dial p x 0 call ∈
      (cycleLoop env portCount p lHost (todo + 1) x r).2.trace := by
  rcases hrc : runCycle env portCount p lHost x r with ⟨c, r1⟩
  obtain ⟨call, hcall⟩ := runCycle_first_dial env portCount p lHost x r hl
  rw [hrc] at hcall
  refine ⟨call, ?_⟩
  by_cases hc : c = Ctl.normal
  · subst hc
    rw [cycleLoop_succ_normal env portCount p lHost todo x r r1 hrc]
    exact (cycleLoop_frame env portCount p lHost todo (x + 1) r1).2.2 _ hcall
  · rw [cycleLoop_succ_other env portCount p lHost todo x r r1 c hc hrc]
    exact hcall

/-- When the first operation of the first cycle fails, the cycles end with
`continue portLoop` and without any write to the table. -/
theorem cycleLoop_first_fails (env : Env) (portCount p : Nat) (lHost : String)
    (todo x : Nat) (r : Run α) (hl : 1 ≤ r.config.gLimit) (h : env.dial p x 0 = none) :
    (cycleLoop env portCount p lHost (todo + 1) x r).1 = Ctl.nextPort ∧
    (cycleLoop env portCount p lHost (todo + 1) x r).2.timeTable = r.timeTable := by
  rcases hrc : runCycle env portCount p lHost x r with ⟨c, r1⟩
  have hff := runCycle_first_fails env portCount p lHost x r hl h
  rw [hrc] at hff
  simp only at hff
  rw [cycleLoop_succ_other env portCount p lHost todo x r r1 c (by rw [hff.1]; simp) hrc]
  exact hff

/-! ### One port -/

theorem fillHostAddr_of_ne (resolved : Option String) (config : ZingArgs)
    (h : config.netHostAddr ≠ "") : fillHostAddr resolved config = some config := by
  simp [fillHostAddr, h]

theorem fillHostAddr_of_resolved (s : String) (config : ZingArgs) :
    ∃ config1, fillHostAddr (some s) config = some config1 := by
  unfold fillHostAddr
  split_ifs
  · exact ⟨_, rfl⟩
  · exact ⟨_, rfl⟩

/-- Filling in the host address changes no other field, and leaves a non-empty address
when the resolved text is not empty. -/
theorem fillHostAddr_some (resolved : Option String) (config config1 : ZingArgs)
    (h : fillHostAddr resolved config = some config1) :
    config1.gCount = config.gCount ∧ config1.gLimit = config.gLimit ∧
    ((∀ s, resolved = some s → s ≠ "") → config1.netHostAddr ≠ "") := by
  unfold fillHostAddr at h
  split_ifs at h with h0
  · cases resolved with
    | none => cases h
    | some ip =>
      simp only [Option.some.injEq] at h
      subst h
      exact ⟨rfl, rfl, fun hs => hs ip rfl⟩
  · simp only [Option.some.injEq] at h
    subst h
    exact ⟨rfl, rfl, fun _ => h0⟩

theorem runPort_of_fill_none (env : Env) (portCount p : Nat) (port : String) (r : Run α)
    (h : fillHostAddr (env.resolve p) r.config = none) :
    runPort env portCount p port r =
      (Ctl.fault, { r with trace := r.trace ++
        [Event.resolve p r.config.tcpMode (r.config.netHostName ++ ":" ++ port)] }) := by
  simp only [runPort, h]

theorem runPort_of_cycles_normal (env : Env) (portCount p : Nat) (port : String) (r r3 : Run α)
    (config1 : ZingArgs) (h : fillHostAddr (env.resolve p) r.config = some config1)
    (hc : cycleLoop env portCount p (r.config.netHostName ++ ":" ++ port)
      config1.gCount.toNat 0 (r.beforeCycles env p port config1) = (Ctl.normal, r3)) :
    runPort env portCount p port r =
      (Ctl.normal, { r3 with totalZingTime := env.portMillis p,
                             trace := r3.trace ++ [Event.total p (env.portMillis p)] }) := by
  simp only [Run.beforeCycles] at hc
  simp only [runPort, h, hc]

theorem runPort_of_cycles_other (env : Env) (portCount p : Nat) (port : String) (r r3 : Run α)
    (config1 : ZingArgs) (c : Ctl) (hn : c ≠ Ctl.normal)
    (h : fillHostAddr (env.resolve p) r.config = some config1)
    (hc : cycleLoop env portCount p (r.config.netHostName ++ ":" ++ port)
      config1.gCount.toNat 0 (r.beforeCycles env p port config1) = (c, r3)) :
    runPort env portCount p port r = (c, r3) := by
  simp only [Run.beforeCycles] at hc
  simp only [runPort, h, hc]

/-- A port leaves the two counts of the configuration and the length of the table as they
are, keeps a non-empty host address, and only adds events. -/
theorem runPort_frame (env : Env) (portCount p : Nat) (port : String) (r : Run α) :
    (runPort env portCount p port r).2.config.gCount = r.config.gCount ∧
    (runPort env portCount p port r).2.config.gLimit = r.config.gLimit ∧
    (runPort env portCount p port r).2.timeTable.length = r.timeTable.length ∧
    (r.config.netHostAddr ≠ "" → (runPort env portCount p port r).2.config.netHostAddr ≠ "") ∧
    ∀ e ∈ r.trace, e ∈ (runPort env portCount p port r).2.trace := by
  cases hfill : fillHostAddr (env.resolve p) r.config with
  | none =>
    rw [runPort_of_fill_none env portCount p port r hfill]
    refine ⟨rfl, rfl, rfl, fun h => h, ?_⟩
    intro e he
    simp [he]
  | some config1 =>
    obtain ⟨hg, hl, _⟩ := fillHostAddr_some _ _ _ hfill
    have haddr : r.config.netHostAddr ≠ "" → config1.netHostAddr ≠ "" := by
      intro h
      rw [fillHostAddr_of_ne _ _ h] at hfill
      simp only [Option.some.injEq] at hfill
      rw [← hfill]; exact h
    rcases hcl : cycleLoop env portCount p (r.config.netHostName ++ ":" ++ port)
      config1.gCount.toNat 0 (r.beforeCycles env p port config1) with ⟨c, r3⟩
    have hf := cycleLoop_frame env portCount p (r.config.netHostName ++ ":" ++ port)
      config1.gCount.toNat 0 (r.beforeCycles env p port config1)
    rw [hcl] at hf
    obtain ⟨hf1, hf2, hf3⟩ := hf
    have hcfg : r3.config = config1 := hf1
    have hlen : r3.timeTable.length = r.timeTable.length := hf2
    have hmono : ∀ e ∈ r.trace, e ∈ r3.trace := by
      intro e he
      apply hf3
      simp [Run.beforeCycles, he]
    by_cases hc : c = Ctl.normal
    · subst hc
      rw [runPort_of_cycles_normal env portCount p port r r3 config1 hfill hcl]
      refine ⟨by simp [hcfg, hg], by simp [hcfg, hl], hlen, ?_, ?_⟩
      · intro h; simp only [hcfg]; exact haddr h
      · intro e he; simp [hmono e he]
    · rw [runPort_of_cycles_other env portCount p port r r3 config1 c hc hfill hcl]
      refine ⟨by simp [hcfg, hg], by simp [hcfg, hl], hlen, ?_, hmono⟩
      intro h; simp only [hcfg]; exact haddr h

/-- The events of a port belong to it and are in order. -/
theorem runPort_trace (env : Env) (portCount p : Nat) (port : String) (r : Run α) :
    ∃ evs, (runPort env portCount p port r).2.trace = r.trace ++ evs ∧
      ∀ e ∈ evs, e.port = p ∧ e.InOrder env r.config.gCount.toNat r.config.gLimit.toNat := by
  cases hfill : fillHostAddr (env.resolve p) r.config with
  | none =>
    rw [runPort_of_fill_none env portCount p port r hfill]
    refine ⟨_, rfl, ?_⟩
    intro e he
    simp only [List.mem_singleton] at he
    subst he
    exact ⟨rfl, trivial⟩
  | some config1 =>
    obtain ⟨hg, hl, _⟩ := fillHostAddr_some _ _ _ hfill
    rcases hcl : cycleLoop env portCount p (r.config.netHostName ++ ":" ++ port)
      config1.gCount.toNat 0 (r.beforeCycles env p port config1) with ⟨c, r3⟩
    have ht := cycleLoop_trace env config1.gCount.toNat portCount p
      (r.config.netHostName ++ ":" ++ port) config1.gCount.toNat 0
      (r.beforeCycles env p port config1) (by simp) (by intro x1 y1 _ h; omega)
    rw [hcl] at ht
    obtain ⟨evs, hevs, hin⟩ := ht
    have hevs1 : r3.trace = r.trace ++
        ([Event.resolve p r.config.tcpMode (r.config.netHostName ++ ":" ++ port)] ++
          (if (env.resolve p).isNone then [Event.resolveError p] else []) ++
          [Event.banner p] ++ evs) := by
      rw [show r3.trace = (r.beforeCycles env p port config1).trace ++ evs from hevs]
      simp [Run.beforeCycles]
    have hin1 : ∀ e ∈ ([Event.resolve p r.config.tcpMode (r.config.netHostName ++ ":" ++ port)] ++
          (if (env.resolve p).isNone then [Event.resolveError p] else []) ++
          [Event.banner p] ++ evs),
        e.port = p ∧ e.InOrder env r.config.gCount.toNat r.config.gLimit.toNat := by
      intro e he
      simp only [List.mem_append, List.mem_singleton] at he
      rcases he with ((he | he) | he) | he
      · subst he; exact ⟨rfl, trivial⟩
      · split_ifs at he
        · simp only [List.mem_singleton] at he
          subst he; exact ⟨rfl, trivial⟩
        · simp at he
      · subst he; exact ⟨rfl, trivial⟩
      · have := hin e he
        simp only [Run.beforeCycles, hg, hl] at this
        exact this
    by_cases hc : c = Ctl.normal
    · subst hc
      rw [runPort_of_cycles_normal env portCount p port r r3 config1 hfill hcl]
      refine ⟨([Event.resolve p r.config.tcpMode (r.config.netHostName ++ ":" ++ port)] ++
          (if (env.resolve p).isNone then [Event.resolveError p] else []) ++
          [Event.banner p] ++ evs) ++ [Event.total p (env.portMillis p)], by simp [hevs1], ?_⟩
      intro e he
      rcases List.mem_append.mp he with h | h
      · exact hin1 e h
      · simp only [List.mem_singleton] at h
        subst h; exact ⟨rfl, trivial⟩
    · rw [runPort_of_cycles_other env portCount p port r r3 config1 c hc hfill hcl]
      exact ⟨_, hevs1, hin1⟩

/-- A port whose host address can be filled in, in a run with no negative elapsed time, at
least one port, one cycle and one operation per cycle: its first operation is dialled and
it ends normally or with `continue portLoop`. -/
theorem runPort_progress (env : Env) (portCount p : Nat) (port : String) (r : Run α)
    (config1 : ZingArgs) (hnn : ∀ x y e, env.dial p x y = some e → 0 ≤ e) (hpc : 1 ≤ portCount)
    (hg : 1 ≤ r.config.gCount) (hl : 1 ≤ r.config.gLimit)
    (hlen : r.timeTable.length = r.config.gCount.toNat)
    (hfill : fillHostAddr (env.resolve p) r.config = some config1) :
    ((runPort env portCount p port r).1 = Ctl.normal ∨
      (runPort env portCount p port r).1 = Ctl.nextPort) ∧
    (∃ call, Event.dial p 0 0 call ∈ (runPort env portCount p port r).2.trace) ∧
    (runPort env portCount p port r).2.config = config1 := by
  obtain ⟨hg1, hl1, _⟩ := fillHostAddr_some _ _ _ hfill
  rcases hcl : cycleLoop env portCount p (r.config.netHostName ++ ":" ++ port)
    config1.gCount.toNat 0 (r.beforeCycles env p port config1) with ⟨c, r3⟩
  have hf := cycleLoop_frame env portCount p (r.config.netHostName ++ ":" ++ port)
    config1.gCount.toNat 0 (r.beforeCycles env p port config1)
  have hp := cycleLoop_progress env portCount p (r.config.netHostName ++ ":" ++ port) hnn hpc
    config1.gCount.toNat 0 (r.beforeCycles env p port config1)
    (by simp only [Run.beforeCycles, hl1]; exact hl)
    (by simp only [Run.beforeCycles, hg1, hlen]; omega)
  obtain ⟨n, hn⟩ : ∃ n, config1.gCount.toNat = n + 1 :=
    ⟨config1.gCount.toNat - 1, by rw [hg1]; omega⟩
  obtain ⟨call, hcall⟩ := cycleLoop_first_dial env portCount p
    (r.config.netHostName ++ ":" ++ port) n 0 (r.beforeCycles env p port config1)
    (by simp only [Run.beforeCycles, hl1]; exact hl)
  rw [← hn, hcl] at hcall
  rw [hcl] at hf hp
  have hcfg : r3.config = config1 := hf.1
  by_cases hc : c = Ctl.normal
  · subst hc
    rw [runPort_of_cycles_normal env portCount p port r r3 config1 hfill hcl]
    refine ⟨Or.inl rfl, ⟨call, ?_⟩, hcfg⟩
    simp [show Event.dial p 0 0 call ∈ r3.trace from hcall]
  · rw [runPort_of_cycles_other env portCount p port r r3 config1 c hc hfill hcl]
    exact ⟨hp, ⟨call, hcall⟩, hcfg⟩

/-- A port whose first operation fails leaves the table as it is. -/
theorem runPort_first_fails (env : Env) (portCount p : Nat) (port : String) (r : Run α)
    (hg : 1 ≤ r.config.gCount) (hl : 1 ≤ r.config.gLimit) (h : env.dial p 0 0 = none) :
    (runPort env portCount p port r).2.timeTable = r.timeTable ∧
    ((runPort env portCount p port r).1 = Ctl.nextPort ∨
      ((runPort env portCount p port r).1 = Ctl.fault ∧
        fillHostAddr (env.resolve p) r.config = none)) := by
  cases hfill : fillHostAddr (env.resolve p) r.config with
  | none =>
    rw [runPort_of_fill_none env portCount p port r hfill]
    exact ⟨rfl, Or.inr ⟨rfl, rfl⟩⟩
  | some config1 =>
    obtain ⟨hg1, hl1, _⟩ := fillHostAddr_some _ _ _ hfill
    obtain ⟨n, hn⟩ : ∃ n, config1.gCount.toNat = n + 1 :=
      ⟨config1.gCount.toNat - 1, by rw [hg1]; omega⟩
    rcases hcl : cycleLoop env portCount p (r.config.netHostName ++ ":" ++ port)
      config1.gCount.toNat 0 (r.beforeCycles env p port config1) with ⟨c, r3⟩
    have hff := cycleLoop_first_fails env portCount p (r.config.netHostName ++ ":" ++ port) n 0
      (r.beforeCycles env p port config1) (by simp only [Run.beforeCycles, hl1]; exact hl) h
    rw [← hn, hcl] at hff
    simp only at hff
    rw [runPort_of_cycles_other env portCount p port r r3 config1 c (by rw [hff.1]; simp)
      hfill hcl]
    exact ⟨hff.2, Or.inl hff.1⟩

/-! ### The ports -/

theorem portLoop_cons_continue (env : Env) (portCount p : Nat) (port : String)
    (rest : List String) (r r1 : Run α) (c : Ctl) (hc : c = Ctl.normal ∨ c = Ctl.nextPort)
    (h : runPort env portCount p port r = (c, r1)) :
    portLoop env portCount p (port :: rest) r = portLoop env portCount (p + 1) rest r1 := by
  rcases hc with hc | hc <;> subst hc <;> simp only [portLoop, h]

theorem portLoop_cons_stop (env : Env) (portCount p : Nat) (port : String)
    (rest : List String) (r r1 : Run α) (c : Ctl) (hc1 : c ≠ Ctl.normal) (hc2 : c ≠ Ctl.nextPort)
    (h : runPort env portCount p port r = (c, r1)) :
    portLoop env portCount p (port :: rest) r = (c, r1) := by
  simp only [portLoop, h]

/-- The port loop leaves the two counts of the configuration and the length of the table
as they are, keeps a non-empty host address, and only adds events. -/
theorem portLoop_frame (env : Env) (portCount : Nat) :
    ∀ (ports : List String) (p : Nat) (r : Run α),
      (portLoop env portCount p ports r).2.config.gCount = r.config.gCount ∧
      (portLoop env portCount p ports r).2.config.gLimit = r.config.gLimit ∧
      (portLoop env portCount p ports r).2.timeTable.length = r.timeTable.length ∧
      ∀ e ∈ r.trace, e ∈ (portLoop env portCount p ports r).2.trace := by
  intro ports
  induction ports with
  | nil => intro p r; simp [portLoop]
  | cons port rest ih =>
    intro p r
    rcases hrp : runPort env portCount p port r with ⟨c, r1⟩
    have hf := runPort_frame env portCount p port r
    rw [hrp] at hf
    obtain ⟨hf1, hf2, hf3, _, hf5⟩ := hf
    by_cases hc : c = Ctl.normal ∨ c = Ctl.nextPort
    · rw [portLoop_cons_continue env portCount p port rest r r1 c hc hrp]
      obtain ⟨h1, h2, h3, h4⟩ := ih (p + 1) r1
      exact ⟨h1.trans hf1, h2.trans hf2, h3.trans hf3, fun e he => h4 e (hf5 e he)⟩
    · push_neg at hc
      rw [portLoop_cons_stop env portCount p port rest r r1 c hc.1 hc.2 hrp]
      exact ⟨hf1, hf2, hf3, hf5⟩

/-- The events of the port loop are in order. -/
theorem portLoop_trace (env : Env) (portCount : Nat) :
    ∀ (ports : List String) (p : Nat) (r : Run α),
      ∃ evs, (portLoop env portCount p ports r).2.trace = r.trace ++ evs ∧
        ∀ e ∈ evs, e.InOrder env r.config.gCount.toNat r.config.gLimit.toNat := by
  intro ports
  induction ports with
  | nil => intro p r; exact ⟨[], by simp [portLoop], by simp⟩
  | cons port rest ih =>
    intro p r
    rcases hrp : runPort env portCount p port r with ⟨c, r1⟩
    have hf := runPort_frame env portCount p port r
    obtain ⟨evs, hevs, hin⟩ := runPort_trace env portCount p port r
    rw [hrp] at hf hevs
    by_cases hc : c = Ctl.normal ∨ c = Ctl.nextPort
    · rw [portLoop_cons_continue env portCount p port rest r r1 c hc hrp]
      obtain ⟨evs2, hevs2, hin2⟩ := ih (p + 1) r1
      refine ⟨evs ++ evs2, by rw [hevs2, show r1.trace = r.trace ++ evs from hevs]; simp, ?_⟩
      intro e he
      rcases List.mem_append.mp he with h | h
      · exact (hin e h).2
      · have := hin2 e h
        rw [show r1.config.gCount = r.config.gCount from hf.1,
          show r1.config.gLimit = r.config.gLimit from hf.2.1] at this
        exact this
    · push_neg at hc
      rw [portLoop_cons_stop env portCount p port rest r r1 c hc.1 hc.2 hrp]
      exact ⟨evs, hevs, fun e he => (hin e he).2⟩

/-- Once the host address is not empty, in a run with no negative elapsed time, at least
one cycle and one operation per cycle, the port loop dials the first operation of every
port that is left and ends normally. -/
theorem portLoop_progress (env : Env) (portCount : Nat)
    (hnn : ∀ q x y e, env.dial q x y = some e → 0 ≤ e) (hpc : 1 ≤ portCount) :
    ∀ (ports : List String) (p : Nat) (r : Run α),
      1 ≤ r.config.gCount → 1 ≤ r.config.gLimit →
      r.timeTable.length = r.config.gCount.toNat → r.config.netHostAddr ≠ "" →
      (portLoop env portCount p ports r).1 = Ctl.normal ∧
      ∀ q, p ≤ q → q < p + ports.length →
        ∃ call, Event.dial q 0 0 call ∈ (portLoop env portCount p ports r).2.trace := by
  intro ports
  induction ports with
  | nil =>
    intro p r _ _ _ _
    refine ⟨by simp [portLoop], ?_⟩
    intro q h1 h2
    simp at h2
    omega
  | cons port rest ih =>
    intro p r hg hl hlen haddr
    rcases hrp : runPort env portCount p port r with ⟨c, r1⟩
    have hf := runPort_frame env portCount p port r
    have hp := runPort_progress env portCount p port r r.config (hnn p) hpc hg hl hlen
      (fillHostAddr_of_ne _ _ haddr)
    rw [hrp] at hf hp
    obtain ⟨hf1, hf2, hf3, hf4, _⟩ := hf
    obtain ⟨hc, ⟨call, hcall⟩, _⟩ := hp
    rw [portLoop_cons_continue env portCount p port rest r r1 c hc hrp]
    obtain ⟨h1, h2⟩ := ih (p + 1) r1
      (by rw [show r1.config.gCount = r.config.gCount from hf1]; exact hg)
      (by rw [show r1.config.gLimit = r.config.gLimit from hf2]; exact hl)
      (by rw [show r1.timeTable.length = r.timeTable.length from hf3,
            show r1.config.gCount = r.config.gCount from hf1]; exact hlen)
      (hf4 haddr)
    refine ⟨h1, ?_⟩
    intro q hq1 hq2
    rcases Nat.eq_or_lt_of_le hq1 with heq | hlt
    · subst heq
      exact ⟨call, (portLoop_frame env portCount rest (p + 1) r1).2.2.2 _ hcall⟩
    · exact h2 q hlt (by simp at hq2; omega)

/-- When the first operation of every port that is left fails, the port loop leaves the
table as it is; it ends normally when the host address is not empty or every resolution
succeeds. -/
theorem portLoop_first_fails (env : Env) (portCount : Nat) :
    ∀ (ports : List String) (p : Nat) (r : Run α),
      1 ≤ r.config.gCount → 1 ≤ r.config.gLimit →
      (∀ q, p ≤ q → q < p + ports.length → env.dial q 0 0 = none) →
      (portLoop env portCount p ports r).2.timeTable = r.timeTable ∧
      ((r.config.netHostAddr ≠ "" ∨ ∀ q, p ≤ q → q < p + ports.length → env.resolve q ≠ none) →
        (portLoop env portCount p ports r).1 = Ctl.normal) := by
  intro ports
  induction ports with
  | nil => intro p r _ _ _; simp [portLoop]
  | cons port rest ih =>
    intro p r hg hl hfail
    rcases hrp : runPort env portCount p port r with ⟨c, r1⟩
    have hf := runPort_frame env portCount p port r
    have hff := runPort_first_fails env portCount p port r hg hl (hfail p (le_refl _) (by simp))
    rw [hrp] at hf hff
    obtain ⟨hf1, hf2, _, hf4, _⟩ := hf
    obtain ⟨htt, hc⟩ := hff
    simp only at htt hc
    have hrest := ih (p + 1) r1
      (by rw [show r1.config.gCount = r.config.gCount from hf1]; exact hg)
      (by rw [show r1.config.gLimit = r.config.gLimit from hf2]; exact hl)
      (fun q h1 h2 => hfail q (by omega) (by simp; omega))
    rcases hc with hc | ⟨hc, hnone⟩
    · rw [portLoop_cons_continue env portCount p port rest r r1 c (Or.inr hc) hrp]
      refine ⟨hrest.1.trans htt, ?_⟩
      intro h
      apply hrest.2
      rcases h with h | h
      · exact Or.inl (hf4 h)
      · exact Or.inr (fun q h1 h2 => h q (by omega) (by simp; omega))
    · rw [portLoop_cons_stop env portCount p port rest r r1 c (by rw [hc]; simp)
        (by rw [hc]; simp) hrp]
      refine ⟨htt, ?_⟩
      intro h
      exfalso
      rcases h with h | h
      · rw [fillHostAddr_of_ne _ _ h] at hnone
        cases hnone
      · cases hres : env.resolve p with
        | none => exact h p (le_refl _) (by simp) hres
        | some s =>
          obtain ⟨c1, hc1⟩ := fillHostAddr_of_resolved s r.config
          rw [hres, hc1] at hnone
          cases hnone

/-! ### The run of `main` -/

theorem stringsSplit_ConstPorts : stringsSplit ConstPorts = ["80", "443"] := by decide

theorem mainFrom_run (sqrt : α → α) (env : Env) (config : ZingArgs) (r0 : Run α)
    (h : initRun config = some r0) :
    (mainFrom sqrt env config).run =
      some (portLoop env (stringsSplit config.netPorts).length 0
        (stringsSplit config.netPorts) r0).2 := by
  simp only [mainFrom, h]
  rcases portLoop env (stringsSplit config.netPorts).length 0
    (stringsSplit config.netPorts) r0 with ⟨c, r⟩
  cases c <;> rfl

theorem mainFrom_trace_of_none (sqrt : α → α) (env : Env) (config : ZingArgs)
    (h : (initRun config : Option (Run α)) = none) :
    (mainFrom sqrt env config).trace = [] := by
  simp [mainFrom, h, Final.trace, Final.run]

theorem initRun_some (config : ZingArgs) (r0 : Run α) (h : initRun config = some r0) :
    r0.config = config ∧ r0.trace = [] ∧
    r0.timeTable = List.replicate config.gCount.toNat (F64.fin 0) := by
  unfold initRun at h
  split_ifs at h
  simp only [Option.some.injEq] at h
  subst h
  exact ⟨rfl, rfl, rfl⟩

/-- The events of a run of `main` are in order. -/
theorem mainFrom_trace_inOrder (sqrt : α → α) (env : Env) (config : ZingArgs) :
    ∀ e ∈ (mainFrom sqrt env config).trace,
      e.InOrder env config.gCount.toNat config.gLimit.toNat := by
  intro e he
  cases h0 : (initRun config : Option (Run α)) with
  | none => rw [mainFrom_trace_of_none sqrt env config h0] at he; cases he
  | some r0 =>
    obtain ⟨hcfg, htr, _⟩ := initRun_some config r0 h0
    simp only [Final.trace, mainFrom_run sqrt env config r0 h0] at he
    obtain ⟨evs, hevs, hin⟩ := portLoop_trace env (stringsSplit config.netPorts).length
      (stringsSplit config.netPorts) 0 r0
    rw [hevs, htr, List.nil_append] at he
    rw [← hcfg]
    exact hin e he

/-- A cycle whose operations all succeed, with elapsed times `es`: the last event is the
report of the normalized mean, and the entry of the cycle in the table is the last elapsed
time. -/
theorem runCycle_all_succeed (env : Env) (portCount p : Nat) (lHost : String) (x : Nat)
    (r : Run α) (es : List Int) (hpc : 1 ≤ portCount) (hops : 1 ≤ es.length)
    (hlimit : r.config.gLimit = es.length) (hx : x < r.timeTable.length)
    (hok : ∀ y (h : y < es.length), env.dial p x y = some es[y]) :
    (runCycle env portCount p lHost x r).2.trace.getLast? =
      some (Event.report p x
        (F64.fin (((es.sum : Int) : α) / (portCount : α) / (es.length : α)))) ∧
    ∀ last, es.getLast? = some last →
      (runCycle env portCount p lHost x r).2.timeTable = r.timeTable.set x (F64.ofInt last) := by
  obtain ⟨r1, hop, hcfg, htt⟩ := opLoop_all_succeed env p lHost x es 0 r (0 : α) hx
    (by intro i h; rw [Nat.zero_add]; exact hok i h)
  have hlen : r.config.gLimit.toNat = es.length := by rw [hlimit]; simp
  rw [← hlen] at hop
  rw [runCycle_of_normal env portCount p lHost x r r1 _ hop]
  have hl1 : (1 : Int) ≤ r1.config.gLimit := by rw [hcfg, hlimit]; exact_mod_cast hops
  constructor
  · rw [getTotalTime_fin _ portCount _ hpc hl1, hcfg, hlimit]
    simp
  · intro last hlast
    rw [hlast] at htt
    exact htt

/-! ### The claims on the engine -/

theorem steadyEnv_dial (p x : Nat) :
    ∀ y (h : y < ([10, 20] : List Int).length), steadyEnv.dial p x y = some ([10, 20] : List Int)[y] := by
  intro y h
  have h2 : y < 2 := h
  interval_cases y <;> rfl

/-- C3: in every cycle whose operations all succeed, with elapsed times `es`, the value
computed by `getTotalTime` and passed to `report` (the last event of the cycle) is the sum
of the elapsed times divided by the number of ports and then by the number of operations
per cycle. -/
theorem runCycle_reports_normalized_mean (env : Env) (portCount p : Nat) (lHost : String)
    (x : Nat) (r : Run α) (es : List Int) (hpc : 1 ≤ portCount) (hops : 1 ≤ es.length)
    (hlimit : r.config.gLimit = es.length) (hx : x < r.timeTable.length)
    (hok : ∀ y (h : y < es.length), env.dial p x y = some es[y]) :
    (runCycle env portCount p lHost x r).2.trace.getLast? =
      some (Event.report p x
        (F64.fin (((es.sum : Int) : α) / (portCount : α) / (es.length : α)))) :=
  (runCycle_all_succeed env portCount p lHost x r es hpc hops hlimit hx hok).1

/-- C3 at two ports, two operations per cycle and the elapsed times 10 and 20: the value
passed to `report` is 7.5. -/
theorem runCycle_reports_normalized_mean_witness :
    1 ≤ 2 ∧ 1 ≤ ([10, 20] : List Int).length ∧
    (twoOpsRun ℚ).config.gLimit = (([10, 20] : List Int).length : Int) ∧
    0 < (twoOpsRun ℚ).timeTable.length ∧
    (∀ y (h : y < ([10, 20] : List Int).length),
      steadyEnv.dial 0 0 y = some ([10, 20] : List Int)[y]) ∧
    (runCycle steadyEnv 2 0 "example.com:80" 0 (twoOpsRun ℚ)).2.trace.getLast? =
      some (Event.report 0 0 (F64.fin (15 / 2))) := by
  refine ⟨by decide, by decide, by decide, by decide, steadyEnv_dial 0 0, ?_⟩
  have h := runCycle_reports_normalized_mean steadyEnv 2 0 "example.com:80" 0 (twoOpsRun ℚ)
    [10, 20] (by decide) (by decide) (by decide) (by decide) (steadyEnv_dial 0 0)
  rw [h]
  norm_num

/-- C1 as stated fails: with two ports, two operations per cycle and the elapsed times 10
and 20, the entry of the cycle in the table is 20, the last elapsed time, while the
normalized mean passed to `report` is 7.5. -/
theorem runCycle_table_counterexample :
    (runCycle steadyEnv 2 0 "example.com:80" 0 (twoOpsRun ℚ)).2.timeTable = [F64.fin 20] ∧
    (runCycle steadyEnv 2 0 "example.com:80" 0 (twoOpsRun ℚ)).2.trace.getLast? =
      some (Event.report 0 0 (F64.fin (15 / 2))) ∧
    (F64.fin 20 : F64 ℚ) ≠ F64.fin (15 / 2) := by
  have h := runCycle_all_succeed steadyEnv 2 0 "example.com:80" 0 (twoOpsRun ℚ)
    [10, 20] (by decide) (by decide) (by decide) (by decide) (steadyEnv_dial 0 0)
  refine ⟨?_, ?_, ?_⟩
  · rw [h.2 20 (by decide)]
    simp [twoOpsRun, F64.ofInt]
  · rw [h.1]
    norm_num
  · intro h1
    injection h1 with h1
    norm_num at h1

/-- C1, amended: in every cycle whose operations all succeed, with elapsed times `es`, the
table after the cycle is the table before it with the entry of the cycle set to the last
elapsed time of the cycle. -/
theorem runCycle_stores_last_elapsed (env : Env) (portCount p : Nat) (lHost : String)
    (x : Nat) (r : Run α) (es : List Int) (hpc : 1 ≤ portCount) (hops : 1 ≤ es.length)
    (hlimit : r.config.gLimit = es.length) (hx : x < r.timeTable.length)
    (hok : ∀ y (h : y < es.length), env.dial p x y = some es[y])
    (last : Int) (hlast : es.getLast? = some last) :
    (runCycle env portCount p lHost x r).2.timeTable = r.timeTable.set x (F64.ofInt last) ∧
    (runCycle env portCount p lHost x r).2.timeTable[x]? = some (F64.ofInt last) := by
  have h := (runCycle_all_succeed env portCount p lHost x r es hpc hops hlimit hx hok).2
    last hlast
  refine ⟨h, ?_⟩
  rw [h]
  simp [hx]

/-- C1, amended, at two ports, two operations per cycle and the elapsed times 10 and 20:
the entry of the cycle is 20. -/
theorem runCycle_stores_last_elapsed_witness :
    1 ≤ 2 ∧ 1 ≤ ([10, 20] : List Int).length ∧
    (twoOpsRun ℚ).config.gLimit = (([10, 20] : List Int).length : Int) ∧
    0 < (twoOpsRun ℚ).timeTable.length ∧
    (∀ y (h : y < ([10, 20] : List Int).length),
      steadyEnv.dial 0 0 y = some ([10, 20] : List Int)[y]) ∧
    ([10, 20] : List Int).getLast? = some 20 ∧
    (runCycle steadyEnv 2 0 "example.com:80" 0 (twoOpsRun ℚ)).2.timeTable[0]? =
      some (F64.ofInt 20) :=
  ⟨by decide, by decide, by decide, by decide, steadyEnv_dial 0 0, by decide,
    (runCycle_stores_last_elapsed steadyEnv 2 0 "example.com:80" 0 (twoOpsRun ℚ)
      [10, 20] (by decide) (by decide) (by decide) (by decide) (steadyEnv_dial 0 0) 20
      (by decide)).2⟩

/-- A run of `main` in which a dial is made, with no negative elapsed time and no empty
resolved address, dials the first operation of every port. -/
theorem mainFrom_dials_every_port (sqrt : α → α) (env : Env) (config : ZingArgs)
    (hnn : ∀ q x y e, env.dial q x y = some e → 0 ≤ e)
    (hres : ∀ q s, env.resolve q = some s → s ≠ "")
    (p x y : Nat) (call : DialCall)
    (hdial : Event.dial p x y call ∈ (mainFrom sqrt env config).trace) :
    ∀ q, q < (stringsSplit config.netPorts).length →
      ∃ call1, Event.dial q 0 0 call1 ∈ (mainFrom sqrt env config).trace := by
  have hord := mainFrom_trace_inOrder sqrt env config _ hdial
  obtain ⟨hxc, hyl, _⟩ := hord
  have hg : 1 ≤ config.gCount := by omega
  have hl : 1 ≤ config.gLimit := by omega
  cases h0 : (initRun config : Option (Run α)) with
  | none => rw [mainFrom_trace_of_none sqrt env config h0] at hdial; cases hdial
  | some r0 =>
    obtain ⟨hcfg, htr, htt⟩ := initRun_some config r0 h0
    simp only [Final.trace, mainFrom_run sqrt env config r0 h0] at hdial ⊢
    have hne := stringsSplit_ne_nil config.netPorts
    have hpc : 1 ≤ (stringsSplit config.netPorts).length := List.length_pos.mpr hne
    cases hports : stringsSplit config.netPorts with
    | nil => exact absurd hports hne
    | cons port rest =>
      rw [hports] at hdial hpc
      generalize hpcd : (port :: rest).length = portCount at hpc hdial ⊢
      have hlen0 : r0.timeTable.length = r0.config.gCount.toNat := by
        rw [htt, hcfg]; simp
      cases hfill : fillHostAddr (env.resolve 0) r0.config with
      | none =>
        exfalso
        have hrp := runPort_of_fill_none env portCount 0 port r0 hfill
        rw [portLoop_cons_stop env portCount 0 port rest r0 _ Ctl.fault (by simp) (by simp) hrp,
          htr] at hdial
        simp at hdial
      | some config1 =>
        rcases hrp : runPort env portCount 0 port r0 with ⟨c, r1⟩
        have hf := runPort_frame env portCount 0 port r0
        have hp := runPort_progress env portCount 0 port r0 config1 (hnn 0) hpc
          (by rw [hcfg]; exact hg) (by rw [hcfg]; exact hl) hlen0 hfill
        rw [hrp] at hf hp
        obtain ⟨hf1, hf2, hf3, _, _⟩ := hf
        obtain ⟨hc, ⟨call0, hcall0⟩, hcfg1⟩ := hp
        have haddr : r1.config.netHostAddr ≠ "" := by
          rw [show r1.config = config1 from hcfg1]
          exact (fillHostAddr_some _ _ _ hfill).2.2 (hres 0)
        rw [portLoop_cons_continue env portCount 0 port rest r0 r1 c hc hrp]
        obtain ⟨_, hall⟩ := portLoop_progress env portCount hnn hpc rest 1 r1
          (by rw [show r1.config.gCount = r0.config.gCount from hf1, hcfg]; exact hg)
          (by rw [show r1.config.gLimit = r0.config.gLimit from hf2, hcfg]; exact hl)
          (by rw [show r1.timeTable.length = r0.timeTable.length from hf3,
                show r1.config.gCount = r0.config.gCount from hf1]; exact hlen0)
          haddr
        intro q hq
        rcases Nat.eq_zero_or_pos q with h | h
        · subst h
          exact ⟨call0, (portLoop_frame env portCount rest 1 r1).2.2.2 _ hcall0⟩
        · exact hall q h (by rw [← hpcd] at hq; simp at hq; omega)

/-- C2: in every run, once the dial of operation `y` of cycle `x` of a port has failed, no
later operation of that port is dialled (neither in that cycle nor in a later one) and no
entry of the table is written for that operation or a later one of that port; and the
engine goes on with the ports that follow: when no elapsed time is negative and no
resolved address is empty, the first operation of every later port is dialled. -/
theorem failed_probe_aborts_port_only (sqrt : α → α) (env : Env) (config : ZingArgs)
    (p x y : Nat) (call : DialCall)
    (hdial : Event.dial p x y call ∈ (mainFrom sqrt env config).trace)
    (hfail : env.dial p x y = none) :
    (∀ x1 y1 call1, (x < x1 ∨ (x = x1 ∧ y < y1)) →
      Event.dial p x1 y1 call1 ∉ (mainFrom sqrt env config).trace) ∧
    (∀ x1 y1 v, (x < x1 ∨ (x = x1 ∧ y ≤ y1)) →
      Event.store p x1 y1 v ∉ (mainFrom sqrt env config).trace) ∧
    ((∀ q x1 y1 e, env.dial q x1 y1 = some e → 0 ≤ e) →
      (∀ q s, env.resolve q = some s → s ≠ "") →
      ∀ q, p < q → q < (stringsSplit config.netPorts).length →
        ∃ call1, Event.dial q 0 0 call1 ∈ (mainFrom sqrt env config).trace) := by
  obtain ⟨_, hyl, _⟩ := mainFrom_trace_inOrder sqrt env config _ hdial
  refine ⟨?_, ?_, ?_⟩
  · intro x1 y1 call1 hlt hmem
    obtain ⟨_, _, hb⟩ := mainFrom_trace_inOrder sqrt env config _ hmem
    exact hb x y hyl (by omega) hfail
  · intro x1 y1 v hle hmem
    obtain ⟨_, _, hb, hown⟩ := mainFrom_trace_inOrder sqrt env config _ hmem
    by_cases heq : x = x1 ∧ y = y1
    · obtain ⟨h1, h2⟩ := heq
      subst h1; subst h2
      exact hown hfail
    · exact hb x y hyl (by omega) hfail
  · intro hnn hres q _ hq
    exact mainFrom_dials_every_port sqrt env config hnn hres p x y call hdial q hq

theorem firstPortDown_trace :
    (mainFrom Real.sqrt firstPortDownEnv oneOpConfig).trace =
      [Event.resolve 0 "tcp" "example.com:80",
       Event.banner 0,
       Event.dial 0 0 0 { network := "tcp", address := "example.com:80", timeoutMillis := 3000 },
       Event.unable 0,
       Event.resolve 1 "tcp" "example.com:443",
       Event.banner 1,
       Event.dial 1 0 0 { network := "tcp", address := "example.com:443", timeoutMillis := 3000 },
       Event.store 1 0 0 (F64.fin 5),
       Event.report 1 0 (F64.fin (5 / 2)),
       Event.total 1 30] := by
  simp [mainFrom, initRun, oneOpConfig, defaultConfig, stringsSplit_ConstPorts, portLoop,
    runPort, fillHostAddr, firstPortDownEnv, cycleLoop, runCycle, opLoop, doZingToHost,
    ConstCount, ConstLimit, ConstHostName, ConstHostAddr, ConstTcpMode, ConstTimeout,
    Final.trace, Final.run, getTotalTime, report, F64.ofInt, F64.div, F64.add, F64.ge]
  norm_num

/-- C2 at two ports, one cycle of one operation, with the first port down: the dial on
the first port fails, nothing more is dialled on it, and the second port is dialled. -/
theorem failed_probe_aborts_port_only_witness :
    Event.dial 0 0 0 { network := "tcp", address := "example.com:80", timeoutMillis := 3000 } ∈
      (mainFrom Real.sqrt firstPortDownEnv oneOpConfig).trace ∧
    firstPortDownEnv.dial 0 0 0 = none ∧
    (∀ x1 y1 call1, (0 < x1 ∨ (0 = x1 ∧ 0 < y1)) →
      Event.dial 0 x1 y1 call1 ∉ (mainFrom Real.sqrt firstPortDownEnv oneOpConfig).trace) ∧
    (∀ x1 y1 v, (0 < x1 ∨ (0 = x1 ∧ 0 ≤ y1)) →
      Event.store 0 x1 y1 v ∉ (mainFrom Real.sqrt firstPortDownEnv oneOpConfig).trace) ∧
    ∃ call1, Event.dial 1 0 0 call1 ∈ (mainFrom Real.sqrt firstPortDownEnv oneOpConfig).trace :=
  have hdial : Event.dial 0 0 0
      { network := "tcp", address := "example.com:80", timeoutMillis := 3000 } ∈
      (mainFrom Real.sqrt firstPortDownEnv oneOpConfig).trace := by
    rw [firstPortDown_trace]; simp
  have h := failed_probe_aborts_port_only Real.sqrt firstPortDownEnv oneOpConfig 0 0 0 _
    hdial rfl
  ⟨hdial, rfl, h.1, h.2.1,
    h.2.2
      (by
        intro q x1 y1 e he
        simp only [firstPortDownEnv] at he
        split_ifs at he
        injection he with he
        omega)
      (by
        intro q s hs
        simp only [firstPortDownEnv] at hs
        injection hs with hs
        rw [← hs]
        decide)
      1 (by decide) (by decide)⟩

/-- The constant `math.MaxFloat64` is positive. -/
theorem F64.maxFloat64_pos : (0 : α) < F64.maxFloat64 := by
  unfold F64.maxFloat64
  have h : (2 : α) ^ 971 < 2 ^ 1024 := pow_lt_pow_right₀ (by norm_num) (by norm_num)
  linarith

/-- The summary of a table of zeros, one per cycle, for at least one cycle: all four
figures are 0. -/
theorem summarize_zero_table (sqrt : α → α) (hsqrt : sqrt 0 = 0) (gCount : Int)
    (hg : 1 ≤ gCount) :
    summarize sqrt gCount (List.replicate gCount.toNat (F64.fin 0)) =
      { min := F64.fin 0, max := F64.fin 0, avg := F64.fin 0, stdDev := F64.fin 0 } := by
  obtain ⟨n, hn⟩ : ∃ n, gCount.toNat = n + 1 := ⟨gCount.toNat - 1, by omega⟩
  have hmap : List.replicate gCount.toNat (F64.fin (0 : α)) =
      (List.replicate gCount.toNat (0 : α)).map F64.fin := by simp
  have h0mem : (0 : α) ∈ List.replicate gCount.toNat (0 : α) := by rw [hn]; simp
  obtain ⟨m, M, heq, hm1, _, hm3, hM1, _, hM3⟩ :=
    scanLoop_fin (List.replicate gCount.toNat (0 : α)) F64.maxFloat64 (-F64.maxFloat64) 0
  have hm : m = 0 := by
    rcases hm1 with h | h
    · have := hm3 0 h0mem
      have hp := @F64.maxFloat64_pos α _
      rw [h] at this
      linarith
    · exact List.eq_of_mem_replicate h
  have hM : M = 0 := by
    rcases hM1 with h | h
    · have := hM3 0 h0mem
      have hp := @F64.maxFloat64_pos α _
      rw [h] at this
      linarith
    · exact List.eq_of_mem_replicate h
  have hc0 : ((gCount : Int) : α) ≠ 0 := by
    have : (0 : α) < ((gCount : Int) : α) := by exact_mod_cast hg
    exact ne_of_gt this
  have hsd := stddev_replicate sqrt hsqrt (0 : α) gCount.toNat (by omega)
  rw [hmap] at hsd ⊢
  simp only [summarize, heq, hm, hM, F64.ofInt, F64.div_fin _ _ hc0, List.sum_replicate,
    smul_zero, add_zero, zero_div, hsd]

/-- C4 as stated fails: with one cycle of two operations on two ports, when on each port
the first dial takes 10 ms and the second fails, no port completes a cycle (nothing is
reported), yet the table holds 10 at the summary, and the minimum, the maximum and the
mean are 10. -/
theorem partial_cycle_counterexample :
    (mainFrom Real.sqrt secondFailsEnv twoOpsConfig).trace =
      [Event.resolve 0 "tcp" "example.com:80",
       Event.banner 0,
       Event.dial 0 0 0 { network := "tcp", address := "example.com:80", timeoutMillis := 3000 },
       Event.store 0 0 0 (F64.fin 10),
       Event.dial 0 0 1 { network := "tcp", address := "example.com:80", timeoutMillis := 3000 },
       Event.unable 0,
       Event.resolve 1 "tcp" "example.com:443",
       Event.banner 1,
       Event.dial 1 0 0 { network := "tcp", address := "example.com:443", timeoutMillis := 3000 },
       Event.store 1 0 0 (F64.fin 10),
       Event.dial 1 0 1 { network := "tcp", address := "example.com:443", timeoutMillis := 3000 },
       Event.unable 1] ∧
    (mainFrom Real.sqrt secondFailsEnv twoOpsConfig).run.map Run.timeTable =
      some [F64.fin 10] ∧
    (mainFrom Real.sqrt secondFailsEnv twoOpsConfig).figures =
      some { min := F64.fin 10, max := F64.fin 10, avg := F64.fin 10, stdDev := F64.fin 0 } := by
  refine ⟨?_, ?_, ?_⟩
  · simp [mainFrom, initRun, twoOpsConfig, defaultConfig, stringsSplit_ConstPorts, portLoop,
      runPort, fillHostAddr, secondFailsEnv, cycleLoop, runCycle, opLoop, doZingToHost,
      ConstCount, ConstLimit, ConstHostName, ConstHostAddr, ConstTcpMode, ConstTimeout,
      Final.trace, Final.run, F64.ofInt]
  · simp [mainFrom, initRun, twoOpsConfig, defaultConfig, stringsSplit_ConstPorts, portLoop,
      runPort, fillHostAddr, secondFailsEnv, cycleLoop, runCycle, opLoop, doZingToHost,
      ConstCount, ConstLimit, ConstHostName, ConstHostAddr, ConstTcpMode, ConstTimeout,
      Final.run, F64.ofInt]
  · simp [mainFrom, initRun, twoOpsConfig, defaultConfig, stringsSplit_ConstPorts, portLoop,
      runPort, fillHostAddr, secondFailsEnv, cycleLoop, runCycle, opLoop, doZingToHost,
      ConstCount, ConstLimit, ConstHostName, ConstHostAddr, ConstTcpMode, ConstTimeout,
      Final.figures, F64.ofInt, summarize, scanLoop, stddev, stddevLoop, F64.gt, F64.lt,
      F64.add, F64.sub, F64.mul, F64.div, F64.neg, F64.sqrt, F64.maxFloat64]
    norm_num

/-- C4, amended: a port whose first dial fails leaves the table as it is; and in every
run with at least one cycle and one operation per cycle in which the first dial of every
port fails, and in which the host address is not empty or every resolution succeeds, the
summary is reached with the table still holding its initial zeros, and the minimum, the
maximum, the mean and the standard deviation are all 0. -/
theorem first_dial_failures_keep_table (sqrt : α → α) (hsqrt : sqrt 0 = 0) (env : Env)
    (config : ZingArgs) (hg : 1 ≤ config.gCount) (hl : 1 ≤ config.gLimit) :
    (∀ (portCount p : Nat) (port : String) (r : Run α),
      r.config.gCount = config.gCount → r.config.gLimit = config.gLimit →
      env.dial p 0 0 = none → (runPort env portCount p port r).2.timeTable = r.timeTable) ∧
    ((∀ q, q < (stringsSplit config.netPorts).length → env.dial q 0 0 = none) →
      (config.netHostAddr ≠ "" ∨
        ∀ q, q < (stringsSplit config.netPorts).length → env.resolve q ≠ none) →
      ∃ r, mainFrom sqrt env config = Final.summary r
          ({ min := F64.fin 0, max := F64.fin 0, avg := F64.fin 0, stdDev := F64.fin 0 } :
            Summary α) ∧
        r.timeTable = List.replicate config.gCount.toNat (F64.fin 0)) := by
  constructor
  · intro portCount p port r h1 h2 hfail
    exact (runPort_first_fails env portCount p port r (by rw [h1]; exact hg)
      (by rw [h2]; exact hl) hfail).1
  · intro hfail hres
    have h0 : (initRun config : Option (Run α)) = some
        { config := config
          timeTable := List.replicate config.gCount.toNat (F64.fin 0)
          totalZingTime := 0
          portIndex := 0
          trace := [] } := by
      unfold initRun
      rw [if_neg (by omega)]
    have hpl := portLoop_first_fails env (stringsSplit config.netPorts).length
      (stringsSplit config.netPorts) 0
      ({ config := config
         timeTable := List.replicate config.gCount.toNat (F64.fin 0)
         totalZingTime := 0
         portIndex := 0
         trace := [] } : Run α) hg hl
      (fun q _ h => hfail q (by omega))
    have hfr := portLoop_frame env (stringsSplit config.netPorts).length
      (stringsSplit config.netPorts) 0
      ({ config := config
         timeTable := List.replicate config.gCount.toNat (F64.fin 0)
         totalZingTime := 0
         portIndex := 0
         trace := [] } : Run α)
    obtain ⟨htt, hctl⟩ := hpl
    have hnormal := hctl (by
      rcases hres with h | h
      · exact Or.inl h
      · exact Or.inr (fun q _ hq => h q (by omega)))
    rcases hrun : portLoop env (stringsSplit config.netPorts).length 0
      (stringsSplit config.netPorts)
      ({ config := config
         timeTable := List.replicate config.gCount.toNat (F64.fin 0)
         totalZingTime := 0
         portIndex := 0
         trace := [] } : Run α) with ⟨c, r⟩
    rw [hrun] at htt hnormal hfr
    simp only at htt hnormal hfr
    subst hnormal
    refine ⟨r, ?_, htt⟩
    unfold mainFrom
    rw [h0]
    simp only [hrun]
    rw [htt, hfr.1, summarize_zero_table sqrt hsqrt config.gCount hg]

/-- C4, amended, at two ports and one cycle of one operation with every port down: the
table still holds its zero and the four figures of the summary are 0. -/
theorem first_dial_failures_keep_table_witness :
    Real.sqrt 0 = 0 ∧ 1 ≤ oneOpConfig.gCount ∧ 1 ≤ oneOpConfig.gLimit ∧
    (∀ q, q < (stringsSplit oneOpConfig.netPorts).length → allDownEnv.dial q 0 0 = none) ∧
    (∀ q, q < (stringsSplit oneOpConfig.netPorts).length → allDownEnv.resolve q ≠ none) ∧
    ∃ r, mainFrom Real.sqrt allDownEnv oneOpConfig = Final.summary r
        ({ min := F64.fin 0, max := F64.fin 0, avg := F64.fin 0, stdDev := F64.fin 0 } :
          Summary ℝ) ∧
      r.timeTable = List.replicate oneOpConfig.gCount.toNat (F64.fin 0) :=
  ⟨Real.sqrt_zero, by decide, by decide, fun _ _ => rfl, fun _ _ => by simp [allDownEnv],
    (first_dial_failures_keep_table Real.sqrt Real.sqrt_zero allDownEnv oneOpConfig
      (by decide) (by decide)).2 (fun _ _ => rfl) (Or.inr (fun _ _ => by simp [allDownEnv]))⟩

end engine

/-! ## Command line: faults, exits and the host name -/

/-- C12, the code at a flag without a value and at an empty token: `processArgs` stops
with a run-time panic, reading `os.Args[idx+2]` past the end or `arg[0]` of the empty
string. -/
theorem processArgs_index_out_of_range :
    processArgs ["-c"] defaultConfig = Outcome.fault ∧
    processArgs ["example.com", "-op"] defaultConfig = Outcome.fault ∧
    processArgs ["example.com", "-p"] defaultConfig = Outcome.fault ∧
    processArgs ["example.com", "-t"] defaultConfig = Outcome.fault ∧
    processArgs [""] defaultConfig = Outcome.fault := by
  decide

/-- A flag of the `switch` is not a host token, and starts with `-`. -/
theorem knownFlags_head (tok : String) (h : tok ∈ knownFlags) : tok.toList.head? = some '-' := by
  simp only [knownFlags, List.mem_cons, List.mem_singleton, List.not_mem_nil, or_false] at h
  rcases h with h | h | h | h | h | h <;> subst h <;> decide

/-- One iteration on a token that is not empty and not `-h`, with a token after it when it
is a flag with a value: the iteration returns, or the token is an unknown flag and the
process exits with code 1. -/
theorem processArg_ok_or_exit (args : List String) (idx : Nat) (arg : String) (argv : ZingArgs)
    (hne : arg ≠ "") (hh : arg ≠ "-h") (hnext : args[idx + 1]? ≠ none ∨ arg ∉ knownFlags) :
    (∃ b, processArg args idx arg argv = Outcome.ok b) ∨
    (processArg args idx arg argv = Outcome.exit 1 ∧
      arg.toList.head? = some '-' ∧ arg ∉ knownFlags) := by
  have hval : ∀ f, arg = f → f ∈ knownFlags → ∃ tok, args[idx + 1]? = some tok := by
    intro f hf hmem
    rcases hnext with h | h
    · cases hn : args[idx + 1]? with
      | none => exact absurd hn h
      | some tok => exact ⟨tok, rfl⟩
    · rw [hf] at h; exact absurd hmem h
  unfold processArg
  split_ifs with h1 h2 h3 h4 h5 h6
  · exact Or.inl ⟨_, rfl⟩
  · exact Or.inl ⟨_, rfl⟩
  · obtain ⟨tok, ht⟩ := hval "-c" h3 (by decide)
    rw [ht]
    simp only
    split_ifs <;> exact Or.inl ⟨_, rfl⟩
  · obtain ⟨tok, ht⟩ := hval "-op" h4 (by decide)
    rw [ht]
    simp only
    split_ifs <;> exact Or.inl ⟨_, rfl⟩
  · obtain ⟨tok, ht⟩ := hval "-p" h5 (by decide)
    rw [ht]
    exact Or.inl ⟨_, rfl⟩
  · obtain ⟨tok, ht⟩ := hval "-t" h6 (by decide)
    rw [ht]
    exact Or.inl ⟨_, rfl⟩
  · rcases arg with ⟨l⟩
    cases l with
    | nil => exact absurd rfl hne
    | cons c cs =>
      simp only [String.toList]
      split_ifs with hc
      · right
        refine ⟨rfl, by simp [hc], ?_⟩
        simp only [knownFlags, List.mem_cons, List.mem_singleton, List.not_mem_nil, or_false]
        tauto
      · exact Or.inl ⟨_, rfl⟩

/-- The loop of `processArgs` on tokens that are not empty and not `-h`, one of which is
an unknown flag: the process exits with code 1. -/
theorem processArgsFrom_unknown_flag (args : List String) (hne : ∀ t ∈ args, t ≠ "")
    (hh : "-h" ∉ args) :
    ∀ (rest : List String) (idx : Nat) (argv : ZingArgs),
      args.drop idx = rest →
      (∃ t ∈ rest, t.toList.head? = some '-' ∧ t ∉ knownFlags) →
      processArgsFrom args idx rest argv = Outcome.exit 1 := by
  intro rest
  induction rest with
  | nil => intro idx argv _ hbad; obtain ⟨t, ht, _⟩ := hbad; cases ht
  | cons a rest ih =>
    intro idx argv hd hbad
    obtain ⟨hget, hrest⟩ := drop_cons_getElem args idx a rest hd
    have hmem : a ∈ args := by
      obtain ⟨hi, he⟩ := List.getElem?_eq_some_iff.mp hget
      rw [← he]
      exact List.getElem_mem hi
    have hnext : args[idx + 1]? ≠ none ∨ a ∉ knownFlags := by
      by_cases hk : a ∈ knownFlags
      · left
        obtain ⟨t, ht, _, htk⟩ := hbad
        rcases List.mem_cons.mp ht with h | h
        · rw [h] at htk; exact absurd hk htk
        · cases rest with
          | nil => cases h
          | cons b rest2 =>
            rw [(drop_cons_getElem args (idx + 1) b rest2 hrest).1]
            simp
      · exact Or.inr hk
    simp only [processArgsFrom]
    rcases processArg_ok_or_exit args idx a argv (hne a hmem)
      (fun h => hh (h ▸ hmem)) hnext with ⟨b, hb⟩ | ⟨hexit, hhead, hk⟩
    · rw [hb]
      apply ih (idx + 1) b hrest
      obtain ⟨t, ht, hth, htk⟩ := hbad
      rcases List.mem_cons.mp ht with h | h
      · exfalso
        subst h
        rcases processArg_ok_cases args idx t argv b hb with
          h1 | h1 | h1 | h1 | h1 | h1 | h1
        · exact htk (by rw [h1.1]; decide)
        · exact htk (by rw [h1.1]; decide)
        · exact htk (by rw [h1.1]; decide)
        · exact htk (by rw [h1.1]; decide)
        · exact htk (by rw [h1.1]; decide)
        · exact htk (by rw [h1.1]; decide)
        · obtain ⟨⟨c, cs, hl, hc⟩, _⟩ := h1
          rw [hl] at hth
          simp at hth
          exact hc hth
      · exact ⟨t, h, hth, htk⟩
    · rw [hexit]

/-- C13: on every argument list of non-empty tokens without `-h`, in which some token
starts with `-` and is none of `-4`, `-6`, `-c`, `-op`, `-p`, `-t`, `processArgs` ends the
process with exit code 1 and returns no configuration. -/
theorem processArgs_unknown_flag_exits (args : List String) (argv : ZingArgs)
    (hne : ∀ t ∈ args, t ≠ "") (hh : "-h" ∉ args)
    (hbad : ∃ t ∈ args, t.toList.head? = some '-' ∧ t ∉ knownFlags) :
    processArgs args argv = Outcome.exit 1 :=
  processArgsFrom_unknown_flag args hne hh args 0 argv rfl hbad

/-- C13 at the argument list `-z`. -/
theorem processArgs_unknown_flag_exits_witness :
    (∀ t ∈ ["-z"], t ≠ "") ∧ "-h" ∉ ["-z"] ∧
    (∃ t ∈ ["-z"], t.toList.head? = some '-' ∧ t ∉ knownFlags) ∧
    processArgs ["-z"] defaultConfig = Outcome.exit 1 :=
  have h1 : ∀ t ∈ ["-z"], t ≠ "" := by decide
  have h2 : "-h" ∉ ["-z"] := by decide
  have h3 : ∃ t ∈ ["-z"], t.toList.head? = some '-' ∧ t ∉ knownFlags :=
    ⟨"-z", by decide, by decide, by decide⟩
  ⟨h1, h2, h3, processArgs_unknown_flag_exits ["-z"] defaultConfig h1 h2 h3⟩

/-- A token that the default case of the `switch` takes as the host name is a host
token. -/
theorem isHostToken_of_head (tok : String) (c : Char) (cs : List Char)
    (hl : tok.toList = c :: cs) (hc : c ≠ '-') : isHostToken tok := by
  have hhead : tok.toList.head? ≠ some '-' := by
    rw [hl]
    simp
    exact hc
  refine ⟨fun hk => hhead (knownFlags_head tok hk), ?_, hhead⟩
  intro hh
  rw [hh] at hhead
  exact hhead (by decide)

/-- The host fields after one iteration: those of the token when it is a host token,
unchanged otherwise. -/
theorem processArg_host (args : List String) (idx : Nat) (arg : String) (a b : ZingArgs)
    (h : processArg args idx arg a = Outcome.ok b) :
    (isHostToken arg ∧ b.netHostName = arg ∧ b.netHostAddr = "") ∨
    (¬ isHostToken arg ∧ b.netHostName = a.netHostName ∧ b.netHostAddr = a.netHostAddr) := by
  rcases processArg_ok_cases args idx arg a b h with
    ⟨ha, hb⟩ | ⟨ha, hb⟩ | ⟨ha, _, _, hb⟩ | ⟨ha, _, _, hb⟩ | ⟨ha, _, _, hb⟩ | ⟨ha, _, _, hb⟩ |
    ⟨⟨c, cs, hl, hc⟩, hb⟩
  · exact Or.inr ⟨fun hk => hk.1 (by rw [ha]; decide), by rw [hb], by rw [hb]⟩
  · exact Or.inr ⟨fun hk => hk.1 (by rw [ha]; decide), by rw [hb], by rw [hb]⟩
  · exact Or.inr ⟨fun hk => hk.1 (by rw [ha]; decide), by rw [hb], by rw [hb]⟩
  · exact Or.inr ⟨fun hk => hk.1 (by rw [ha]; decide), by rw [hb], by rw [hb]⟩
  · exact Or.inr ⟨fun hk => hk.1 (by rw [ha]; decide), by rw [hb], by rw [hb]⟩
  · exact Or.inr ⟨fun hk => hk.1 (by rw [ha]; decide), by rw [hb], by rw [hb]⟩
  · exact Or.inl ⟨isHostToken_of_head arg c cs hl hc, by rw [hb], by rw [hb]⟩

/-- The host fields after the loop of `processArgs`: those set by the last host token that
is left to visit, unchanged when there is none. -/
theorem processArgsFrom_host (args : List String) :
    ∀ (rest : List String) (idx : Nat) (argv cfg : ZingArgs),
      processArgsFrom args idx rest argv = Outcome.ok cfg →
      (∀ pre tok post, rest = pre ++ tok :: post → isHostToken tok →
        (∀ t ∈ post, ¬ isHostToken t) → cfg.netHostName = tok ∧ cfg.netHostAddr = "") ∧
      ((∀ t ∈ rest, ¬ isHostToken t) →
        cfg.netHostName = argv.netHostName ∧ cfg.netHostAddr = argv.netHostAddr) := by
  intro rest
  induction rest with
  | nil =>
    intro idx argv cfg h
    simp only [processArgsFrom] at h
    injection h with h
    subst h
    refine ⟨?_, fun _ => ⟨rfl, rfl⟩⟩
    intro pre tok post hsplit
    simp at hsplit
  | cons a rest ih =>
    intro idx argv cfg h
    simp only [processArgsFrom] at h
    cases hs : processArg args idx a argv with
    | exit code => rw [hs] at h; cases h
    | fault => rw [hs] at h; cases h
    | ok argv1 =>
      rw [hs] at h
      obtain ⟨ih1, ih2⟩ := ih (idx + 1) argv1 cfg h
      have hhost := processArg_host args idx a argv argv1 hs
      constructor
      · intro pre tok post hsplit htok hpost
        cases pre with
        | nil =>
          simp only [List.nil_append, List.cons.injEq] at hsplit
          obtain ⟨h1, h2⟩ := hsplit
          subst h1; subst h2
          obtain ⟨e1, e2⟩ := ih2 hpost
          rcases hhost with ⟨_, hn, ha⟩ | ⟨hno, _, _⟩
          · exact ⟨e1.trans hn, e2.trans ha⟩
          · exact absurd htok hno
        | cons b pre2 =>
          simp only [List.cons_append, List.cons.injEq] at hsplit
          exact ih1 pre2 tok post hsplit.2 htok hpost
      · intro hnone
        obtain ⟨e1, e2⟩ := ih2 (fun t ht => hnone t (List.mem_cons_of_mem _ ht))
        rcases hhost with ⟨hyes, _, _⟩ | ⟨_, hn, ha⟩
        · exact absurd hyes (hnone a (List.mem_cons_self _ _))
        · exact ⟨e1.trans hn, e2.trans ha⟩

/-- C14: on every argument list on which `processArgs` returns, when some token is a host
token (it equals none of the flags and does not start with `-`), the host name is the
last such token and the host address is empty; when no token is a host token, the host
name and the host address are those of the configuration passed in. -/
theorem processArgs_host_is_last_host_token (args : List String) (argv cfg : ZingArgs)
    (h : processArgs args argv = Outcome.ok cfg) :
    (∀ pre tok post, args = pre ++ tok :: post → isHostToken tok →
      (∀ t ∈ post, ¬ isHostToken t) → cfg.netHostName = tok ∧ cfg.netHostAddr = "") ∧
    ((∀ t ∈ args, ¬ isHostToken t) →
      cfg.netHostName = argv.netHostName ∧ cfg.netHostAddr = argv.netHostAddr) :=
  processArgsFrom_host args args 0 argv cfg h

/-- C14 at `-4 example.com -6`: the host name is `example.com`, the host address is
empty. -/
theorem processArgs_host_is_last_host_token_witness :
    processArgs ["-4", "example.com", "-6"] defaultConfig =
      Outcome.ok { defaultConfig with
        netHostName := "example.com", netHostAddr := "", tcpMode := "tcp6" } ∧
    isHostToken "example.com" ∧ (∀ t ∈ ["-6"], ¬ isHostToken t) ∧
    ({ defaultConfig with
        netHostName := "example.com", netHostAddr := "", tcpMode := "tcp6" } :
      ZingArgs).netHostName = "example.com" ∧
    ({ defaultConfig with
        netHostName := "example.com", netHostAddr := "", tcpMode := "tcp6" } :
      ZingArgs).netHostAddr = "" :=
  have h : processArgs ["-4", "example.com", "-6"] defaultConfig =
      Outcome.ok { defaultConfig with
        netHostName := "example.com", netHostAddr := "", tcpMode := "tcp6" } := by decide
  have h1 : isHostToken "example.com" := ⟨by decide, by decide, by decide⟩
  have h2 : ∀ t ∈ ["-6"], ¬ isHostToken t := by
    intro t ht hk
    simp only [List.mem_singleton] at ht
    subst ht
    exact hk.1 (by decide)
  have hc := (processArgs_host_is_last_host_token ["-4", "example.com", "-6"] defaultConfig _
    h).1 ["-4"] "example.com" ["-6"] rfl h1 h2
  ⟨h, h1, h2, hc.1, hc.2⟩

/-- C15, the code after `-4`: the configuration asks for `tcp4`, and the network that
`doZingToHost` hands to the dialer is the constant `tcp`. -/
theorem doZingToHost_dials_tcp :
    processArgs ["-4", "example.com"] defaultConfig =
      Outcome.ok { defaultConfig with
        netHostName := "example.com", netHostAddr := "", tcpMode := "tcp4" } ∧
    (doZingToHost (some 5)
      { defaultConfig with netHostName := "example.com", netHostAddr := "", tcpMode := "tcp4" }
      "example.com:80" : DialCall × F64 ℚ × Bool).1.network = "tcp" ∧
    (doZingToHost none
      { defaultConfig with netHostName := "example.com", netHostAddr := "", tcpMode := "tcp4" }
      "example.com:80" : DialCall × F64 ℚ × Bool).1.network = "tcp" ∧
    "tcp" ≠ "tcp4" := by
  refine ⟨by decide, rfl, rfl, by decide⟩

section engine2
variable {α : Type} [LinearOrderedField α]

/-! ## Probe engine: resolution failure and the entry of a cycle -/

/-- The run of `zing example.com` when no resolution succeeds: a run-time panic right
after the first resolution. -/
theorem main_unresolved :
    main Real.sqrt unresolvedEnv ["example.com"] =
      Final.fault (some
        ({ config := { defaultConfig with netHostName := "example.com", netHostAddr := "" }
           timeTable := [F64.fin 0, F64.fin 0, F64.fin 0, F64.fin 0]
           totalZingTime := 0
           portIndex := 0
           trace := [Event.resolve 0 "tcp" "example.com:80"] } : Run ℝ)) := by
  have h : processArgs ["example.com"] defaultConfig =
      Outcome.ok { defaultConfig with netHostName := "example.com", netHostAddr := "" } := by
    decide
  rw [main, if_neg (by decide), h]
  simp [mainFrom, initRun, defaultConfig, stringsSplit_ConstPorts, portLoop, runPort,
    fillHostAddr, unresolvedEnv, ConstCount, ConstLimit, ConstHostName, ConstHostAddr,
    ConstTcpMode, ConstTimeout, List.replicate]

/-- C11, the code at `zing example.com` when the resolution fails: the host address is
empty, `hostAddr` is `nil`, and `main` stops with a run-time panic right after the
resolution, before any diagnostic and before any dial. -/
theorem main_panics_on_failed_resolution :
    main Real.sqrt unresolvedEnv ["example.com"] =
      Final.fault (some
        ({ config := { defaultConfig with netHostName := "example.com", netHostAddr := "" }
           timeTable := [F64.fin 0, F64.fin 0, F64.fin 0, F64.fin 0]
           totalZingTime := 0
           portIndex := 0
           trace := [Event.resolve 0 "tcp" "example.com:80"] } : Run ℝ)) ∧
    unresolvedEnv.resolve 0 = none :=
  ⟨main_unresolved, rfl⟩

/-- The first operations of a cycle succeed, with elapsed times `es`: the loop goes on
from the operation after them, with the entry `x` of the table set to the last of them. -/
theorem opLoop_prefix_succeeds (env : Env) (p : Nat) (lHost : String) (x : Nat) (todo : Nat) :
    ∀ (es : List Int) (y : Nat) (r : Run α) (t : F64 α),
      x < r.timeTable.length →
      (∀ i (h : i < es.length), env.dial p x (y + i) = some es[i]) →
      ∃ r1 t1, opLoop env p lHost x (es.length + todo) y r t =
          opLoop env p lHost x todo (y + es.length) r1 t1 ∧
        r1.timeTable = (match es.getLast? with
          | none => r.timeTable
          | some e => r.timeTable.set x (F64.ofInt e)) := by
  intro es
  induction es with
  | nil =>
    intro y r t _ _
    exact ⟨r, t, by simp, rfl⟩
  | cons e rest ih =>
    intro y r t hx hok
    have h0 : env.dial p x y = some e := by
      have := hok 0 (by simp)
      simpa using this
    have hrest : ∀ i (h : i < rest.length), env.dial p x (y + 1 + i) = some rest[i] := by
      intro i h
      have := hok (i + 1) (by simp; omega)
      simp only [List.getElem_cons_succ] at this
      rw [← this]
      congr 1
      omega
    obtain ⟨r1, t1, h1, h3⟩ := ih (y + 1)
      { r with timeTable := r.timeTable.set x (F64.ofInt e),
               trace := r.trace ++ [Event.dial p x y
                 { network := "tcp", address := lHost, timeoutMillis := r.config.timeout },
                 Event.store p x y (F64.ofInt e)] }
      (F64.add t (F64.ofInt e)) (by simpa using hx) hrest
    refine ⟨r1, t1, ?_, ?_⟩
    · have hlen : (e :: rest).length + todo = (rest.length + todo) + 1 := by simp; omega
      rw [hlen, opLoop_succ_some env p lHost x (rest.length + todo) y r t e h0 hx, h1]
      congr 1
      simp
      omega
    · rw [h3]
      cases rest with
      | nil => simp
      | cons e2 rest2 =>
        simp [List.getLast?_cons_cons]
        cases h : (e2 :: rest2).getLast? with
        | none => simp at h
        | some l => simp

/-- C19: in every cycle in which the first operations succeed, with elapsed times `es`
(at least one), and the next one, if any is left, fails, the table after the cycle is the
table before it with the entry of the cycle set to the last successful elapsed time,
whatever the number of ports and the other elapsed times. -/
theorem runCycle_entry_is_last_success (env : Env) (portCount p : Nat) (lHost : String)
    (x : Nat) (r : Run α) (es : List Int) (hx : x < r.timeTable.length)
    (hle : (es.length : Int) ≤ r.config.gLimit)
    (hok : ∀ y (h : y < es.length), env.dial p x y = some es[y])
    (hstop : (es.length : Int) < r.config.gLimit → env.dial p x es.length = none)
    (last : Int) (hlast : es.getLast? = some last) :
    (runCycle env portCount p lHost x r).2.timeTable = r.timeTable.set x (F64.ofInt last) ∧
    (runCycle env portCount p lHost x r).2.timeTable[x]? = some (F64.ofInt last) := by
  have hmain : (runCycle env portCount p lHost x r).2.timeTable =
      r.timeTable.set x (F64.ofInt last) := by
    obtain ⟨todo, htodo⟩ : ∃ todo, r.config.gLimit.toNat = es.length + todo :=
      ⟨r.config.gLimit.toNat - es.length, by omega⟩
    obtain ⟨r1, t1, h1, h2⟩ := opLoop_prefix_succeeds env p lHost x todo es 0 r (F64.fin 0) hx
      (by intro i h; rw [Nat.zero_add]; exact hok i h)
    rw [hlast] at h2
    simp only at h2
    rw [← htodo, Nat.zero_add] at h1
    rcases hop : opLoop env p lHost x r.config.gLimit.toNat 0 r (F64.fin 0) with ⟨c, r2, total⟩
    cases todo with
    | zero =>
      rw [hop] at h1
      simp only [opLoop] at h1
      injection h1 with hc hr
      injection hr with hr ht
      subst hc
      rw [runCycle_of_normal env portCount p lHost x r r2 total hop]
      simp only
      rw [hr, h2]
    | succ todo =>
      have hfail : env.dial p x es.length = none := hstop (by omega)
      have hff := opLoop_first_fails env p lHost x todo es.length r1 t1 hfail
      rw [← h1, hop] at hff
      simp only at hff
      rw [runCycle_of_not_normal env portCount p lHost x r r2 c total (by rw [hff.1]; simp) hop]
      simp only
      rw [hff.2, h2]
  refine ⟨hmain, ?_⟩
  rw [hmain]
  simp [hx]

/-- C19 at a cycle of two operations in which the first dial takes 10 ms and the second
fails: the entry of the cycle is 10. -/
theorem runCycle_entry_is_last_success_witness :
    0 < (twoOpsRun ℚ).timeTable.length ∧
    (([10] : List Int).length : Int) ≤ (twoOpsRun ℚ).config.gLimit ∧
    (∀ y (h : y < ([10] : List Int).length),
      secondFailsEnv.dial 0 0 y = some ([10] : List Int)[y]) ∧
    secondFailsEnv.dial 0 0 1 = none ∧ ([10] : List Int).getLast? = some 10 ∧
    (runCycle secondFailsEnv 2 0 "example.com:80" 0 (twoOpsRun ℚ)).2.timeTable[0]? =
      some (F64.ofInt 10) :=
  have hok : ∀ y (h : y < ([10] : List Int).length),
      secondFailsEnv.dial 0 0 y = some ([10] : List Int)[y] := by
    intro y h
    have h2 : y < 1 := h
    interval_cases y
    rfl
  ⟨by decide, by decide, hok, rfl, by decide,
    (runCycle_entry_is_last_success secondFailsEnv 2 0 "example.com:80" 0 (twoOpsRun ℚ)
      [10] (by decide) (by decide) hok (fun _ => rfl) 10 (by decide)).2⟩

end engine2

/-! ## Probe engine: the total elapsed time -/

theorem totals_append {α : Type} (l1 l2 : List (Event α)) : totals (l1 ++ l2) = totals l1 ++ totals l2 := by
  induction l1 with
  | nil => rfl
  | cons e rest ih => cases e <;> simp [totals, ih]

theorem mem_totals {α : Type} (l : List (Event α)) (q : Nat) (ms : Int) :
    (q, ms) ∈ totals l ↔ Event.total q ms ∈ l := by
  induction l with
  | nil => simp [totals]
  | cons e rest ih => cases e <;> simp [totals, ih]

section engine3
variable {α : Type} [LinearOrderedField α]

/-- The operations record no total. -/
theorem opLoop_totals (env : Env) (p : Nat) (lHost : String) (x : Nat) :
    ∀ (todo y : Nat) (r : Run α) (t : F64 α),
      totals (opLoop env p lHost x todo y r t).2.1.trace = totals r.trace := by
  intro todo
  induction todo with
  | zero => intro y r t; simp [opLoop]
  | succ todo ih =>
    intro y r t
    cases h : env.dial p x y with
    | none =>
      rw [opLoop_succ_none env p lHost x todo y r t h]
      simp [totals_append, totals]
    | some e =>
      by_cases hx : x < r.timeTable.length
      · rw [opLoop_succ_some env p lHost x todo y r t e h hx, ih]
        simp [totals_append, totals]
      · rw [opLoop_succ_fault env p lHost x todo y r t e h hx]
        simp [totals_append, totals]

/-- A cycle records no total. -/
theorem runCycle_totals (env : Env) (portCount p : Nat) (lHost : String) (x : Nat)
    (r : Run α) :
    totals (runCycle env portCount p lHost x r).2.trace = totals r.trace ∧
    (runCycle env portCount p lHost x r).2.totalZingTime = r.totalZingTime := by
  rcases hop : opLoop env p lHost x r.config.gLimit.toNat 0 r (F64.fin 0) with ⟨c, r1, total⟩
  have ht := opLoop_totals env p lHost x r.config.gLimit.toNat 0 r (F64.fin 0)
  have hf := opLoop_frame env p lHost x r.config.gLimit.toNat 0 r (F64.fin 0)
  rw [hop] at ht hf
  simp only at ht hf
  by_cases hc : c = Ctl.normal
  · subst hc
    rw [runCycle_of_normal env portCount p lHost x r r1 total hop]
    simp [totals_append, totals, ht, hf.2.2]
  · rw [runCycle_of_not_normal env portCount p lHost x r r1 c total hc hop]
    exact ⟨ht, hf.2.2⟩

/-- The cycles of a port record no total, and end normally only when every operation of
the port has succeeded. -/
theorem cycleLoop_totals (env : Env) (portCount p : Nat) (lHost : String) :
    ∀ (todo x : Nat) (r : Run α),
      totals (cycleLoop env portCount p lHost todo x r).2.trace = totals r.trace ∧
      (cycleLoop env portCount p lHost todo x r).2.totalZingTime = r.totalZingTime ∧
      (env.okBefore r.config.gLimit.toNat p x 0 →
        (cycleLoop env portCount p lHost todo x r).1 = Ctl.normal →
        env.okBefore r.config.gLimit.toNat p (x + todo) 0) := by
  intro todo
  induction todo with
  | zero => intro x r; simp [cycleLoop]
  | succ todo ih =>
    intro x r
    rcases hrc : runCycle env portCount p lHost x r with ⟨c, r1⟩
    have ht := runCycle_totals env portCount p lHost x r
    have hf := runCycle_frame env portCount p lHost x r
    rw [hrc] at ht hf
    simp only at ht hf
    by_cases hc : c = Ctl.normal
    · subst hc
      rw [cycleLoop_succ_normal env portCount p lHost todo x r r1 hrc]
      obtain ⟨h1, h2, h3⟩ := ih (x + 1) r1
      refine ⟨h1.trans ht.1, h2.trans ht.2, ?_⟩
      intro hb hn
      have hb1 := (runCycle_trace env (x + 1) portCount p lHost x r (Nat.lt_succ_self x) hb).2
      rw [hrc] at hb1
      rw [hf.1] at h3
      have := h3 (hb1 rfl) hn
      rw [show x + (todo + 1) = x + 1 + todo from by omega]
      exact this
    · rw [cycleLoop_succ_other env portCount p lHost todo x r r1 c hc hrc]
      exact ⟨ht.1, ht.2, fun _ h => absurd h hc⟩

/-- A port that ends normally records its elapsed time as the total, after every one of
its operations has succeeded; a port that ends otherwise records nothing and leaves the
total as it was. -/
theorem runPort_totals (env : Env) (portCount p : Nat) (port : String) (r : Run α) :
    ((runPort env portCount p port r).1 = Ctl.normal →
      totals (runPort env portCount p port r).2.trace =
        totals r.trace ++ [(p, env.portMillis p)] ∧
      (runPort env portCount p port r).2.totalZingTime = env.portMillis p ∧
      env.okBefore r.config.gLimit.toNat p r.config.gCount.toNat 0) ∧
    ((runPort env portCount p port r).1 ≠ Ctl.normal →
      totals (runPort env portCount p port r).2.trace = totals r.trace ∧
      (runPort env portCount p port r).2.totalZingTime = r.totalZingTime) := by
  cases hfill : fillHostAddr (env.resolve p) r.config with
  | none =>
    rw [runPort_of_fill_none env portCount p port r hfill]
    refine ⟨fun h => by simp at h, fun _ => ?_⟩
    simp [totals_append, totals]
  | some config1 =>
    obtain ⟨hg, hl, _⟩ := fillHostAddr_some _ _ _ hfill
    rcases hcl : cycleLoop env portCount p (r.config.netHostName ++ ":" ++ port)
      config1.gCount.toNat 0 (r.beforeCycles env p port config1) with ⟨c, r3⟩
    have ht := cycleLoop_totals env portCount p (r.config.netHostName ++ ":" ++ port)
      config1.gCount.toNat 0 (r.beforeCycles env p port config1)
    rw [hcl] at ht
    obtain ⟨ht1, ht2, ht3⟩ := ht
    have hstart : totals (r.beforeCycles env p port config1).trace = totals r.trace := by
      simp only [Run.beforeCycles, totals_append]
      split_ifs <;> simp [totals]
    by_cases hc : c = Ctl.normal
    · subst hc
      rw [runPort_of_cycles_normal env portCount p port r r3 config1 hfill hcl]
      refine ⟨fun _ => ⟨?_, rfl, ?_⟩, fun h => absurd rfl h⟩
      · simp only [totals_append]
        rw [show totals r3.trace = totals (r.beforeCycles env p port config1).trace from ht1,
          hstart]
        simp [totals]
      · have := ht3 (by intro x1 y1 _ h; omega) rfl
        simp only [Run.beforeCycles, Nat.zero_add, hl, hg] at this
        exact this
    · rw [runPort_of_cycles_other env portCount p port r r3 config1 c hc hfill hcl]
      refine ⟨fun h => absurd h hc, fun _ => ⟨ht1.trans hstart, ?_⟩⟩
      exact ht2

/-- The total elapsed time after the port loop is the one of the last recorded total, and
every recorded total is the elapsed time of a port all of whose operations succeeded. -/
theorem portLoop_totals (env : Env) (portCount : Nat) (z : Int) :
    ∀ (ports : List String) (p : Nat) (r : Run α),
      ∃ ts, totals (portLoop env portCount p ports r).2.trace = totals r.trace ++ ts ∧
        (∀ q ms, (q, ms) ∈ ts → ms = env.portMillis q ∧
          env.okBefore r.config.gLimit.toNat q r.config.gCount.toNat 0) ∧
        (r.totalZingTime = ((totals r.trace).getLast?.map Prod.snd).getD z →
          (portLoop env portCount p ports r).2.totalZingTime =
            ((totals (portLoop env portCount p ports r).2.trace).getLast?.map Prod.snd).getD z) := by
  intro ports
  induction ports with
  | nil => intro p r; exact ⟨[], by simp [portLoop], by simp, by simp [portLoop]⟩
  | cons port rest ih =>
    intro p r
    rcases hrp : runPort env portCount p port r with ⟨c, r1⟩
    have ht := runPort_totals env portCount p port r
    have hf := runPort_frame env portCount p port r
    rw [hrp] at ht hf
    simp only at ht hf
    obtain ⟨htn, hto⟩ := ht
    have hstep : ∃ ts1, totals r1.trace = totals r.trace ++ ts1 ∧
        (∀ q ms, (q, ms) ∈ ts1 → ms = env.portMillis q ∧
          env.okBefore r.config.gLimit.toNat q r.config.gCount.toNat 0) ∧
        (r.totalZingTime = ((totals r.trace).getLast?.map Prod.snd).getD z →
          r1.totalZingTime = ((totals r1.trace).getLast?.map Prod.snd).getD z) := by
      by_cases hc : c = Ctl.normal
      · obtain ⟨h1, h2, h3⟩ := htn hc
        refine ⟨[(p, env.portMillis p)], h1, ?_, ?_⟩
        · intro q ms hmem
          simp only [List.mem_singleton, Prod.mk.injEq] at hmem
          obtain ⟨hq, hms⟩ := hmem
          subst hq; subst hms
          exact ⟨rfl, h3⟩
        · intro _
          rw [h1, h2]
          simp
      · obtain ⟨h1, h2⟩ := hto hc
        exact ⟨[], by simp [h1], by simp, fun h => by rw [h1, h2]; exact h⟩
    obtain ⟨ts1, hts1, hin1, hinv1⟩ := hstep
    by_cases hc : c = Ctl.normal ∨ c = Ctl.nextPort
    · rw [portLoop_cons_continue env portCount p port rest r r1 c hc hrp]
      obtain ⟨ts2, hts2, hin2, hinv2⟩ := ih (p + 1) r1
      refine ⟨ts1 ++ ts2, by rw [hts2, hts1]; simp, ?_, fun h => hinv2 (hinv1 h)⟩
      intro q ms hmem
      rcases List.mem_append.mp hmem with h | h
      · exact hin1 q ms h
      · have := hin2 q ms h
        rw [hf.1, hf.2.1] at this
        exact this
    · push_neg at hc
      rw [portLoop_cons_stop env portCount p port rest r r1 c hc.1 hc.2 hrp]
      exact ⟨ts1, hts1, hin1, hinv1⟩


/-- C16 as stated fails: with two ports and one cycle of one operation, the first port
completes (its cycles take 30 ms) and the second, the last port processed, is aborted
(its cycles take 7 ms): the total elapsed time at the summary is 30, the one of the first
port. -/
theorem total_time_counterexample :
    (mainFrom Real.sqrt lastPortDownEnv oneOpConfig).trace =
      [Event.resolve 0 "tcp" "example.com:80",
       Event.banner 0,
       Event.dial 0 0 0 { network := "tcp", address := "example.com:80", timeoutMillis := 3000 },
       Event.store 0 0 0 (F64.fin 5),
       Event.report 0 0 (F64.fin (5 / 2)),
       Event.total 0 30,
       Event.resolve 1 "tcp" "example.com:443",
       Event.banner 1,
       Event.dial 1 0 0 { network := "tcp", address := "example.com:443", timeoutMillis := 3000 },
       Event.unable 1] ∧
    (mainFrom Real.sqrt lastPortDownEnv oneOpConfig).run.map Run.totalZingTime = some 30 ∧
    lastPortDownEnv.portMillis 1 = 7 := by
  have h52 : (0 : ℝ) ≤ 5 / 2 := by norm_num
  refine ⟨?_, ?_, rfl⟩
  · simp [mainFrom, initRun, oneOpConfig, defaultConfig, stringsSplit_ConstPorts, portLoop,
      runPort, fillHostAddr, lastPortDownEnv, cycleLoop, runCycle, opLoop, doZingToHost,
      ConstCount, ConstLimit, ConstHostName, ConstHostAddr, ConstTcpMode, ConstTimeout,
      Final.trace, Final.run, getTotalTime, report, F64.ofInt, F64.div, F64.add, F64.ge, h52]
  · simp [mainFrom, initRun, oneOpConfig, defaultConfig, stringsSplit_ConstPorts, portLoop,
      runPort, fillHostAddr, lastPortDownEnv, cycleLoop, runCycle, opLoop, doZingToHost,
      ConstCount, ConstLimit, ConstHostName, ConstHostAddr, ConstTcpMode, ConstTimeout,
      Final.run, getTotalTime, report, F64.ofInt, F64.div, F64.add, F64.ge, h52]

end engine3

section engine4
variable {α : Type} [LinearOrderedField α]

/-! ## Probe engine: the values passed to `report` -/

/-- The operations report nothing. -/
theorem opLoop_active (env : Env) (p : Nat) (lHost : String) (x : Nat) :
    ∀ (todo y : Nat) (r : Run α) (t : F64 α),
      ∀ e ∈ (opLoop env p lHost x todo y r t).2.1.trace, e ∈ r.trace ∨ e.Active := by
  intro todo
  induction todo with
  | zero => intro y r t e he; left; simpa [opLoop] using he
  | succ todo ih =>
    intro y r t e he
    cases h : env.dial p x y with
    | none =>
      rw [opLoop_succ_none env p lHost x todo y r t h] at he
      simp only [List.mem_append, List.mem_cons, List.mem_singleton, List.not_mem_nil,
        or_false] at he
      rcases he with he | he | he
      · exact Or.inl he
      · subst he; exact Or.inr trivial
      · subst he; exact Or.inr trivial
    | some e1 =>
      by_cases hx : x < r.timeTable.length
      · rw [opLoop_succ_some env p lHost x todo y r t e1 h hx] at he
        rcases ih _ _ _ e he with h1 | h1
        · simp only [List.mem_append, List.mem_cons, List.mem_singleton, List.not_mem_nil,
            or_false] at h1
          rcases h1 with h1 | h1 | h1
          · exact Or.inl h1
          · subst h1; exact Or.inr trivial
          · subst h1; exact Or.inr trivial
        · exact Or.inr h1
      · rw [opLoop_succ_fault env p lHost x todo y r t e1 h hx] at he
        simp only [List.mem_append, List.mem_singleton] at he
        rcases he with he | he
        · exact Or.inl he
        · subst he; exact Or.inr trivial

/-- With no negative elapsed time, at least one port and at least one operation per cycle,
the value that a cycle passes to `report` is finite and not negative, and the cycle does
not end the process. -/
theorem runCycle_active (env : Env) (portCount p : Nat) (lHost : String) (x : Nat)
    (r : Run α) (hnn : ∀ y e, env.dial p x y = some e → 0 ≤ e) (hpc : 1 ≤ portCount)
    (hl : 1 ≤ r.config.gLimit) :
    (∀ e ∈ (runCycle env portCount p lHost x r).2.trace, e ∈ r.trace ∨ e.Active) ∧
    ∀ code, (runCycle env portCount p lHost x r).1 ≠ Ctl.exit code := by
  rcases hop : opLoop env p lHost x r.config.gLimit.toNat 0 r (F64.fin 0) with ⟨c, r1, total⟩
  have hct := opLoop_ctl env p lHost x r.config.gLimit.toNat 0 r (F64.fin 0)
  have hf := opLoop_frame env p lHost x r.config.gLimit.toNat 0 r (F64.fin 0)
  have ha := opLoop_active env p lHost x r.config.gLimit.toNat 0 r (F64.fin 0)
  obtain ⟨t1, htot, ht1⟩ := opLoop_total env p lHost x hnn r.config.gLimit.toNat 0 r (0 : α)
  rw [hop] at hct hf htot ha
  simp only at htot hf hct ha
  by_cases hc : c = Ctl.normal
  · subst hc
    rw [runCycle_of_normal env portCount p lHost x r r1 total hop]
    have hge : (0 : α) ≤ t1 / (portCount : α) / ((r.config.gLimit : Int) : α) := by
      apply div_nonneg
      · apply div_nonneg ht1
        exact_mod_cast Nat.zero_le portCount
      · exact_mod_cast le_trans (by decide) hl
    simp only [hf.1, htot, getTotalTime_fin t1 portCount r.config.gLimit hpc hl,
      report_fin_nonneg _ hge, if_true]
    refine ⟨?_, fun code => by simp⟩
    intro e he
    simp only [List.mem_append, List.mem_singleton] at he
    rcases he with he | he
    · exact ha e he
    · subst he
      exact Or.inr ⟨_, rfl, hge⟩
  · rw [runCycle_of_not_normal env portCount p lHost x r r1 c total hc hop]
    refine ⟨ha, ?_⟩
    intro code
    rcases hct with h | h | ⟨h, _⟩ <;> rw [h] <;> simp

/-- The same for the cycles of a port. -/
theorem cycleLoop_active (env : Env) (portCount p : Nat) (lHost : String)
    (hnn : ∀ x y e, env.dial p x y = some e → 0 ≤ e) (hpc : 1 ≤ portCount) :
    ∀ (todo x : Nat) (r : Run α), 1 ≤ r.config.gLimit →
      (∀ e ∈ (cycleLoop env portCount p lHost todo x r).2.trace, e ∈ r.trace ∨ e.Active) ∧
      ∀ code, (cycleLoop env portCount p lHost todo x r).1 ≠ Ctl.exit code := by
  intro todo
  induction todo with
  | zero => intro x r _; exact ⟨fun e he => Or.inl (by simpa [cycleLoop] using he), by simp [cycleLoop]⟩
  | succ todo ih =>
    intro x r hl
    rcases hrc : runCycle env portCount p lHost x r with ⟨c, r1⟩
    have hf := runCycle_frame env portCount p lHost x r
    have ha := runCycle_active env portCount p lHost x r (hnn x) hpc hl
    rw [hrc] at hf ha
    simp only at hf ha
    by_cases hc : c = Ctl.normal
    · subst hc
      rw [cycleLoop_succ_normal env portCount p lHost todo x r r1 hrc]
      obtain ⟨h1, h2⟩ := ih (x + 1) r1 (by rw [hf.1]; exact hl)
      refine ⟨?_, h2⟩
      intro e he
      rcases h1 e he with h | h
      · exact ha.1 e h
      · exact Or.inr h
    · rw [cycleLoop_succ_other env portCount p lHost todo x r r1 c hc hrc]
      exact ha

/-- The same for a port. -/
theorem runPort_active (env : Env) (portCount p : Nat) (port : String) (r : Run α)
    (hnn : ∀ x y e, env.dial p x y = some e → 0 ≤ e) (hpc : 1 ≤ portCount)
    (hl : 1 ≤ r.config.gLimit) :
    (∀ e ∈ (runPort env portCount p port r).2.trace, e ∈ r.trace ∨ e.Active) ∧
    ∀ code, (runPort env portCount p port r).1 ≠ Ctl.exit code := by
  cases hfill : fillHostAddr (env.resolve p) r.config with
  | none =>
    rw [runPort_of_fill_none env portCount p port r hfill]
    refine ⟨?_, fun code => by simp⟩
    intro e he
    simp only [List.mem_append, List.mem_singleton] at he
    rcases he with he | he
    · exact Or.inl he
    · subst he; exact Or.inr trivial
  | some config1 =>
    obtain ⟨_, hl1, _⟩ := fillHostAddr_some _ _ _ hfill
    rcases hcl : cycleLoop env portCount p (r.config.netHostName ++ ":" ++ port)
      config1.gCount.toNat 0 (r.beforeCycles env p port config1) with ⟨c, r3⟩
    have ha := cycleLoop_active env portCount p (r.config.netHostName ++ ":" ++ port) hnn hpc
      config1.gCount.toNat 0 (r.beforeCycles env p port config1)
      (by simp only [Run.beforeCycles, hl1]; exact hl)
    rw [hcl] at ha
    obtain ⟨ha1, ha2⟩ := ha
    have hstart : ∀ e ∈ (r.beforeCycles env p port config1).trace, e ∈ r.trace ∨ e.Active := by
      intro e he
      simp only [Run.beforeCycles, List.mem_append, List.mem_singleton] at he
      rcases he with ((he | he) | he) | he
      · exact Or.inl he
      · subst he; exact Or.inr trivial
      · split_ifs at he
        · simp only [List.mem_singleton] at he
          subst he; exact Or.inr trivial
        · simp at he
      · subst he; exact Or.inr trivial
    have h3 : ∀ e ∈ r3.trace, e ∈ r.trace ∨ e.Active := by
      intro e he
      rcases ha1 e he with h | h
      · exact hstart e h
      · exact Or.inr h
    by_cases hc : c = Ctl.normal
    · subst hc
      rw [runPort_of_cycles_normal env portCount p port r r3 config1 hfill hcl]
      refine ⟨?_, fun code => by simp⟩
      intro e he
      simp only [List.mem_append, List.mem_singleton] at he
      rcases he with he | he
      · exact h3 e he
      · subst he; exact Or.inr trivial
    · rw [runPort_of_cycles_other env portCount p port r r3 config1 c hc hfill hcl]
      exact ⟨h3, ha2⟩

/-- The same for the port loop. -/
theorem portLoop_active (env : Env) (portCount : Nat)
    (hnn : ∀ q x y e, env.dial q x y = some e → 0 ≤ e) (hpc : 1 ≤ portCount) :
    ∀ (ports : List String) (p : Nat) (r : Run α), 1 ≤ r.config.gLimit →
      (∀ e ∈ (portLoop env portCount p ports r).2.trace, e ∈ r.trace ∨ e.Active) ∧
      ∀ code, (portLoop env portCount p ports r).1 ≠ Ctl.exit code := by
  intro ports
  induction ports with
  | nil => intro p r _; exact ⟨fun e he => Or.inl (by simpa [portLoop] using he), by simp [portLoop]⟩
  | cons port rest ih =>
    intro p r hl
    rcases hrp : runPort env portCount p port r with ⟨c, r1⟩
    have hf := runPort_frame env portCount p port r
    have ha := runPort_active env portCount p port r (hnn p) hpc hl
    rw [hrp] at hf ha
    simp only at hf ha
    by_cases hc : c = Ctl.normal ∨ c = Ctl.nextPort
    · rw [portLoop_cons_continue env portCount p port rest r r1 c hc hrp]
      obtain ⟨h1, h2⟩ := ih (p + 1) r1 (by rw [hf.2.1]; exact hl)
      refine ⟨?_, h2⟩
      intro e he
      rcases h1 e he with h | h
      · exact ha.1 e h
      · exact Or.inr h
    · push_neg at hc
      rw [portLoop_cons_stop env portCount p port rest r r1 c hc.1 hc.2 hrp]
      exact ha

/-- C17: in every run with at least one operation per cycle (there is always at least one
port) in which no successful dial returns a negative elapsed time, every value passed to
`report` is finite and not negative, `report` takes its `Active` branch on it, and `main`
does not end through the `Absent` branch of `report`: it does not exit before the
summary. -/
theorem report_is_always_active (sqrt : α → α) (env : Env) (config : ZingArgs)
    (hl : 1 ≤ config.gLimit) (hnn : ∀ q x y e, env.dial q x y = some e → 0 ≤ e) :
    (∀ p x v, Event.report p x v ∈ (mainFrom sqrt env config).trace →
      (∃ t, v = F64.fin t ∧ 0 ≤ t) ∧
      ∀ portCount args, report v portCount args = Verdict.active) ∧
    ∀ code run, mainFrom sqrt env config ≠ Final.exit code run := by
  have hpc : 1 ≤ (stringsSplit config.netPorts).length :=
    List.length_pos.mpr (stringsSplit_ne_nil config.netPorts)
  cases h0 : (initRun config : Option (Run α)) with
  | none =>
    refine ⟨?_, ?_⟩
    · intro p x v hmem
      rw [mainFrom_trace_of_none sqrt env config h0] at hmem
      cases hmem
    · intro code run
      simp [mainFrom, h0]
  | some r0 =>
    obtain ⟨hcfg, htr, _⟩ := initRun_some config r0 h0
    obtain ⟨ha1, ha2⟩ := portLoop_active env (stringsSplit config.netPorts).length hnn hpc
      (stringsSplit config.netPorts) 0 r0 (by rw [hcfg]; exact hl)
    refine ⟨?_, ?_⟩
    · intro p x v hmem
      simp only [Final.trace, mainFrom_run sqrt env config r0 h0] at hmem
      rcases ha1 _ hmem with h | h
      · rw [htr] at h; cases h
      · obtain ⟨t, ht, ht0⟩ := h
        refine ⟨⟨t, ht, ht0⟩, ?_⟩
        intro portCount args
        rw [ht]
        exact report_fin_nonneg t ht0 portCount args
    · intro code run
      simp only [mainFrom, h0]
      rcases hpl : portLoop env (stringsSplit config.netPorts).length 0
        (stringsSplit config.netPorts) r0 with ⟨c, r⟩
      rw [hpl] at ha2
      cases c with
      | exit code1 => exact absurd rfl (ha2 code1)
      | normal => simp
      | nextPort => simp
      | fault => simp

/-- C17 at the run of two ports with one cycle of two operations taking 10 and 20 ms: the
reported value 7.5 is not negative and `main` does not exit before the summary. -/
theorem report_is_always_active_witness :
    1 ≤ twoOpsConfig.gLimit ∧ (∀ q x y e, steadyEnv.dial q x y = some e → 0 ≤ e) ∧
    (∀ p x v, Event.report p x v ∈ (mainFrom Real.sqrt steadyEnv twoOpsConfig).trace →
      (∃ t, v = F64.fin t ∧ 0 ≤ t) ∧
      ∀ portCount args, report v portCount args = Verdict.active) ∧
    ∀ code run, mainFrom Real.sqrt steadyEnv twoOpsConfig ≠ Final.exit code run :=
  have hnn : ∀ q x y e, steadyEnv.dial q x y = some e → 0 ≤ e := by
    intro q x y e he
    simp only [steadyEnv] at he
    split_ifs at he <;> injection he with he <;> omega
  have h := report_is_always_active Real.sqrt steadyEnv twoOpsConfig (by decide) hnn
  ⟨by decide, hnn, h.1, h.2⟩

end engine4

/-! ## Probe engine: the number of dials -/

theorem dialCount_append {α : Type} (l1 l2 : List (Event α)) :
    dialCount (l1 ++ l2) = dialCount l1 + dialCount l2 := by
  induction l1 with
  | nil => simp [dialCount]
  | cons e rest ih =>
    cases e with
    | dial p x y call => simp [dialCount, ih]; omega
    | _ => simp [dialCount, ih]

section engine5
variable {α : Type} [LinearOrderedField α]

/-- The operations of a cycle dial at most once per iteration, exactly once when the loop
ends normally; when the loop ends with `continue portLoop`, a dial has failed. -/
theorem opLoop_dialCount (env : Env) (p : Nat) (lHost : String) (x : Nat) :
    ∀ (todo y : Nat) (r : Run α) (t : F64 α),
      ∃ k, k ≤ todo ∧
        dialCount (opLoop env p lHost x todo y r t).2.1.trace = dialCount r.trace + k ∧
        ((opLoop env p lHost x todo y r t).1 = Ctl.normal → k = todo) ∧
        ((opLoop env p lHost x todo y r t).1 = Ctl.nextPort →
          ∃ y1 call, Event.dial p x y1 call ∈ (opLoop env p lHost x todo y r t).2.1.trace ∧
            env.dial p x y1 = none) := by
  intro todo
  induction todo with
  | zero => intro y r t; exact ⟨0, le_refl _, by simp [opLoop], fun _ => rfl, by simp [opLoop]⟩
  | succ todo ih =>
    intro y r t
    cases h : env.dial p x y with
    | none =>
      rw [opLoop_succ_none env p lHost x todo y r t h]
      refine ⟨1, by omega, by simp [dialCount_append, dialCount], by simp, fun _ => ?_⟩
      exact ⟨y, { network := "tcp", address := lHost, timeoutMillis := r.config.timeout },
        by simp, h⟩
    | some e =>
      by_cases hx : x < r.timeTable.length
      · rw [opLoop_succ_some env p lHost x todo y r t e h hx]
        obtain ⟨k, hk, hc, hn, hf⟩ := ih (y + 1)
          { r with timeTable := r.timeTable.set x (F64.ofInt e),
                   trace := r.trace ++ [Event.dial p x y
                     { network := "tcp", address := lHost, timeoutMillis := r.config.timeout },
                     Event.store p x y (F64.ofInt e)] }
          (F64.add t (F64.ofInt e))
        refine ⟨k + 1, by omega, ?_, fun h1 => by rw [hn h1], hf⟩
        rw [hc]
        simp [dialCount_append, dialCount]
        omega
      · rw [opLoop_succ_fault env p lHost x todo y r t e h hx]
        exact ⟨1, by omega, by simp [dialCount_append, dialCount], by simp, by simp⟩

/-- A cycle dials at most once per operation, exactly once when it ends normally; when it
ends with `continue portLoop`, a dial has failed. -/
theorem runCycle_dialCount (env : Env) (portCount p : Nat) (lHost : String) (x : Nat)
    (r : Run α) :
    ∃ k, k ≤ r.config.gLimit.toNat ∧
      dialCount (runCycle env portCount p lHost x r).2.trace = dialCount r.trace + k ∧
      ((runCycle env portCount p lHost x r).1 = Ctl.normal → k = r.config.gLimit.toNat) ∧
      ((runCycle env portCount p lHost x r).1 = Ctl.nextPort →
        ∃ x1 y1 call, Event.dial p x1 y1 call ∈ (runCycle env portCount p lHost x r).2.trace ∧
          env.dial p x1 y1 = none) := by
  rcases hop : opLoop env p lHost x r.config.gLimit.toNat 0 r (F64.fin 0) with ⟨c, r1, total⟩
  obtain ⟨k, hk, hc, hn, hf⟩ := opLoop_dialCount env p lHost x r.config.gLimit.toNat 0 r
    (F64.fin 0)
  rw [hop] at hc hn hf
  simp only at hc hn hf
  by_cases hcn : c = Ctl.normal
  · subst hcn
    rw [runCycle_of_normal env portCount p lHost x r r1 total hop]
    refine ⟨k, hk, by simp [dialCount_append, dialCount, hc], fun _ => hn rfl, ?_⟩
    intro h
    exfalso
    revert h
    simp only
    split_ifs <;> simp
  · rw [runCycle_of_not_normal env portCount p lHost x r r1 c total hcn hop]
    refine ⟨k, hk, hc, fun h => absurd h hcn, ?_⟩
    intro h
    obtain ⟨y1, call, h1, h2⟩ := hf h
    exact ⟨x, y1, call, h1, h2⟩

/-- The cycles of a port dial at most once per cycle and operation, exactly once when
they end normally; when they end with `continue portLoop`, a dial has failed. -/
theorem cycleLoop_dialCount (env : Env) (portCount p : Nat) (lHost : String) :
    ∀ (todo x : Nat) (r : Run α),
      ∃ k, k ≤ todo * r.config.gLimit.toNat ∧
        dialCount (cycleLoop env portCount p lHost todo x r).2.trace = dialCount r.trace + k ∧
        ((cycleLoop env portCount p lHost todo x r).1 = Ctl.normal →
          k = todo * r.config.gLimit.toNat) ∧
        ((cycleLoop env portCount p lHost todo x r).1 = Ctl.nextPort →
          ∃ x1 y1 call,
            Event.dial p x1 y1 call ∈ (cycleLoop env portCount p lHost todo x r).2.trace ∧
            env.dial p x1 y1 = none) := by
  intro todo
  induction todo with
  | zero => intro x r; exact ⟨0, by simp, by simp [cycleLoop], by simp, by simp [cycleLoop]⟩
  | succ todo ih =>
    intro x r
    rcases hrc : runCycle env portCount p lHost x r with ⟨c, r1⟩
    have hfr := runCycle_frame env portCount p lHost x r
    obtain ⟨k, hk, hc, hn, hf⟩ := runCycle_dialCount env portCount p lHost x r
    rw [hrc] at hc hn hf hfr
    simp only at hc hn hf hfr
    by_cases hcn : c = Ctl.normal
    · subst hcn
      rw [cycleLoop_succ_normal env portCount p lHost todo x r r1 hrc]
      obtain ⟨k2, hk2, hc2, hn2, hf2⟩ := ih (x + 1) r1
      rw [hfr.1] at hk2 hn2
      have hkk := hn rfl
      refine ⟨k + k2, ?_, by rw [hc2, hc]; omega, ?_, hf2⟩
      · rw [Nat.succ_mul]; omega
      · intro h
        rw [hn2 h, hkk, Nat.succ_mul]
        omega
    · rw [cycleLoop_succ_other env portCount p lHost todo x r r1 c hcn hrc]
      refine ⟨k, ?_, hc, fun h => absurd h hcn, hf⟩
      rw [Nat.succ_mul]
      omega

/-- A port dials at most once per cycle and operation, exactly once when it ends
normally; when it ends with `continue portLoop`, a dial has failed. -/
theorem runPort_dialCount (env : Env) (portCount p : Nat) (port : String) (r : Run α) :
    ∃ k, k ≤ r.config.gCount.toNat * r.config.gLimit.toNat ∧
      dialCount (runPort env portCount p port r).2.trace = dialCount r.trace + k ∧
      ((runPort env portCount p port r).1 = Ctl.normal →
        k = r.config.gCount.toNat * r.config.gLimit.toNat) ∧
      ((runPort env portCount p port r).1 = Ctl.nextPort →
        ∃ x1 y1 call, Event.dial p x1 y1 call ∈ (runPort env portCount p port r).2.trace ∧
          env.dial p x1 y1 = none) := by
  cases hfill : fillHostAddr (env.resolve p) r.config with
  | none =>
    rw [runPort_of_fill_none env portCount p port r hfill]
    exact ⟨0, by omega, by simp [dialCount_append, dialCount], by simp, by simp⟩
  | some config1 =>
    obtain ⟨hg, hl, _⟩ := fillHostAddr_some _ _ _ hfill
    rcases hcl : cycleLoop env portCount p (r.config.netHostName ++ ":" ++ port)
      config1.gCount.toNat 0 (r.beforeCycles env p port config1) with ⟨c, r3⟩
    obtain ⟨k, hk, hc, hn, hf⟩ := cycleLoop_dialCount env portCount p
      (r.config.netHostName ++ ":" ++ port) config1.gCount.toNat 0
      (r.beforeCycles env p port config1)
    rw [hcl] at hc hn hf
    have hstart : dialCount (r.beforeCycles env p port config1).trace = dialCount r.trace := by
      simp only [Run.beforeCycles, dialCount_append]
      split_ifs <;> simp [dialCount]
    simp only [Run.beforeCycles, hg, hl] at hk hn
    rw [hstart] at hc
    simp only at hc hn hf
    by_cases hcn : c = Ctl.normal
    · subst hcn
      rw [runPort_of_cycles_normal env portCount p port r r3 config1 hfill hcl]
      exact ⟨k, hk, by simp [dialCount_append, dialCount, hc], fun _ => hn rfl, by simp⟩
    · rw [runPort_of_cycles_other env portCount p port r r3 config1 c hcn hfill hcl]
      exact ⟨k, hk, hc, fun h => absurd h hcn, hf⟩

/-- The port loop does not end with `continue portLoop`. -/
theorem portLoop_ne_nextPort (env : Env) (portCount : Nat) :
    ∀ (ports : List String) (p : Nat) (r : Run α),
      (portLoop env portCount p ports r).1 ≠ Ctl.nextPort := by
  intro ports
  induction ports with
  | nil => intro p r; simp [portLoop]
  | cons port rest ih =>
    intro p r
    rcases hrp : runPort env portCount p port r with ⟨c, r1⟩
    by_cases hc : c = Ctl.normal ∨ c = Ctl.nextPort
    · rw [portLoop_cons_continue env portCount p port rest r r1 c hc hrp]
      exact ih (p + 1) r1
    · push_neg at hc
      rw [portLoop_cons_stop env portCount p port rest r r1 c hc.1 hc.2 hrp]
      exact hc.2

/-- The port loop dials at most once per port, cycle and operation, and exactly once when
it ends normally and no dial of the run has failed. -/
theorem portLoop_dialCount (env : Env) (portCount : Nat) :
    ∀ (ports : List String) (p : Nat) (r : Run α),
      ∃ k, k ≤ ports.length * (r.config.gCount.toNat * r.config.gLimit.toNat) ∧
        dialCount (portLoop env portCount p ports r).2.trace = dialCount r.trace + k ∧
        ((portLoop env portCount p ports r).1 = Ctl.normal →
          (∀ q x y call, Event.dial q x y call ∈ (portLoop env portCount p ports r).2.trace →
            env.dial q x y ≠ none) →
          k = ports.length * (r.config.gCount.toNat * r.config.gLimit.toNat)) := by
  intro ports
  induction ports with
  | nil => intro p r; exact ⟨0, by simp, by simp [portLoop], by simp⟩
  | cons port rest ih =>
    intro p r
    rcases hrp : runPort env portCount p port r with ⟨c, r1⟩
    have hfr := runPort_frame env portCount p port r
    obtain ⟨k, hk, hc, hn, hf⟩ := runPort_dialCount env portCount p port r
    rw [hrp] at hc hn hf hfr
    simp only at hc hn hf hfr
    by_cases hcc : c = Ctl.normal ∨ c = Ctl.nextPort
    · rw [portLoop_cons_continue env portCount p port rest r r1 c hcc hrp]
      obtain ⟨k2, hk2, hc2, hn2⟩ := ih (p + 1) r1
      rw [hfr.1, hfr.2.1] at hk2 hn2
      refine ⟨k + k2, ?_, by rw [hc2, hc]; omega, ?_⟩
      · rw [List.length_cons, Nat.succ_mul]; omega
      · intro hnorm hall
        have hk2e := hn2 hnorm hall
        have hcn : c = Ctl.normal := by
          rcases hcc with h | h
          · exact h
          · exfalso
            obtain ⟨x1, y1, call, hmem, hnone⟩ := hf h
            exact hall p x1 y1 call
              ((portLoop_frame env portCount rest (p + 1) r1).2.2.2 _ hmem) hnone
        rw [hn hcn, hk2e, List.length_cons, Nat.succ_mul]
        omega
    · push_neg at hcc
      rw [portLoop_cons_stop env portCount p port rest r r1 c hcc.1 hcc.2 hrp]
      refine ⟨k, ?_, hc, fun h => absurd h hcc.1⟩
      rw [List.length_cons, Nat.succ_mul]
      omega

end engine5

section engine6
variable {α : Type} [LinearOrderedField α]

/-- In every run with a number of cycles and of operations per cycle that are not
negative, the number of dials is at most the number of ports times the operations per
cycle times the cycles, the figure of the summary; and it is that product in every run
that reaches the summary without a failed dial. -/
theorem dialCount_le_total_ops (sqrt : α → α) (env : Env) (config : ZingArgs)
    (hg : 0 ≤ config.gCount) (hl : 0 ≤ config.gLimit) :
    ((dialCount (mainFrom sqrt env config).trace : Int) ≤
      ((stringsSplit config.netPorts).length : Int) * config.gLimit * config.gCount) ∧
    ((∃ r s, mainFrom sqrt env config = Final.summary r s) →
      (∀ q x y call, Event.dial q x y call ∈ (mainFrom sqrt env config).trace →
        env.dial q x y ≠ none) →
      (dialCount (mainFrom sqrt env config).trace : Int) =
        ((stringsSplit config.netPorts).length : Int) * config.gLimit * config.gCount) := by
  have hprod : ((stringsSplit config.netPorts).length : Int) * config.gLimit * config.gCount =
      (((stringsSplit config.netPorts).length *
        (config.gCount.toNat * config.gLimit.toNat) : Nat) : Int) := by
    push_cast
    rw [Int.toNat_of_nonneg hg, Int.toNat_of_nonneg hl]
    ring
  have h0 : (initRun config : Option (Run α)) = some
      { config := config
        timeTable := List.replicate config.gCount.toNat (F64.fin 0)
        totalZingTime := 0
        portIndex := 0
        trace := [] } := by
    unfold initRun
    rw [if_neg (by omega)]
  obtain ⟨k, hk, hc, hn⟩ := portLoop_dialCount env (stringsSplit config.netPorts).length
    (stringsSplit config.netPorts) 0
    ({ config := config
       timeTable := List.replicate config.gCount.toNat (F64.fin 0)
       totalZingTime := 0
       portIndex := 0
       trace := [] } : Run α)
  have hne := portLoop_ne_nextPort env (stringsSplit config.netPorts).length
    (stringsSplit config.netPorts) 0
    ({ config := config
       timeTable := List.replicate config.gCount.toNat (F64.fin 0)
       totalZingTime := 0
       portIndex := 0
       trace := [] } : Run α)
  have htrace : (mainFrom sqrt env config).trace =
      (portLoop env (stringsSplit config.netPorts).length 0 (stringsSplit config.netPorts)
        ({ config := config
           timeTable := List.replicate config.gCount.toNat (F64.fin 0)
           totalZingTime := 0
           portIndex := 0
           trace := [] } : Run α)).2.trace := by
    simp only [Final.trace, mainFrom_run sqrt env config _ h0]
  simp only [dialCount, Nat.zero_add] at hc
  rw [hprod, htrace, hc]
  refine ⟨by exact_mod_cast hk, ?_⟩
  intro hsum hall
  have hnormal : (portLoop env (stringsSplit config.netPorts).length 0
      (stringsSplit config.netPorts)
      ({ config := config
         timeTable := List.replicate config.gCount.toNat (F64.fin 0)
         totalZingTime := 0
         portIndex := 0
         trace := [] } : Run α)).1 = Ctl.normal := by
    obtain ⟨r, s, hrs⟩ := hsum
    unfold mainFrom at hrs
    rw [h0] at hrs
    simp only at hrs
    rcases hpl : portLoop env (stringsSplit config.netPorts).length 0
      (stringsSplit config.netPorts)
      ({ config := config
         timeTable := List.replicate config.gCount.toNat (F64.fin 0)
         totalZingTime := 0
         portIndex := 0
         trace := [] } : Run α) with ⟨c, r1⟩
    rw [hpl] at hrs hne
    cases c with
    | normal => rfl
    | nextPort => exact absurd rfl hne
    | exit code => simp at hrs
    | fault => simp at hrs
  rw [hn hnormal hall]

/-- C18, the code at `zing example.com` when the resolution fails: `main` stops with a
run-time panic before any dial, so that no dial is made and none fails, while the number
of ports times the operations per cycle times the cycles is 32. -/
theorem no_dial_after_failed_resolution :
    dialCount (main Real.sqrt unresolvedEnv ["example.com"]).trace = 0 ∧
    (∀ q x y, unresolvedEnv.dial q x y ≠ none) ∧
    processArgs ["example.com"] defaultConfig =
      Outcome.ok { defaultConfig with netHostName := "example.com", netHostAddr := "" } ∧
    ((stringsSplit ConstPorts).length : Int) * ConstLimit * ConstCount = 32 := by
  refine ⟨?_, ?_, by decide, by decide⟩
  · rw [main_unresolved]
    simp [Final.trace, Final.run, dialCount]
  · intro q x y
    simp [unresolvedEnv]

end engine6

section engine7
variable {α : Type} [LinearOrderedField α]

/-! ## Probe engine: which port records the total elapsed time -/

/-- The operations end with `continue portLoop` only after a failed dial of the cycle. -/
theorem opLoop_abort (env : Env) (p : Nat) (lHost : String) (x : Nat) :
    ∀ (todo y : Nat) (r : Run α) (t : F64 α),
      (opLoop env p lHost x todo y r t).1 = Ctl.nextPort →
      ∃ y1, y ≤ y1 ∧ y1 < y + todo ∧ env.dial p x y1 = none := by
  intro todo
  induction todo with
  | zero => intro y r t h; simp [opLoop] at h
  | succ todo ih =>
    intro y r t hc
    cases h : env.dial p x y with
    | none => exact ⟨y, le_refl _, by omega, h⟩
    | some e =>
      by_cases hx : x < r.timeTable.length
      · rw [opLoop_succ_some env p lHost x todo y r t e h hx] at hc
        obtain ⟨y1, h1, h2, h3⟩ := ih _ _ _ hc
        exact ⟨y1, by omega, by omega, h3⟩
      · rw [opLoop_succ_fault env p lHost x todo y r t e h hx] at hc
        simp at hc

/-- A cycle ends with `continue portLoop` only after a failed dial of the cycle. -/
theorem runCycle_abort (env : Env) (portCount p : Nat) (lHost : String) (x : Nat) (r : Run α)
    (hc : (runCycle env portCount p lHost x r).1 = Ctl.nextPort) :
    ∃ y1, y1 < r.config.gLimit.toNat ∧ env.dial p x y1 = none := by
  rcases hop : opLoop env p lHost x r.config.gLimit.toNat 0 r (F64.fin 0) with ⟨c, r1, total⟩
  have ha := opLoop_abort env p lHost x r.config.gLimit.toNat 0 r (F64.fin 0)
  rw [hop] at ha
  by_cases hcn : c = Ctl.normal
  · subst hcn
    rw [runCycle_of_normal env portCount p lHost x r r1 total hop] at hc
    exfalso
    revert hc
    simp only
    split_ifs <;> simp
  · rw [runCycle_of_not_normal env portCount p lHost x r r1 c total hcn hop] at hc
    obtain ⟨y1, _, h2, h3⟩ := ha hc
    exact ⟨y1, by omega, h3⟩

/-- The cycles of a port end with `continue portLoop` only after a failed dial. -/
theorem cycleLoop_abort (env : Env) (portCount p : Nat) (lHost : String) :
    ∀ (todo x : Nat) (r : Run α),
      (cycleLoop env portCount p lHost todo x r).1 = Ctl.nextPort →
      ∃ x1 y1, x ≤ x1 ∧ x1 < x + todo ∧ y1 < r.config.gLimit.toNat ∧
        env.dial p x1 y1 = none := by
  intro todo
  induction todo with
  | zero => intro x r h; simp [cycleLoop] at h
  | succ todo ih =>
    intro x r hc
    rcases hrc : runCycle env portCount p lHost x r with ⟨c, r1⟩
    have hf := runCycle_frame env portCount p lHost x r
    have ha := runCycle_abort env portCount p lHost x r
    rw [hrc] at hf ha
    by_cases hcn : c = Ctl.normal
    · subst hcn
      rw [cycleLoop_succ_normal env portCount p lHost todo x r r1 hrc] at hc
      obtain ⟨x1, y1, h1, h2, h3, h4⟩ := ih (x + 1) r1 hc
      rw [show r1.config = r.config from hf.1] at h3
      exact ⟨x1, y1, by omega, by omega, h3, h4⟩
    · rw [cycleLoop_succ_other env portCount p lHost todo x r r1 c hcn hrc] at hc
      obtain ⟨y1, h1, h2⟩ := ha hc
      exact ⟨x, y1, le_refl _, by omega, h1, h2⟩

/-- A port ends with `continue portLoop` only when one of its operations fails. -/
theorem runPort_abort (env : Env) (portCount p : Nat) (port : String) (r : Run α)
    (hc : (runPort env portCount p port r).1 = Ctl.nextPort) :
    ¬ env.allSucceed r.config.gCount.toNat r.config.gLimit.toNat p := by
  cases hfill : fillHostAddr (env.resolve p) r.config with
  | none =>
    rw [runPort_of_fill_none env portCount p port r hfill] at hc
    simp at hc
  | some config1 =>
    obtain ⟨hg, hl, _⟩ := fillHostAddr_some _ _ _ hfill
    rcases hcl : cycleLoop env portCount p (r.config.netHostName ++ ":" ++ port)
      config1.gCount.toNat 0 (r.beforeCycles env p port config1) with ⟨c, r3⟩
    have ha := cycleLoop_abort env portCount p (r.config.netHostName ++ ":" ++ port)
      config1.gCount.toNat 0 (r.beforeCycles env p port config1)
    rw [hcl] at ha
    by_cases hcn : c = Ctl.normal
    · subst hcn
      rw [runPort_of_cycles_normal env portCount p port r r3 config1 hfill hcl] at hc
      simp at hc
    · rw [runPort_of_cycles_other env portCount p port r r3 config1 c hcn hfill hcl] at hc
      obtain ⟨x1, y1, _, h2, h3, h4⟩ := ha hc
      simp only [Run.beforeCycles, hg, hl, Nat.zero_add] at h2 h3
      intro hall
      exact hall x1 y1 h2 h3 h4

/-- A port ends normally only when all its operations succeed. -/
theorem runPort_normal_allSucceed (env : Env) (portCount p : Nat) (port : String) (r : Run α)
    (hc : (runPort env portCount p port r).1 = Ctl.normal) :
    env.allSucceed r.config.gCount.toNat r.config.gLimit.toNat p := by
  have hb := ((runPort_totals env portCount p port r).1 hc).2.2
  intro x y hx hy
  exact hb x y hy (Or.inl hx)

/-- A port whose host address can be filled in, in a run with no negative elapsed time, at
least one port and one operation per cycle, and a table of one entry per cycle, ends
normally or with `continue portLoop`. -/
theorem runPort_ends (env : Env) (portCount p : Nat) (port : String) (r : Run α)
    (config1 : ZingArgs) (hnn : ∀ x y e, env.dial p x y = some e → 0 ≤ e) (hpc : 1 ≤ portCount)
    (hl : 1 ≤ r.config.gLimit) (hlen : r.timeTable.length = r.config.gCount.toNat)
    (hfill : fillHostAddr (env.resolve p) r.config = some config1) :
    (runPort env portCount p port r).1 = Ctl.normal ∨
    (runPort env portCount p port r).1 = Ctl.nextPort := by
  obtain ⟨hg1, hl1, _⟩ := fillHostAddr_some _ _ _ hfill
  rcases hcl : cycleLoop env portCount p (r.config.netHostName ++ ":" ++ port)
    config1.gCount.toNat 0 (r.beforeCycles env p port config1) with ⟨c, r3⟩
  have hp := cycleLoop_progress env portCount p (r.config.netHostName ++ ":" ++ port) hnn hpc
    config1.gCount.toNat 0 (r.beforeCycles env p port config1)
    (by simp only [Run.beforeCycles, hl1]; exact hl)
    (by simp only [Run.beforeCycles, hg1, hlen]; omega)
  rw [hcl] at hp
  by_cases hc : c = Ctl.normal
  · subst hc
    rw [runPort_of_cycles_normal env portCount p port r r3 config1 hfill hcl]
    exact Or.inl rfl
  · rw [runPort_of_cycles_other env portCount p port r r3 config1 c hc hfill hcl]
    exact hp

/-- When the port loop ends normally, the total elapsed time is the elapsed time of the
last port all of whose operations succeed, and the total from before when there is no
such port. -/
theorem portLoop_last_completed (env : Env) (portCount : Nat) :
    ∀ (ports : List String) (p : Nat) (r : Run α),
      (portLoop env portCount p ports r).1 = Ctl.normal →
      (∀ q, p ≤ q → q < p + ports.length →
        env.allSucceed r.config.gCount.toNat r.config.gLimit.toNat q →
        (∀ q1, q < q1 → q1 < p + ports.length →
          ¬ env.allSucceed r.config.gCount.toNat r.config.gLimit.toNat q1) →
        (portLoop env portCount p ports r).2.totalZingTime = env.portMillis q ∧
        Event.total q (env.portMillis q) ∈ (portLoop env portCount p ports r).2.trace) ∧
      ((∀ q, p ≤ q → q < p + ports.length →
          ¬ env.allSucceed r.config.gCount.toNat r.config.gLimit.toNat q) →
        (portLoop env portCount p ports r).2.totalZingTime = r.totalZingTime ∧
        totals (portLoop env portCount p ports r).2.trace = totals r.trace) := by
  intro ports
  induction ports with
  | nil =>
    intro p r _
    refine ⟨?_, fun _ => by simp [portLoop]⟩
    intro q h1 h2
    simp at h2
    omega
  | cons port rest ih =>
    intro p r hnorm
    rcases hrp : runPort env portCount p port r with ⟨c, r1⟩
    have hfr := runPort_frame env portCount p port r
    have htot := runPort_totals env portCount p port r
    have hab := runPort_abort env portCount p port r
    have hno := runPort_normal_allSucceed env portCount p port r
    rw [hrp] at hfr htot hab hno
    simp only at hfr htot hab hno
    have hcc : c = Ctl.normal ∨ c = Ctl.nextPort := by
      by_contra hcc
      push_neg at hcc
      rw [portLoop_cons_stop env portCount p port rest r r1 c hcc.1 hcc.2 hrp] at hnorm
      exact hcc.1 hnorm
    rw [portLoop_cons_continue env portCount p port rest r r1 c hcc hrp] at hnorm ⊢
    obtain ⟨ihA, ihB⟩ := ih (p + 1) r1 hnorm
    rw [hfr.1, hfr.2.1] at ihA ihB
    constructor
    · intro q hq1 hq2 hall hlater
      rcases Nat.eq_or_lt_of_le hq1 with heq | hlt
      · subst heq
        have hcn : c = Ctl.normal := by
          rcases hcc with h | h
          · exact h
          · exact absurd hall (hab h)
        obtain ⟨ht1, ht2, _⟩ := htot.1 hcn
        obtain ⟨hb1, _⟩ := ihB (fun q1 h1 h2 =>
          hlater q1 (by omega) (by simp only [List.length_cons]; omega))
        refine ⟨hb1.trans ht2, ?_⟩
        apply (portLoop_frame env portCount rest (p + 1) r1).2.2.2
        apply (mem_totals r1.trace p (env.portMillis p)).mp
        rw [ht1]
        simp
      · exact ihA q hlt (by simp only [List.length_cons] at hq2; omega) hall
          (fun q1 h1 h2 => hlater q1 h1 (by simp only [List.length_cons]; omega))
    · intro hnone
      have hcn : c ≠ Ctl.normal := fun h => hnone p (le_refl _) (by simp) (hno h)
      obtain ⟨ht1, ht2⟩ := htot.2 hcn
      obtain ⟨hb1, hb2⟩ := ihB (fun q1 h1 h2 =>
        hnone q1 (by omega) (by simp only [List.length_cons]; omega))
      exact ⟨hb1.trans ht2, hb2.trans ht1⟩

end engine7

section engine8
variable {α : Type} [LinearOrderedField α]

/-- C16, amended: a port all of whose probes succeed, so that its cycles all complete,
records the elapsed time of its cycle loop as the total elapsed time of the run, and a
port aborted by a failed probe records nothing and leaves the total as it was; so that, at
summary time, the total elapsed time is the elapsed time of the last port that completed
all its cycles, and 0 when no port did. -/
theorem total_is_last_completed_port (sqrt : α → α) (env : Env) (config : ZingArgs) :
    (∀ (portCount p : Nat) (port : String) (r : Run α) (config1 : ZingArgs),
      1 ≤ portCount → 1 ≤ r.config.gLimit →
      r.timeTable.length = r.config.gCount.toNat →
      (∀ x y e, env.dial p x y = some e → 0 ≤ e) →
      fillHostAddr (env.resolve p) r.config = some config1 →
      (env.allSucceed r.config.gCount.toNat r.config.gLimit.toNat p →
        (runPort env portCount p port r).2.totalZingTime = env.portMillis p ∧
        totals (runPort env portCount p port r).2.trace =
          totals r.trace ++ [(p, env.portMillis p)]) ∧
      (¬ env.allSucceed r.config.gCount.toNat r.config.gLimit.toNat p →
        (runPort env portCount p port r).2.totalZingTime = r.totalZingTime ∧
        totals (runPort env portCount p port r).2.trace = totals r.trace)) ∧
    (∀ r s, mainFrom sqrt env config = Final.summary r s →
      (∀ q, q < (stringsSplit config.netPorts).length →
        env.allSucceed config.gCount.toNat config.gLimit.toNat q →
        (∀ q1, q < q1 → q1 < (stringsSplit config.netPorts).length →
          ¬ env.allSucceed config.gCount.toNat config.gLimit.toNat q1) →
        r.totalZingTime = env.portMillis q ∧ Event.total q (env.portMillis q) ∈ r.trace) ∧
      ((∀ q, q < (stringsSplit config.netPorts).length →
          ¬ env.allSucceed config.gCount.toNat config.gLimit.toNat q) →
        r.totalZingTime = 0 ∧ totals r.trace = [])) := by
  constructor
  · intro portCount p port r config1 hpc hl hlen hnn hfill
    have hends := runPort_ends env portCount p port r config1 hnn hpc hl hlen hfill
    have htot := runPort_totals env portCount p port r
    constructor
    · intro hall
      have hcn : (runPort env portCount p port r).1 = Ctl.normal := by
        rcases hends with h | h
        · exact h
        · exact absurd hall (runPort_abort env portCount p port r h)
      obtain ⟨h1, h2, _⟩ := htot.1 hcn
      exact ⟨h2, h1⟩
    · intro hnot
      have hcn : (runPort env portCount p port r).1 ≠ Ctl.normal :=
        fun h => hnot (runPort_normal_allSucceed env portCount p port r h)
      obtain ⟨h1, h2⟩ := htot.2 hcn
      exact ⟨h2, h1⟩
  · intro r s hsum
    cases h0 : (initRun config : Option (Run α)) with
    | none => simp [mainFrom, h0] at hsum
    | some r0 =>
      obtain ⟨hcfg, htr, _⟩ := initRun_some config r0 h0
      have hz : r0.totalZingTime = 0 := by
        unfold initRun at h0
        split_ifs at h0
        simp only [Option.some.injEq] at h0
        rw [← h0]
      have hne := portLoop_ne_nextPort env (stringsSplit config.netPorts).length
        (stringsSplit config.netPorts) 0 r0
      have hlast := portLoop_last_completed env (stringsSplit config.netPorts).length
        (stringsSplit config.netPorts) 0 r0
      unfold mainFrom at hsum
      rw [h0] at hsum
      simp only at hsum
      rcases hpl : portLoop env (stringsSplit config.netPorts).length 0
        (stringsSplit config.netPorts) r0 with ⟨c, r1⟩
      rw [hpl] at hsum hne hlast
      simp only at hne hlast
      have hr : r1 = r ∧ c = Ctl.normal := by
        cases c with
        | normal =>
          simp only [Final.summary.injEq] at hsum
          exact ⟨hsum.1, rfl⟩
        | nextPort => exact absurd rfl hne
        | exit code => simp at hsum
        | fault => simp at hsum
      obtain ⟨hr1, hcn⟩ := hr
      subst hr1
      obtain ⟨hA, hB⟩ := hlast hcn
      rw [hcfg] at hA hB
      constructor
      · intro q hq hall hlater
        exact hA q (Nat.zero_le _) (by omega) hall (fun q1 h1 h2 => hlater q1 h1 (by omega))
      · intro hnone
        obtain ⟨h1, h2⟩ := hB (fun q _ h2 => hnone q (by omega))
        rw [hz] at h1
        rw [htr] at h2
        exact ⟨h1, h2⟩

/-- The run in which the first port completes and the second is aborted reaches the
summary. -/
theorem lastPortDown_summary :
    ∃ r s, mainFrom Real.sqrt lastPortDownEnv oneOpConfig = Final.summary r s := by
  have h52 : (0 : ℝ) ≤ 5 / 2 := by norm_num
  simp [mainFrom, initRun, oneOpConfig, defaultConfig, stringsSplit_ConstPorts, portLoop,
    runPort, fillHostAddr, lastPortDownEnv, cycleLoop, runCycle, opLoop, doZingToHost,
    ConstCount, ConstLimit, ConstHostName, ConstHostAddr, ConstTcpMode, ConstTimeout,
    getTotalTime, report, F64.ofInt, F64.div, F64.add, F64.ge, h52]

/-- C16, amended, at two ports and one cycle of one operation, where the dial on the first
port succeeds and its cycles take 30 ms, and the dial on the second port fails: the
summary is reached, the total of 30 ms of the first port is recorded, and the total
elapsed time at the summary is 30. -/
theorem total_is_last_completed_port_witness :
    lastPortDownEnv.allSucceed oneOpConfig.gCount.toNat oneOpConfig.gLimit.toNat 0 ∧
    (∀ q1, 0 < q1 → q1 < (stringsSplit oneOpConfig.netPorts).length →
      ¬ lastPortDownEnv.allSucceed oneOpConfig.gCount.toNat oneOpConfig.gLimit.toNat q1) ∧
    ∃ r s, mainFrom Real.sqrt lastPortDownEnv oneOpConfig = Final.summary r s ∧
      r.totalZingTime = 30 ∧ Event.total 0 30 ∈ r.trace :=
  have hall : lastPortDownEnv.allSucceed oneOpConfig.gCount.toNat
      oneOpConfig.gLimit.toNat 0 := by
    intro x y _ _
    simp [lastPortDownEnv]
  have hlater : ∀ q1, 0 < q1 → q1 < (stringsSplit oneOpConfig.netPorts).length →
      ¬ lastPortDownEnv.allSucceed oneOpConfig.gCount.toNat oneOpConfig.gLimit.toNat q1 := by
    intro q1 h1 _ hq
    have := hq 0 0 (by decide) (by decide)
    simp only [lastPortDownEnv] at this
    rw [if_neg (by omega)] at this
    exact this rfl
  ⟨hall, hlater, lastPortDown_summary.elim fun r hs => hs.elim fun s hrs =>
    ⟨r, s, hrs,
      ((total_is_last_completed_port Real.sqrt lastPortDownEnv oneOpConfig).2 r s hrs).1 0
        (by decide) hall hlater⟩⟩

end engine8

end Zing
